import Mathlib

/-!
# Verification of the concrete-policy / Taproot core of a Miniscript library

This file gives a shallow embedding, in Lean 4, of the parts of the
repository relevant to the claims under scrutiny:

* `src/policy/concrete.rs` — the concrete `Policy` tree, its validators
  (`is_valid`, `check_timelocks`, `check_duplicate_keys`), the
  safety/malleability analysis (`is_safe_nonmalleable`), the internal-key
  extraction (`extract_recursive`), the parser (`from_tree_prob`,
  `from_str`), the printer (`Display`), and the Huffman TapTree builder
  (`with_huffman_tree`);
* `src/miniscript/iter.rs` — the Miniscript AST node accessors
  (`branches`, `get_nth_child`, `get_nth_pk`, `get_nth_pkh`,
  `get_nth_pk_pkh`) and the key iterators (`Iter`, `PkIter`, `PkhIter`,
  `PkPkhIter`, `pk_only`).

Rust `u32`/`usize` values are modelled as `Nat` with explicit `% 2 ^ 32`
where the code truncates; fallible code returns `Except`.  Keys are
instantiated at `String` (the instantiation used by the repository's own
tests); where the source is generic the definitions here are generic too.

A few collaborating definitions live outside the given sources
(`expression::Tree`, `expression::parse_num`, `expression::terminal`,
`TimelockInfo::combine_threshold`, `KeyExpr` and its leaf iterator).
Those are modelled from the specification and are marked
`Modelled from the spec:` in their doc comments.
-/

namespace Miniscript

/-! ## Policy data model (src/policy/concrete.rs, enum `Policy<Pk>`)

Hash payloads (`Pk::Sha256` etc.) are opaque to every claim; they are
modelled as `String`, which is also what they are for the repository's
`Pk = String` test instantiation. -/

/-- The concrete policy tree, `Policy<Pk>` from `src/policy/concrete.rs`. -/
inductive Policy (Pk : Type) where
  | Unsatisfiable : Policy Pk
  | Trivial : Policy Pk
  | Key (pk : Pk) : Policy Pk
  | After (n : Nat) : Policy Pk
  | Older (n : Nat) : Policy Pk
  | Sha256 (h : String) : Policy Pk
  | Hash256 (h : String) : Policy Pk
  | Ripemd160 (h : String) : Policy Pk
  | Hash160 (h : String) : Policy Pk
  | And (subs : List (Policy Pk)) : Policy Pk
  | Or (subs : List (Nat × Policy Pk)) : Policy Pk
  | Threshold (k : Nat) (subs : List (Policy Pk)) : Policy Pk

/-- `PolicyError` from `src/policy/concrete.rs`. -/
inductive PolicyError where
  | NonBinaryArgAnd
  | NonBinaryArgOr
  | IncorrectThresh
  | ZeroTime
  | TimeTooFar
  | InsufficientArgsforAnd
  | InsufficientArgsforOr
  | EntailmentMaxTerminals
  | HeightTimelockCombination
  | DuplicatePubKeys
  deriving DecidableEq, Repr

/-! ## `is_safe_nonmalleable` (src/policy/concrete.rs lines 800-843) -/

namespace Policy

variable {Pk : Type}

mutual

/-- `is_safe_nonmalleable` from `src/policy/concrete.rs`: returns the
pair `(safe, non_malleable)` computed bottom-up.  The source's
`subs.iter().map(|sub| sub.is_safe_nonmalleable())` is the list
`isnList subs` (resp. `isnPairList` for the weighted `Or` children).

In the `Threshold` arm the source computes `subs.len() - k + 1` and
`subs.len() - k` with `usize` subtraction, which panics when
`k > subs.len()`; here `-` is natural truncated subtraction, which
agrees with the source whenever `k ≤ subs.len()`. -/
def isSafeNonmalleable : Policy Pk → Bool × Bool
  | .Unsatisfiable | .Trivial => (true, true)
  | .Key _ => (true, true)
  | .Sha256 _ | .Hash256 _ | .Ripemd160 _ | .Hash160 _ | .After _ | .Older _ =>
      (false, true)
  | .Threshold k subs =>
      let counts := (isnList subs).foldl
        (fun (acc : Nat × Nat) x =>
          (acc.1 + (if x.1 then 1 else 0), acc.2 + (if x.2 then 1 else 0)))
        (0, 0)
      (decide (counts.1 ≥ subs.length - k + 1),
       decide (counts.2 = subs.length ∧ counts.1 ≥ subs.length - k))
  | .And subs =>
      (isnList subs).foldl (fun acc x => (acc.1 || x.1, acc.2 && x.2)) (false, true)
  | .Or subs =>
      let t := (isnPairList subs).foldl
        (fun (acc : Bool × Bool × Bool) x =>
          (acc.1 && x.1, acc.2.1 || x.1, acc.2.2 && x.2))
        (true, false, true)
      (t.1, t.2.1 && t.2.2)

/-- `is_safe_nonmalleable` mapped over a list of sub-policies. -/
def isnList : List (Policy Pk) → List (Bool × Bool)
  | [] => []
  | p :: ps => isSafeNonmalleable p :: isnList ps

/-- `is_safe_nonmalleable` mapped over weighted `Or` children. -/
def isnPairList : List (Nat × Policy Pk) → List (Bool × Bool)
  | [] => []
  | (_, p) :: ps => isSafeNonmalleable p :: isnPairList ps

end

/-! ## `extract_recursive` (src/policy/concrete.rs lines 211-308) -/

/-- `is_key` from `src/policy/concrete.rs`. -/
def isKey : Policy Pk → Bool
  | .Key _ => true
  | _ => false

/-- The key projection used in the `And` arm of `extract_recursive`
(`match pol { Concrete::Key(pk) => pk.clone(), _ => unreachable!(..) }`).
The source panics on a non-key; here a non-key is dropped, which agrees
with the source on every input on which the source is defined. -/
def keyOf : Policy Pk → Option Pk
  | .Key pk => some pk
  | _ => none

mutual

/-- `extract_recursive` from `src/policy/concrete.rs`.

* `And`: the source indexes `subs[0]` / `subs[1]` (panicking on shorter
  lists); lists with fewer than two elements are modelled as `[]`.
* `Threshold` with `k == subs.len()`: the source's `filter` with the
  `all_non_empty` side effect collects exactly the non-empty key
  vectors and remembers whether all were non-empty; when all are
  non-empty the filter is the identity, so the result is the flattening
  of all sub-results, else `[]`.
* `Threshold` with `k ≠ subs.len()`: the source's mutable
  `valid_policies` counter keeps the first `k` non-empty sub-results
  and finally requires the total number of non-empty sub-results to be
  at least `k`. -/
def extractRecursive : Policy Pk → List Pk
  | .And subs =>
      match subs with
      | a :: b :: rest =>
          if isKey a && isKey b then (a :: b :: rest).filterMap keyOf else []
      | _ => []
  | .Threshold k subs =>
      let vecs := extractList subs
      if k = subs.length then
        if vecs.all (fun v => !v.isEmpty) then vecs.flatten else []
      else
        let nonEmpty := vecs.filter (fun v => !v.isEmpty)
        if k ≤ nonEmpty.length then (nonEmpty.take k).flatten else []
  | .Or subs => extractOr subs
  | .Key pk => [pk]
  | _ => []

/-- `extract_recursive` mapped over a list of sub-policies
(the `subs.iter().map(|policy| policy.extract_recursive())` of the
two `Threshold` arms). -/
def extractList : List (Policy Pk) → List (List Pk)
  | [] => []
  | p :: ps => extractRecursive p :: extractList ps

/-- The `Or` arm of `extract_recursive`.  The source indexes
`subs[0]` / `subs[1]` (panicking on shorter lists); lists with fewer
than two elements are modelled as `[]`. -/
def extractOr : List (Nat × Policy Pk) → List Pk
  | (w0, a) :: (w1, b) :: _ =>
      let lv := extractRecursive a
      let rv := extractRecursive b
      if w0 > w1 then (if lv.isEmpty then rv else lv)
      else if w0 < w1 then (if rv.isEmpty then lv else rv)
      else if lv.isEmpty then rv
      else if rv.isEmpty then lv
      else if lv.length < rv.length then lv else rv
  | _ => []

end

/-! ### Claim-side restatement of `is_safe_nonmalleable` (claim C3)

`claimSafeNm` is written from the claim's wording ("safe iff at least
`n-k+1` subs are safe; non-malleable iff all subs are non-malleable and
at least `n-k` subs are safe", with ordinary integer arithmetic), to be
compared with the source-derived `isSafeNonmalleable`. -/

mutual

/-- The `(safe, non_malleable)` pair as described by claim C3. -/
def claimSafeNm : Policy Pk → Bool × Bool
  | .Unsatisfiable | .Trivial | .Key _ => (true, true)
  | .Sha256 _ | .Hash256 _ | .Ripemd160 _ | .Hash160 _ | .After _ | .Older _ =>
      (false, true)
  | .Threshold k subs =>
      let rs := claimSafeNmList subs
      let n := subs.length
      let nsafe := rs.countP (fun x => x.1)
      (decide ((n : ℤ) - k + 1 ≤ nsafe),
       rs.all (fun x => x.2) && decide ((n : ℤ) - k ≤ nsafe))
  | .And subs =>
      let rs := claimSafeNmList subs
      (rs.any (fun x => x.1), rs.all (fun x => x.2))
  | .Or subs =>
      let rs := claimSafeNmPairList subs
      (rs.all (fun x => x.1), rs.all (fun x => x.2) && rs.any (fun x => x.1))

def claimSafeNmList : List (Policy Pk) → List (Bool × Bool)
  | [] => []
  | p :: ps => claimSafeNm p :: claimSafeNmList ps

def claimSafeNmPairList : List (Nat × Policy Pk) → List (Bool × Bool)
  | [] => []
  | (_, p) :: ps => claimSafeNm p :: claimSafeNmPairList ps

end

mutual

/-- Every `Threshold k subs` node satisfies `k ≤ subs.length`.  On the
complement the source's `is_safe_nonmalleable` panics (usize
underflow), so the comparison is stated under this hypothesis. -/
def threshOk : Policy Pk → Bool
  | .Threshold k subs => decide (k ≤ subs.length) && threshOkList subs
  | .And subs => threshOkList subs
  | .Or subs => threshOkPairList subs
  | _ => true

def threshOkList : List (Policy Pk) → Bool
  | [] => true
  | p :: ps => threshOk p && threshOkList ps

def threshOkPairList : List (Nat × Policy Pk) → Bool
  | [] => true
  | (_, p) :: ps => threshOk p && threshOkPairList ps

end

section FoldLemmas

lemma isnList_eq_map (l : List (Policy Pk)) :
    isnList l = l.map isSafeNonmalleable := by
  induction l with
  | nil => rfl
  | cons p ps ih => simp [isnList, ih]

lemma isnPairList_eq_map (l : List (Nat × Policy Pk)) :
    isnPairList l = l.map (fun x => isSafeNonmalleable x.2) := by
  induction l with
  | nil => rfl
  | cons p ps ih => obtain ⟨w, q⟩ := p; simp [isnPairList, ih]

lemma claimSafeNmList_eq_map (l : List (Policy Pk)) :
    claimSafeNmList l = l.map claimSafeNm := by
  induction l with
  | nil => rfl
  | cons p ps ih => simp [claimSafeNmList, ih]

lemma claimSafeNmPairList_eq_map (l : List (Nat × Policy Pk)) :
    claimSafeNmPairList l = l.map (fun x => claimSafeNm x.2) := by
  induction l with
  | nil => rfl
  | cons p ps ih => obtain ⟨w, q⟩ := p; simp [claimSafeNmPairList, ih]

lemma foldl_counts (rs : List (Bool × Bool)) (a b : Nat) :
    rs.foldl
      (fun (acc : Nat × Nat) x =>
        (acc.1 + (if x.1 then 1 else 0), acc.2 + (if x.2 then 1 else 0)))
      (a, b)
    = (a + rs.countP (fun x => x.1), b + rs.countP (fun x => x.2)) := by
  induction rs generalizing a b with
  | nil => simp
  | cons x xs ih =>
      obtain ⟨x1, x2⟩ := x
      cases x1 <;> cases x2 <;>
        simp [List.foldl_cons, ih, List.countP_cons, Prod.mk.injEq] <;> omega

lemma foldl_orand (rs : List (Bool × Bool)) (a b : Bool) :
    rs.foldl (fun acc x => (acc.1 || x.1, acc.2 && x.2)) (a, b)
    = (a || rs.any (fun x => x.1), b && rs.all (fun x => x.2)) := by
  induction rs generalizing a b with
  | nil => simp
  | cons x xs ih =>
      simp [ih, Bool.or_assoc, Bool.and_assoc]

lemma foldl_triple (rs : List (Bool × Bool)) (a b c : Bool) :
    rs.foldl
      (fun (acc : Bool × Bool × Bool) x =>
        (acc.1 && x.1, acc.2.1 || x.1, acc.2.2 && x.2))
      (a, b, c)
    = (a && rs.all (fun x => x.1), b || rs.any (fun x => x.1),
       c && rs.all (fun x => x.2)) := by
  induction rs generalizing a b c with
  | nil => simp
  | cons x xs ih =>
      simp [ih, Bool.or_assoc, Bool.and_assoc]

end FoldLemmas

section C3Proof

lemma all_eq_decide_countP (rs : List α) (f : α → Bool) :
    rs.all f = decide (rs.countP f = rs.length) := by
  induction rs with
  | nil => simp
  | cons x xs ih =>
      have hle := List.countP_le_length (p := f) (l := xs)
      cases hfx : f x <;>
        (simp [List.countP_cons, hfx, ih, decide_eq_decide]; try omega)

lemma threshOkList_mem {l : List (Policy Pk)} (h : threshOkList l = true) :
    ∀ q ∈ l, threshOk q = true := by
  induction l with
  | nil => intro q hq; cases hq
  | cons p ps ih =>
      simp only [threshOkList, Bool.and_eq_true] at h
      intro q hq
      rcases List.mem_cons.mp hq with rfl | hq
      · exact h.1
      · exact ih h.2 q hq

lemma threshOkPairList_mem {l : List (Nat × Policy Pk)} (h : threshOkPairList l = true) :
    ∀ x ∈ l, threshOk x.2 = true := by
  induction l with
  | nil => intro q hq; cases hq
  | cons p ps ih =>
      obtain ⟨w, q⟩ := p
      simp only [threshOkPairList, Bool.and_eq_true] at h
      intro x hx
      rcases List.mem_cons.mp hx with rfl | hx
      · exact h.1
      · exact ih h.2 x hx

lemma isn_claim_aux :
    ∀ (fuel : Nat) (p : Policy Pk), sizeOf p ≤ fuel → threshOk p = true →
      isSafeNonmalleable p = claimSafeNm p := by
  intro fuel
  induction fuel with
  | zero =>
      intro p hp _
      exfalso
      cases p <;> simp at hp
  | succ n ih =>
      intro p hp hok
      cases p with
      | Unsatisfiable | Trivial | Key _ => rfl
      | Sha256 _ | Hash256 _ | Ripemd160 _ | Hash160 _ | After _ | Older _ => rfl
      | Threshold k subs =>
          simp only [threshOk, Bool.and_eq_true, decide_eq_true_eq] at hok
          obtain ⟨hk, hol⟩ := hok
          have hmap : subs.map isSafeNonmalleable = subs.map claimSafeNm := by
            apply List.map_congr_left
            intro q hq
            have hsz := List.sizeOf_lt_of_mem hq
            apply ih q ?_ (threshOkList_mem hol q hq)
            simp only [Policy.Threshold.sizeOf_spec] at hp
            omega
          simp only [isSafeNonmalleable, claimSafeNm, isnList_eq_map,
            claimSafeNmList_eq_map, foldl_counts, hmap]
          set rs := subs.map claimSafeNm with hrs
          have hlen : rs.length = subs.length := by simp [hrs]
          refine Prod.ext ?_ ?_
          · simp only []
            rw [decide_eq_decide]
            omega
          · simp only []
            rw [all_eq_decide_countP, hlen]
            have hc2 := List.countP_le_length (p := fun x => x.2) (l := rs)
            have hc1 := List.countP_le_length (p := fun x => x.1) (l := rs)
            rw [hlen] at hc2 hc1
            rw [show (decide (0 + List.countP (fun x => x.2) rs = subs.length ∧
                  0 + List.countP (fun x => x.1) rs ≥ subs.length - k))
                = (decide (List.countP (fun x => x.2) rs = subs.length) &&
                   decide ((subs.length : ℤ) - k ≤ List.countP (fun x => x.1) rs))
              from ?_]
            rw [Bool.and_comm]
            rw [Bool.eq_iff_iff]
            simp only [Bool.and_eq_true, decide_eq_true_eq]
            omega
      | And subs =>
          simp only [threshOk] at hok
          have hmap : subs.map isSafeNonmalleable = subs.map claimSafeNm := by
            apply List.map_congr_left
            intro q hq
            have hsz := List.sizeOf_lt_of_mem hq
            apply ih q ?_ (threshOkList_mem hok q hq)
            simp only [Policy.And.sizeOf_spec] at hp
            omega
          simp only [isSafeNonmalleable, claimSafeNm, isnList_eq_map,
            claimSafeNmList_eq_map, foldl_orand, hmap, Bool.false_or, Bool.true_and]
      | Or subs =>
          simp only [threshOk] at hok
          have hmap : subs.map (fun x => isSafeNonmalleable x.2)
              = subs.map (fun x => claimSafeNm x.2) := by
            apply List.map_congr_left
            intro q hq
            have hsz := List.sizeOf_lt_of_mem hq
            have hsz2 : sizeOf q.2 < sizeOf q := by
              obtain ⟨w, q'⟩ := q
              simp only [Prod.mk.sizeOf_spec]
              omega
            apply ih q.2 ?_ (threshOkPairList_mem hok q hq)
            simp only [Policy.Or.sizeOf_spec] at hp
            omega
          simp only [isSafeNonmalleable, claimSafeNm, isnPairList_eq_map,
            claimSafeNmPairList_eq_map, foldl_triple, hmap, Bool.false_or,
            Bool.true_and]
          exact Prod.ext rfl (Bool.and_comm _ _)

end C3Proof

/-- **Claim C3.**  For every policy (whose `Threshold` nodes satisfy
`k ≤ n`, the domain on which the source's `usize` arithmetic is
defined), `is_safe_nonmalleable` returns the pair `(safe,
non_malleable)` computed bottom-up as the claim states: `Trivial`,
`Unsatisfiable` and `Key` give `(true, true)`; hash and time leaves
give `(false, true)`; `Threshold(k, subs)` with `n = |subs|` is safe
iff at least `n-k+1` subs are safe and non-malleable iff all subs are
non-malleable and at least `n-k` subs are safe; `And` is safe iff some
sub is safe and non-malleable iff all subs are non-malleable; `Or` is
safe iff both subs are safe and non-malleable iff both subs are
non-malleable and at least one sub is safe (`claimSafeNm` transcribes
exactly this wording). -/
theorem C3_is_safe_nonmalleable_spec (p : Policy Pk) (h : threshOk p = true) :
    isSafeNonmalleable p = claimSafeNm p :=
  isn_claim_aux (sizeOf p) p le_rfl h

/-- Witness for C3 at the concrete policy
`thresh(1, or(1@pk(A), 2@after(5)), and(pk(B), sha256(H)))`. -/
theorem C3_is_safe_nonmalleable_spec_witness :
    @threshOk String
        (.Threshold 1 [.Or [(1, .Key ("A")), (2, .After 5)],
                       .And [.Key ("B"), .Sha256 ("H")]]) = true
      ∧ @isSafeNonmalleable String
          (.Threshold 1 [.Or [(1, .Key ("A")), (2, .After 5)],
                         .And [.Key ("B"), .Sha256 ("H")]])
        = claimSafeNm
            (.Threshold 1 [.Or [(1, .Key ("A")), (2, .After 5)],
                           .And [.Key ("B"), .Sha256 ("H")]]) :=
  ⟨rfl, C3_is_safe_nonmalleable_spec _ rfl⟩

/-- The `Or` selection rule of `extract_recursive` as claim C5 states
it: pick the side with the strictly higher weight, returning the other
side's key-vector only when the heavier side's key-vector is empty;
with equal weights return the non-empty key-vector if exactly one side
is empty, and otherwise the shorter of the two key-vectors (the claim
leaves the equal-length tie unspecified; the source returns the right
vector then, and so does this transcription). -/
def claimOrCombine (w0 w1 : Nat) (lv rv : List Pk) : List Pk :=
  if w1 < w0 then (if lv.isEmpty then rv else lv)
  else if w0 < w1 then (if rv.isEmpty then lv else rv)
  else if lv.isEmpty then rv
  else if rv.isEmpty then lv
  else if lv.length < rv.length then lv else rv

/-- **Claim C5.**  For every policy of shape `Or([(w0, a), (w1, b)])`,
`extract_recursive` combines the recursively extracted key-vectors of
the two sides exactly by the rule `claimOrCombine`. -/
theorem C5_extract_recursive_or (w0 w1 : Nat) (a b : Policy Pk) :
    extractRecursive (.Or [(w0, a), (w1, b)]) =
      claimOrCombine w0 w1 (extractRecursive a) (extractRecursive b) := by
  simp only [extractRecursive, extractOr, claimOrCombine, gt_iff_lt]

end Policy

/-! ## Timelock analysis (src/policy/concrete.rs lines 689-743)

`TimelockInfo` and its `combine_threshold` live in
`src/miniscript/types/extra_props.rs`, which is not among the given
sources; they are modelled from the spec (§4.2). -/

/-- `TimelockInfo`, the 5-tuple `(csv_h, csv_t, cltv_h, cltv_t, combo)`
of §4.2. -/
structure TimelockInfo where
  csvWithHeight : Bool := false
  csvWithTime : Bool := false
  cltvWithHeight : Bool := false
  cltvWithTime : Bool := false
  containsCombination : Bool := false
  deriving DecidableEq, Repr

/-- `LOCKTIME_THRESHOLD` from `src/miniscript/limits.rs` (given by the
spec in §4.2: `After(n)` is height-typed iff `n < 500_000_000`). -/
def LOCKTIME_THRESHOLD : Nat := 500000000

/-- `SEQUENCE_LOCKTIME_TYPE_FLAG` from `src/miniscript/limits.rs`
(given by the spec in §4.2: bit 22, `0x0040_0000`). -/
def SEQUENCE_LOCKTIME_TYPE_FLAG : Nat := 4194304

/-- Modelled from the spec: `TimelockInfo::combine_pair`
(`src/miniscript/types/extra_props.rs`, not among the given sources).
Combines two children under an aggregator: flags are OR'd; `combo` is
inherited from either side, and additionally set (when the aggregator
can require both sides simultaneously, `add_combination = k ≥ 2`) when
one side exhibits a height-typed lock and the other a time-typed lock.
§4.2 restricts the clash to "the same axis (CSV or CLTV)", but the
spec's own scenario S2 (`and(older(1000), after(500000000))` must fail
with `HeightTimelockCombination`) and the §3 invariant ("no
satisfaction path may require both a height-based and a time-based
lock") require the cross-axis reading used here: a height-typed lock is
`csv_h ∨ cltv_h` and a time-typed lock `csv_t ∨ cltv_t`. -/
def combinePair (a b : TimelockInfo) (addCombination : Bool) : TimelockInfo :=
  { csvWithHeight := a.csvWithHeight || b.csvWithHeight
    csvWithTime := a.csvWithTime || b.csvWithTime
    cltvWithHeight := a.cltvWithHeight || b.cltvWithHeight
    cltvWithTime := a.cltvWithTime || b.cltvWithTime
    containsCombination :=
      a.containsCombination || b.containsCombination ||
      (addCombination &&
        (((a.csvWithHeight || a.cltvWithHeight) && (b.csvWithTime || b.cltvWithTime)) ||
         ((a.csvWithTime || a.cltvWithTime) && (b.csvWithHeight || b.cltvWithHeight)))) }

/-- Modelled from the spec: `TimelockInfo::combine_threshold`
(`src/miniscript/types/extra_props.rs`, not among the given sources),
per §4.2: the children's 5-tuples are folded pairwise with
`combinePair`, where new height/time clashes are recorded only when
the aggregator may require two children at once (`k ≥ 2`); an empty
child list gives the all-false default. -/
def combineThreshold (k : Nat) (l : List TimelockInfo) : TimelockInfo :=
  match l with
  | [] => {}
  | t :: ts => ts.foldl (fun acc x => combinePair acc x (decide (2 ≤ k))) t

namespace Policy

variable {Pk : Type}

mutual

/-- `check_timelocks_helper` from `src/policy/concrete.rs`. -/
def checkTimelocksHelper : Policy Pk → TimelockInfo
  | .Unsatisfiable | .Trivial | .Key _
  | .Sha256 _ | .Hash256 _ | .Ripemd160 _ | .Hash160 _ => {}
  | .After t =>
      { cltvWithHeight := decide (t < LOCKTIME_THRESHOLD)
        cltvWithTime := decide (t ≥ LOCKTIME_THRESHOLD) }
  | .Older t =>
      { csvWithHeight := decide (t &&& SEQUENCE_LOCKTIME_TYPE_FLAG = 0)
        csvWithTime := decide (t &&& SEQUENCE_LOCKTIME_TYPE_FLAG ≠ 0) }
  | .Threshold k subs => combineThreshold k (ctlList subs)
  | .And subs => combineThreshold subs.length (ctlList subs)
  | .Or subs => combineThreshold 1 (ctlPairList subs)

def ctlList : List (Policy Pk) → List TimelockInfo
  | [] => []
  | p :: ps => checkTimelocksHelper p :: ctlList ps

def ctlPairList : List (Nat × Policy Pk) → List TimelockInfo
  | [] => []
  | (_, p) :: ps => checkTimelocksHelper p :: ctlPairList ps

end

/-- `check_timelocks` from `src/policy/concrete.rs`. -/
def checkTimelocks (p : Policy Pk) : Except PolicyError Unit :=
  if (checkTimelocksHelper p).containsCombination then
    .error .HeightTimelockCombination
  else .ok ()

/-! ## `keys`, `check_duplicate_keys`, `is_valid`
(src/policy/concrete.rs lines 659-794) -/

mutual

/-- `keys` from `src/policy/concrete.rs`: all key leaves in
left-to-right order. -/
def keys : Policy Pk → List Pk
  | .Key pk => [pk]
  | .Threshold _ subs => keysList subs
  | .And subs => keysList subs
  | .Or subs => keysPairList subs
  | _ => []

def keysList : List (Policy Pk) → List Pk
  | [] => []
  | p :: ps => keys p ++ keysList ps

def keysPairList : List (Nat × Policy Pk) → List Pk
  | [] => []
  | (_, p) :: ps => keys p ++ keysPairList ps

end

/-- `check_duplicate_keys` from `src/policy/concrete.rs`: the source
compares the length of the key list with the cardinality of the
`HashSet` collected from it, i.e. with the deduplicated length. -/
def checkDuplicateKeys [DecidableEq Pk] (p : Policy Pk) : Except PolicyError Unit :=
  let pks := keys p
  if pks.eraseDup.length < pks.length then .error .DuplicatePubKeys else .ok ()

mutual

/-- `is_valid` from `src/policy/concrete.rs`: runs `check_timelocks`
and `check_duplicate_keys`, then the structural checks, recursing into
sub-policies (the source's `collect::<Result<..>>` stops at the first
error, as sequencing in `Except` does). -/
def isValid [DecidableEq Pk] : Policy Pk → Except PolicyError Unit
  | .And subs => do
      checkTimelocks (.And subs)
      checkDuplicateKeys (.And subs)
      if subs.length ≠ 2 then throw .NonBinaryArgAnd
      else isValidList subs
  | .Or subs => do
      checkTimelocks (.Or subs)
      checkDuplicateKeys (.Or subs)
      if subs.length ≠ 2 then throw .NonBinaryArgOr
      else isValidPairList subs
  | .Threshold k subs => do
      checkTimelocks (.Threshold k subs)
      checkDuplicateKeys (.Threshold k subs)
      if k = 0 ∨ k > subs.length then throw .IncorrectThresh
      else isValidList subs
  | .After n => do
      checkTimelocks (.After n : Policy Pk)
      checkDuplicateKeys (.After n : Policy Pk)
      if n = 0 then throw .ZeroTime
      else if n > 2 ^ 31 then throw .TimeTooFar
      else pure ()
  | .Older n => do
      checkTimelocks (.Older n : Policy Pk)
      checkDuplicateKeys (.Older n : Policy Pk)
      if n = 0 then throw .ZeroTime
      else if n > 2 ^ 31 then throw .TimeTooFar
      else pure ()
  | p => do
      checkTimelocks p
      checkDuplicateKeys p
      pure ()

def isValidList [DecidableEq Pk] : List (Policy Pk) → Except PolicyError Unit
  | [] => pure ()
  | p :: ps => do
      isValid p
      isValidList ps

def isValidPairList [DecidableEq Pk] : List (Nat × Policy Pk) → Except PolicyError Unit
  | [] => pure ()
  | (_, p) :: ps => do
      isValid p
      isValidPairList ps

end

end Policy

/-! ## Errors of the crate-level `Error` type (used by the parser) -/

/-- The variants of `crate::Error` reachable from the policy parser.
`Unexpected` is the `errstr(..)` constructor; `TreeParse` stands for
any failure of the (spec-modelled) expression-tree parser. -/
inductive MsError where
  | Unprintable (b : Nat)
  | PolicyError (e : Miniscript.PolicyError)
  | AtOutsideOr (s : String)
  | MultiColon (s : String)
  | Unexpected (s : String)
  | TreeParse
  deriving DecidableEq, Repr

/-! ## Decimal rendering and `parse_num`

`natDec` is the canonical decimal rendering of a natural number (what
Rust's `{}` formatting of an unsigned integer emits): no sign, no
leading zeros, `"0"` for zero. -/

/-- Decimal digits of `n`, most significant first; `fuel`-driven
primitive recursion (any `fuel > n` suffices, see `natDecAux_congr`). -/
def natDecAux : Nat → Nat → List Char
  | 0, _ => []
  | fuel + 1, n =>
      if n < 10 then [Nat.digitChar n]
      else natDecAux fuel (n / 10) ++ [Nat.digitChar (n % 10)]

/-- Canonical decimal rendering of `n` (Rust `{}` on an unsigned int). -/
def natDec (n : Nat) : List Char := natDecAux (n + 1) n

/-- The value of a digit string, as `u32::from_str` computes it. -/
def decValue (cs : List Char) : Nat :=
  cs.foldl (fun acc c => acc * 10 + (c.toNat - 48)) 0

/-- Modelled from the spec: `expression::parse_num`
(`src/expression.rs`, not among the given sources).  Its return type is
`u32` (the call sites in `src/policy/concrete.rs` cast the result with
`as usize` / compare it against `len() as u32`), so values `≥ 2^32` are
rejected; a multi-character numeral must start with a digit `1..=9`
(no leading zeros, no sign), and every character must be a digit. -/
def parseNum (s : String) : Except MsError Nat :=
  match s.data with
  | [] => .error (.Unexpected s)
  | c :: rest =>
      if rest ≠ [] ∧ ¬('1' ≤ c ∧ c ≤ '9') then .error (.Unexpected s)
      else if (c :: rest).all (fun d => d.isDigit) then
        let v := decValue (c :: rest)
        if v < 2 ^ 32 then .ok v else .error (.Unexpected s)
      else .error (.Unexpected s)

/-! ## Expression trees (spec-modelled `expression::Tree`) -/

/-- Modelled from the spec: `expression::Tree` (`src/expression.rs`,
not among the given sources): a function-call-style tree
`name(arg, …)` with a bare `name` for leaves (§4.1). -/
structure ETree where
  name : String
  args : List ETree

/-- The tree-grammar delimiters. -/
def isTreeDelim (c : Char) : Bool := c = '(' || c = ')' || c = ','

/-- Rust's `str::split(sep)` for a single-character separator, at
character-list level: `""` gives `[""]`, and every separator occurrence
splits, so `"a@"` gives `["a", ""]`. -/
def charSplit (sep : Char) : List Char → List (List Char)
  | [] => [[]]
  | x :: xs =>
      if x = sep then [] :: charSplit sep xs
      else
        match charSplit sep xs with
        | h :: t => (x :: h) :: t
        | [] => [[x]]

mutual

/-- Modelled from the spec: the parser of the `name(arg,…)` grammar
(§4.1, `expression::Tree::from_str`).  Reads a delimiter-free name; a
following `'('` opens an argument list (an immediately following `')'`
closes an empty one, matching the spec's `UNSATISFIABLE()` /
`TRIVIAL()` arity-0 forms); otherwise the name alone is a leaf.  The
`fuel` argument only forces termination; `parseTr_render_aux` below
shows any fuel bounding `eFuel` of the tree suffices. -/
def parseTr : Nat → List Char → Option (ETree × List Char)
  | 0, _ => none
  | fuel + 1, cs =>
      let name := cs.takeWhile (fun c => !isTreeDelim c)
      let rest := cs.dropWhile (fun c => !isTreeDelim c)
      match rest with
      | '(' :: r2 =>
          match r2 with
          | ')' :: r3 => some (⟨String.mk name, []⟩, r3)
          | _ =>
              match parseArgs fuel r2 with
              | some (args, r3) => some (⟨String.mk name, args⟩, r3)
              | none => none
      | _ => some (⟨String.mk name, []⟩, rest)

/-- Modelled from the spec: a comma-separated argument list terminated
by `')'` (at least one argument). -/
def parseArgs : Nat → List Char → Option (List ETree × List Char)
  | 0, _ => none
  | fuel + 1, cs =>
      match parseTr fuel cs with
      | some (t, rest) =>
          match rest with
          | ')' :: r2 => some ([t], r2)
          | ',' :: r2 =>
              match parseArgs fuel r2 with
              | some (ts, r3) => some (t :: ts, r3)
              | none => none
          | _ => none
      | none => none

end

/-- Modelled from the spec: `expression::terminal`
(`src/expression.rs`, not among the given sources): applies the
conversion to the node's name provided the node has no arguments. -/
def terminal {α : Type} (t : ETree) (f : String → Except MsError α) :
    Except MsError α :=
  if t.args.isEmpty then f t.name else .error (.Unexpected t.name)

namespace Policy

/-! ## `from_tree_prob` / `from_tree` (src/policy/concrete.rs lines 951-1063) -/

mutual

/-- `from_tree_prob` from `src/policy/concrete.rs` (for `Pk = String`,
whose `from_str` is the identity).  The `x@y` name split, the
`allow_prob` gate, and the per-head arity dispatch follow the source;
`nsubs` in the `thresh` arm is `top.args.len() as u32`, hence the
`% 2 ^ 32`. -/
def fromTreeProb : ETree → Bool → Except MsError (Nat × Policy String)
  | ⟨nm, targs⟩, allowProb =>
  let headRes : Except MsError (Nat × String) :=
    match (charSplit '@' nm.data).map String.mk with
    | [n] => .ok (1, n)
    | [p, n] =>
        if ¬ allowProb then .error (.AtOutsideOr nm)
        else (parseNum p).map (fun fp => (fp, n))
    | _ => .error (.MultiColon nm)
  match headRes with
  | .error e => .error e
  | .ok (fragProb, fragName) =>
      let body : Except MsError (Policy String) :=
        match fragName, targs with
        | "UNSATISFIABLE", [] => .ok .Unsatisfiable
        | "TRIVIAL", [] => .ok .Trivial
        | "pk", [arg] => terminal arg (fun s => .ok (.Key s))
        | "after", [arg] => do
            let num ← terminal arg parseNum
            if num > 2 ^ 31 then throw (.PolicyError .TimeTooFar)
            else if num = 0 then throw (.PolicyError .ZeroTime)
            else pure (.After num)
        | "older", [arg] => do
            let num ← terminal arg parseNum
            if num > 2 ^ 31 then throw (.PolicyError .TimeTooFar)
            else if num = 0 then throw (.PolicyError .ZeroTime)
            else pure (.Older num)
        | "sha256", [arg] => terminal arg (fun s => .ok (.Sha256 s))
        | "hash256", [arg] => terminal arg (fun s => .ok (.Hash256 s))
        | "ripemd160", [arg] => terminal arg (fun s => .ok (.Ripemd160 s))
        | "hash160", [arg] => terminal arg (fun s => .ok (.Hash160 s))
        | "and", args =>
            if args.length ≠ 2 then .error (.PolicyError .NonBinaryArgAnd)
            else (fromTreeList args).map .And
        | "or", args =>
            if args.length ≠ 2 then .error (.PolicyError .NonBinaryArgOr)
            else (fromTreeProbList args).map .Or
        | "thresh", args =>
            match args with
            | [] => .error (.PolicyError .IncorrectThresh)
            | a0 :: rest =>
                if ¬ a0.args.isEmpty then .error (.PolicyError .IncorrectThresh)
                else do
                  let thresh ← parseNum a0.name
                  let nsubs := args.length % 2 ^ 32
                  if thresh ≥ nsubs ∨ thresh = 0 then
                    throw (.PolicyError .IncorrectThresh)
                  else (fromTreeList rest).map (.Threshold thresh)
        | _, _ => .error (.Unexpected nm)
      body.map (fun res => (fragProb, res))

/-- The sub-policy loop of the `and`/`thresh` arms: each argument is
parsed with `Policy::from_tree`, i.e. `from_tree_prob(arg, false)`
with the probability discarded. -/
def fromTreeList : List ETree → Except MsError (List (Policy String))
  | [] => .ok []
  | t :: ts => do
      let wp ← fromTreeProb t false
      let ps ← fromTreeList ts
      pure (wp.2 :: ps)

/-- The sub-policy loop of the `or` arm: each argument is parsed with
`from_tree_prob(arg, true)`, keeping its probability tag. -/
def fromTreeProbList : List ETree → Except MsError (List (Nat × Policy String))
  | [] => .ok []
  | t :: ts => do
      let wp ← fromTreeProb t true
      let ps ← fromTreeProbList ts
      pure (wp :: ps)

end

/-- `from_tree` from `src/policy/concrete.rs` (`impl_from_tree!`). -/
def fromTree (t : ETree) : Except MsError (Policy String) :=
  (fromTreeProb t false).map (fun r => r.2)

/-- `from_str` from `src/policy/concrete.rs` (`impl_from_str!`): every
byte must be printable (`20 ≤ b ≤ 127`, else `Unprintable` at the first
offender), then the expression tree is parsed, converted with
`from_tree`, and `check_timelocks` is run on the result. -/
def fromStr (s : String) : Except MsError (Policy String) :=
  match s.data.find? (fun c => decide (c.toNat < 20) || decide (c.toNat > 127)) with
  | some c => .error (.Unprintable c.toNat)
  | none =>
      match parseTr (3 * s.data.length + 3) s.data with
      | some (t, []) =>
          match fromTree t with
          | .ok p =>
              match checkTimelocks p with
              | .ok _ => .ok p
              | .error e => .error (.PolicyError e)
          | .error e => .error e
      | _ => .error .TreeParse

/-! ## The printer (`impl Display for Policy`, src/policy/concrete.rs
lines 889-930) -/

mutual

/-- The `Display` implementation for `Policy` from
`src/policy/concrete.rs`, at character-list level:
`UNSATISFIABLE` / `TRIVIAL` bare, `pk({})`, `after({})`, …, `and(a,b)`,
`or(w0@p0,w1@p1)`, `thresh(k,s0,…)`; no whitespace. -/
def policyChars : Policy String → List Char
  | .Unsatisfiable => ("UNSATISFIABLE").data
  | .Trivial => ("TRIVIAL").data
  | .Key pk => ("pk(").data ++ pk.data ++ [')']
  | .After n => ("after(").data ++ natDec n ++ [')']
  | .Older n => ("older(").data ++ natDec n ++ [')']
  | .Sha256 h => ("sha256(").data ++ h.data ++ [')']
  | .Hash256 h => ("hash256(").data ++ h.data ++ [')']
  | .Ripemd160 h => ("ripemd160(").data ++ h.data ++ [')']
  | .Hash160 h => ("hash160(").data ++ h.data ++ [')']
  | .And subs => ("and(").data ++ policyHeadChars subs ++ [')']
  | .Or subs => ("or(").data ++ policyPairHeadChars subs ++ [')']
  | .Threshold k subs => ("thresh(").data ++ natDec k ++ policyTailChars subs ++ [')']

/-- `subs[0]` followed by `,{sub}` for the rest (the `and` body). -/
def policyHeadChars : List (Policy String) → List Char
  | [] => []
  | p :: ps => policyChars p ++ policyTailChars ps

/-- `,{sub}` for every element (the tail of `and`, and the whole
`thresh` body after `k`). -/
def policyTailChars : List (Policy String) → List Char
  | [] => []
  | p :: ps => ',' :: policyChars p ++ policyTailChars ps

/-- `subs[0].0@subs[0].1` followed by `,{w}@{sub}` for the rest (the
`or` body). -/
def policyPairHeadChars : List (Nat × Policy String) → List Char
  | [] => []
  | (w, p) :: ps => natDec w ++ '@' :: policyChars p ++ policyPairTailChars ps

/-- `,{w}@{sub}` for every element (the tail of the `or` body). -/
def policyPairTailChars : List (Nat × Policy String) → List Char
  | [] => []
  | (w, p) :: ps =>
      ',' :: (natDec w ++ '@' :: policyChars p) ++ policyPairTailChars ps

end

/-- `format!("{}", policy)`: the `Display` output as a `String`. -/
def policyToString (p : Policy String) : String := String.mk (policyChars p)

end Policy

/-! ## Properties of the decimal rendering -/

section NatDec

lemma digitChar_toNat {d : Nat} (hd : d < 10) : (Nat.digitChar d).toNat = 48 + d := by
  interval_cases d <;> rfl

lemma digitChar_isDigit {d : Nat} (hd : d < 10) : (Nat.digitChar d).isDigit = true := by
  interval_cases d <;> rfl

lemma natDecAux_val : ∀ (fuel n : Nat), n < 10 ^ fuel →
    decValue (natDecAux fuel n) = n := by
  intro fuel
  induction fuel with
  | zero =>
      intro n hn
      interval_cases n
      rfl
  | succ f ih =>
      intro n hn
      by_cases h10 : n < 10
      · simp [natDecAux, h10, decValue, digitChar_toNat h10]
      · have hdiv : n / 10 < 10 ^ f := by
          rw [Nat.div_lt_iff_lt_mul (by norm_num)]
          calc n < 10 ^ (f + 1) := hn
          _ = 10 ^ f * 10 := by ring
        simp only [natDecAux, h10, if_false]
        rw [decValue, List.foldl_append]
        have := ih (n / 10) hdiv
        rw [decValue] at this
        simp only [this, List.foldl_cons, List.foldl_nil,
          digitChar_toNat (Nat.mod_lt n (by norm_num))]
        omega

lemma natDecAux_digits : ∀ (fuel n : Nat), ∀ c ∈ natDecAux fuel n,
    c.isDigit = true := by
  intro fuel
  induction fuel with
  | zero => intro n c hc; simp [natDecAux] at hc
  | succ f ih =>
      intro n c hc
      by_cases h10 : n < 10
      · simp [natDecAux, h10] at hc
        subst hc
        exact digitChar_isDigit h10
      · simp only [natDecAux, h10, if_false, List.mem_append,
          List.mem_singleton] at hc
        rcases hc with hc | hc
        · exact ih _ c hc
        · subst hc
          exact digitChar_isDigit (Nat.mod_lt n (by norm_num))

lemma digitChar_leading {d : Nat} (h1 : 1 ≤ d) (h9 : d ≤ 9) :
    '1' ≤ Nat.digitChar d ∧ Nat.digitChar d ≤ '9' := by
  interval_cases d <;> exact ⟨by decide, by decide⟩

lemma natDecAux_head : ∀ (fuel n : Nat), 0 < n → n < 10 ^ fuel →
    ∃ c cs, natDecAux fuel n = c :: cs ∧ '1' ≤ c ∧ c ≤ '9' := by
  intro fuel
  induction fuel with
  | zero => intro n hpos hn; omega
  | succ f ih =>
      intro n hpos hn
      by_cases h10 : n < 10
      · refine ⟨Nat.digitChar n, [], by simp [natDecAux, h10], ?_⟩
        exact digitChar_leading hpos (by omega)
      · have hdivpos : 0 < n / 10 := Nat.div_pos (by omega) (by norm_num)
        have hdiv : n / 10 < 10 ^ f := by
          rw [Nat.div_lt_iff_lt_mul (by norm_num)]
          calc n < 10 ^ (f + 1) := hn
          _ = 10 ^ f * 10 := by ring
        obtain ⟨c, cs, heq, hc⟩ := ih (n / 10) hdivpos hdiv
        exact ⟨c, cs ++ [Nat.digitChar (n % 10)],
          by simp [natDecAux, h10, heq], hc⟩

lemma lt_ten_pow_succ (n : Nat) : n < 10 ^ (n + 1) := by
  calc n < n + 1 := Nat.lt_succ_self n
  _ ≤ 10 ^ (n + 1) := by
        induction n with
        | zero => norm_num
        | succ m ihm =>
            have : 10 ^ (m + 1) ≥ m + 1 := ihm
            calc m + 1 + 1 ≤ 10 ^ (m + 1) + 1 := by omega
            _ ≤ 10 ^ (m + 1 + 1) := by
                  have h1 : 1 ≤ 10 ^ (m + 1) := Nat.one_le_two_pow.trans
                    (Nat.pow_le_pow_left (by norm_num) _)
                  calc 10 ^ (m + 1) + 1 ≤ 10 ^ (m + 1) + 10 ^ (m + 1) := by omega
                  _ ≤ 10 * 10 ^ (m + 1) := by omega
                  _ = 10 ^ (m + 1 + 1) := by ring

lemma natDec_ne_nil (n : Nat) : natDec n ≠ [] := by
  by_cases h10 : n < 10 <;> simp [natDec, natDecAux, h10]

lemma natDecAux_ne_nil (fuel n : Nat) (h : 0 < fuel) : natDecAux fuel n ≠ [] := by
  match fuel with
  | f + 1 => by_cases h10 : n < 10 <;> simp [natDecAux, h10]

/-- `parse_num` accepts the canonical decimal rendering of every
`u32` value, returning that value. -/
lemma parseNum_natDec {n : Nat} (hn : n < 2 ^ 32) :
    parseNum (String.mk (natDec n)) = .ok n := by
  have hn' : n < 4294967296 := by omega
  have hval : decValue (natDec n) = n := natDecAux_val _ _ (lt_ten_pow_succ n)
  have hdig : ∀ c ∈ natDec n, c.isDigit = true := natDecAux_digits _ _
  by_cases h10 : n < 10
  · have hform : natDec n = [Nat.digitChar n] := by simp [natDec, natDecAux, h10]
    rw [hform] at hval hdig ⊢
    simp only [parseNum, String.data]
    simp [hval, hn', List.all_eq_true, hdig]
  · obtain ⟨c, cs, heq, hc1, hc9⟩ :=
      natDecAux_head (n + 1) n (by omega) (lt_ten_pow_succ n)
    have heq' : natDec n = c :: cs := heq
    have hcs : cs ≠ [] := by
      intro habs
      have hform : natDec n
          = natDecAux n (n / 10) ++ [Nat.digitChar (n % 10)] := by
        simp [natDec, natDecAux, h10]
      have hne := natDecAux_ne_nil n (n / 10) (by omega)
      rw [heq', habs] at hform
      rcases hnda : natDecAux n (n / 10) with _ | ⟨d, ds⟩
      · exact hne hnda
      · rw [hnda] at hform
        simp at hform
    rw [heq'] at hval hdig ⊢
    have hcond2 : ¬(¬cs = [] ∧ ('1' ≤ c → '9' < c)) := by
      rintro ⟨-, himp⟩
      exact absurd (himp hc1) (not_lt.mpr hc9)
    have hdightail : ∀ x ∈ cs, x.isDigit = true :=
      fun x hx => hdig x (List.mem_cons_of_mem _ hx)
    have hdighead : c.isDigit = true := hdig c (List.mem_cons_self c cs)
    simp [parseNum, hcond2, hval, hn', List.all_eq_true, hdighead]
    exact hdightail

end NatDec

namespace Policy

/-! ## Claim C1: the `thresh` arity/threshold boundary -/

/-- **Claim C1, counterexample.**  The claim says `thresh(k, …)` with
`k == n` fails to parse with `IncorrectThresh`; in fact
`thresh(2,pk(A),pk(B))` (with `k = n = 2`) parses successfully: the
source's guard is `thresh >= nsubs` where `nsubs` counts *all*
arguments including `k` itself, i.e. `n + 1`, so only `k > n` (or
`k = 0`) is rejected. -/
theorem C1_thresh_counterexample :
    fromStr ("thresh(2,pk(A),pk(B))")
      = .ok (.Threshold 2 [.Key ("A"), .Key ("B")]) := by rfl

set_option maxHeartbeats 1000000 in
/-- **Claim C1, amended.**  `thresh(k, sub_1, …, sub_n)` parses
successfully exactly when `0 < k ≤ n` (with `IncorrectThresh` when
`k = 0` or `k > n`), and `is_valid` likewise accepts
`Threshold(k, subs)` with `k = |subs|`: the parser and the validator
agree on the `k = n` boundary.  (The tree has the decimal rendering of
`k` as its first argument; `k < 2^32` is required by `parse_num`'s
`u32` return type and `n + 1 < 2^32` by the `len() as u32` cast.) -/
theorem C1_thresh_parse_boundary :
    (∀ (k : Nat) (args : List ETree) (ps : List (Policy String)) (b : Bool),
        k < 2 ^ 32 → args.length + 1 < 2 ^ 32 →
        fromTreeList args = .ok ps →
        fromTreeProb ⟨("thresh"), ⟨String.mk (natDec k), []⟩ :: args⟩ b
          = if k = 0 ∨ args.length < k then
              .error (.PolicyError .IncorrectThresh)
            else .ok (1, .Threshold k ps))
    ∧ (∀ (k : Nat) (subs : List (Policy String)),
        k = subs.length → k ≠ 0 →
        checkTimelocks (.Threshold k subs) = .ok () →
        checkDuplicateKeys (.Threshold k subs) = .ok () →
        isValidList subs = .ok () →
        isValid (.Threshold k subs) = .ok ()) := by
  constructor
  · intro k args ps b hk hargs hsubs
    have hsplit : (charSplit '@' ("thresh").data).map String.mk
        = [("thresh")] := by rfl
    have hnum := parseNum_natDec hk
    have hmod : (args.length + 1) % 2 ^ 32 = args.length + 1 :=
      Nat.mod_eq_of_lt hargs
    simp only [fromTreeProb, hsplit, hnum, hmod, hsubs]
    rw [if_neg (by simp)]
    have hiff : (k ≥ (⟨⟨natDec k⟩, ([] : List ETree)⟩ :: args).length % 2 ^ 32
          ∨ k = 0) ↔ (k = 0 ∨ args.length < k) := by
      simp only [List.length_cons, hmod]
      omega
    simp only [bind, Except.bind]
    rw [if_congr hiff rfl rfl]
    by_cases hc : k = 0 ∨ args.length < k
    · simp [hc, Except.map]
    · simp [hc, Except.map]
  · intro k subs hkn hk0 hct hcd hlist
    subst hkn
    simp [isValid, hct, hcd, bind, Except.bind, hk0, hlist]

/-- Witness for C1 at `thresh(2, pk(A), pk(B))` (`k = n = 2`). -/
theorem C1_thresh_parse_boundary_witness :
    fromTreeList [⟨("pk"), [⟨("A"), []⟩]⟩, ⟨("pk"), [⟨("B"), []⟩]⟩]
        = .ok [.Key ("A"), .Key ("B")]
    ∧ fromTreeProb
        ⟨("thresh"), ⟨String.mk (natDec 2), []⟩ ::
          [⟨("pk"), [⟨("A"), []⟩]⟩, ⟨("pk"), [⟨("B"), []⟩]⟩]⟩ false
        = .ok (1, .Threshold 2 [.Key ("A"), .Key ("B")])
    ∧ isValid (.Threshold 2 [.Key ("A"), .Key ("B")]) = .ok () := by
  refine ⟨rfl, ?_, ?_⟩
  · have h := C1_thresh_parse_boundary.1 2
      [⟨("pk"), [⟨("A"), []⟩]⟩, ⟨("pk"), [⟨("B"), []⟩]⟩]
      [.Key ("A"), .Key ("B")] false (by norm_num) (by norm_num) rfl
    simpa using h
  · exact C1_thresh_parse_boundary.2 2 [.Key ("A"), .Key ("B")]
      rfl (by decide) rfl rfl rfl

/-! ## Claim C2: the timelock value bounds -/

/-- **Claim C2, counterexample.**  The claim says every `n ≥ 2^31`
fails with `TimeTooFar`; in fact `n = 2^31 = 2147483648` is accepted by
both `is_valid` and the parser: the source's guard is `n > 2u32.pow(31)`,
not `n ≥ 2^31`. -/
theorem C2_timelock_counterexample :
    isValid (.After 2147483648 : Policy String) = .ok ()
    ∧ fromStr ("after(2147483648)") = .ok (.After 2147483648) := ⟨rfl, rfl⟩

set_option maxHeartbeats 1000000 in
/-- **Claim C2, amended.**  For every `u32` value `n`, `is_valid`
accepts a timelock leaf `After(n)` or `Older(n)` exactly when
`1 ≤ n ≤ 2^31`: `n = 0` fails with `ZeroTime` and every `n > 2^31`
fails with `TimeTooFar` (the boundary `n = 2^31` is accepted); the
parser enforces the same bounds when parsing `after(n)` and `older(n)`
fragments (checking `TimeTooFar` before `ZeroTime`). -/
theorem C2_timelock_bounds (n : Nat) (hn : n < 2 ^ 32) :
    (isValid (.After n : Policy String)
        = if n = 0 then .error .ZeroTime
          else if 2 ^ 31 < n then .error .TimeTooFar else .ok ())
    ∧ (isValid (.Older n : Policy String)
        = if n = 0 then .error .ZeroTime
          else if 2 ^ 31 < n then .error .TimeTooFar else .ok ())
    ∧ (∀ b, fromTreeProb ⟨("after"), [⟨String.mk (natDec n), []⟩]⟩ b
        = if 2 ^ 31 < n then .error (.PolicyError .TimeTooFar)
          else if n = 0 then .error (.PolicyError .ZeroTime)
          else .ok (1, .After n))
    ∧ (∀ b, fromTreeProb ⟨("older"), [⟨String.mk (natDec n), []⟩]⟩ b
        = if 2 ^ 31 < n then .error (.PolicyError .TimeTooFar)
          else if n = 0 then .error (.PolicyError .ZeroTime)
          else .ok (1, .Older n)) := by
  have hnum := parseNum_natDec hn
  refine ⟨?_, ?_, ?_, ?_⟩
  · simp only [isValid, checkTimelocks, checkTimelocksHelper, checkDuplicateKeys,
      keys, bind, Except.bind]
    simp only [gt_iff_lt]
    norm_num
    split_ifs <;> rfl
  · simp only [isValid, checkTimelocks, checkTimelocksHelper, checkDuplicateKeys,
      keys, bind, Except.bind]
    simp only [gt_iff_lt]
    norm_num
    split_ifs <;> rfl
  · intro b
    have hsplit : (charSplit '@' ("after").data).map String.mk
        = [("after")] := by rfl
    simp only [fromTreeProb, hsplit, terminal, List.isEmpty_nil, if_true,
      ite_true, hnum, bind, Except.bind]
    simp only [gt_iff_lt]
    norm_num
    split_ifs <;> rfl
  · intro b
    have hsplit : (charSplit '@' ("older").data).map String.mk
        = [("older")] := by rfl
    simp only [fromTreeProb, hsplit, terminal, List.isEmpty_nil, if_true,
      ite_true, hnum, bind, Except.bind]
    simp only [gt_iff_lt]
    norm_num
    split_ifs <;> rfl

/-- Witness for C2 at `n = 500`. -/
theorem C2_timelock_bounds_witness :
    (500 : Nat) < 2 ^ 32 ∧ isValid (.After 500 : Policy String) = .ok () := by
  refine ⟨by norm_num, ?_⟩
  have h := (C2_timelock_bounds 500 (by norm_num)).1
  simpa using h

/-! ## Claim C9: `Or` weights are not constrained to be positive -/

/-- **Claim C9, counterexample.**  The claim says no accepted policy
contains an `Or` child tagged with weight `0`; in fact
`or(0@pk(A),pk(B))` parses successfully (to weights `(0, 1)`) and the
result passes `is_valid`: neither the parser nor the validator checks
the weights for positivity. -/
theorem C9_or_weight_zero_counterexample :
    fromStr ("or(0@pk(A),pk(B))") = .ok (.Or [(0, .Key ("A")), (1, .Key ("B"))])
    ∧ isValid (.Or [(0, .Key ("A")), (1, .Key ("B"))]) = .ok () := ⟨rfl, rfl⟩

lemma charSplit_no_sep {sep : Char} {l : List Char} (hl : ∀ c ∈ l, c ≠ sep) :
    charSplit sep l = [l] := by
  induction l with
  | nil => rfl
  | cons x xs ih =>
      have hx : x ≠ sep := hl x (List.mem_cons_self x xs)
      have ihh := ih (fun c hc => hl c (List.mem_cons_of_mem _ hc))
      simp [charSplit, hx, ihh]

lemma charSplit_append_sep {sep : Char} {l r : List Char}
    (hl : ∀ c ∈ l, c ≠ sep) :
    charSplit sep (l ++ sep :: r) = l :: charSplit sep r := by
  induction l with
  | nil => simp [charSplit]
  | cons x xs ih =>
      have hx : x ≠ sep := hl x (List.mem_cons_self x xs)
      have ihh := ih (fun c hc => hl c (List.mem_cons_of_mem _ hc))
      simp [charSplit, hx, ihh]

lemma natDec_no_at (w : Nat) : ∀ c ∈ natDec w, c ≠ '@' := by
  intro c hc heq
  have := natDecAux_digits (w + 1) w c hc
  rw [heq] at this
  exact absurd this (by decide)

set_option maxHeartbeats 1000000 in
/-- **Claim C9, amended.**  An `Or` child tagged `w@…` parses with any
`u32` weight `w`, including `w = 0`; an untagged child defaults to
weight `1`; and `is_valid` never inspects the weights (its result on a
binary `Or` is unchanged under any reweighting).  So accepted policies
may carry weight-0 `Or` children. -/
theorem C9_or_weights_unchecked :
    (∀ w : Nat, w < 2 ^ 32 →
      fromTreeProb ⟨String.mk (natDec w ++ '@' :: ("pk").data),
          [⟨("A"), []⟩]⟩ true
        = .ok (w, .Key ("A")))
    ∧ (∀ (w0 w1 w0' w1' : Nat) (a b : Policy String),
        isValid (.Or [(w0, a), (w1, b)])
          = isValid (.Or [(w0', a), (w1', b)])) := by
  constructor
  · intro w hw
    have hsplit : (charSplit '@'
          (String.mk (natDec w ++ '@' :: ("pk").data)).data).map String.mk
        = [String.mk (natDec w), ("pk")] := by
      rw [show (String.mk (natDec w ++ '@' :: ("pk").data)).data
            = natDec w ++ '@' :: ("pk").data from rfl,
        charSplit_append_sep (natDec_no_at w),
        charSplit_no_sep (by decide)]
      rfl
    rw [fromTreeProb, hsplit]
    simp [parseNum_natDec hw, terminal, Except.map]
  · intro w0 w1 w0' w1' a b
    rfl

/-- Witness for C9 at `w = 0` (and an `is_valid` reweighting between
`(0,1)` and `(7,9)`). -/
theorem C9_or_weights_unchecked_witness :
    (0 : Nat) < 2 ^ 32
    ∧ fromTreeProb ⟨String.mk (natDec 0 ++ '@' :: ("pk").data),
        [⟨("A"), []⟩]⟩ true = .ok (0, .Key ("A"))
    ∧ isValid (.Or [(0, .Key ("A")), (1, .Key ("B"))])
        = isValid (.Or [(7, .Key ("A")), (9, .Key ("B"))]) := by
  refine ⟨by norm_num, ?_, ?_⟩
  · exact C9_or_weights_unchecked.1 0 (by norm_num)
  · exact C9_or_weights_unchecked.2 0 1 7 9 (.Key ("A")) (.Key ("B"))

end Policy

/-! ## The Miniscript AST and its iterators (src/miniscript/iter.rs)

`KeyExpr` and its leaf iterator live in `src/miniscript/musig_key.rs`,
which is not among the given sources; they are modelled from the spec
(§3 C4, §4.3).  A `Miniscript` node is a `Terminal` plus type
annotations the iterators never read, so the AST is modelled as the
bare `Terminal` tree, generic over the key type `Pk` and the hash type
`H` (`Pk::RawPkHash`), with `toHash` standing for
`MiniscriptKey::to_pubkeyhash`. -/

/-- Modelled from the spec: `KeyExpr<Pk>` (§3 C4): a single key or a
MuSig aggregate of sub-expressions. -/
inductive KeyExpr (Pk : Type) where
  | SingleKey (pk : Pk)
  | MuSig (v : List (KeyExpr Pk))

namespace KeyExpr

mutual

/-- Modelled from the spec: the sequence produced by
`KeyExpr::iter()` / `leaves()` (§4.3): the depth-first, left-to-right
leaf keys (a `SingleKey` yields one key, a `MuSig` the concatenation of
its children's sequences).  The lazy stack-based iterator is modelled
by this produced sequence; an iterator state is a remaining suffix of
it. -/
def leaves : KeyExpr Pk → List Pk
  | .SingleKey pk => [pk]
  | .MuSig v => leavesList v

def leavesList : List (KeyExpr Pk) → List Pk
  | [] => []
  | k :: ks => leaves k ++ leavesList ks

end

end KeyExpr

/-- The tagged key-or-hash item, `PkPkh<Pk>` from
`src/miniscript/iter.rs`. -/
inductive PkPkh (Pk H : Type) where
  | PlainPubkey (pk : Pk)
  | HashedPubkey (h : H)
  deriving DecidableEq, Repr

/-- The Miniscript AST (`Terminal<Pk, Ctx>` from
`src/miniscript/decode.rs`, as traversed through `Miniscript::node` by
`src/miniscript/iter.rs`).  Hash-fragment payloads are opaque to every
claim and modelled as `String`. -/
inductive Ms (Pk H : Type) where
  | True : Ms Pk H
  | False : Ms Pk H
  | PkK (k : KeyExpr Pk) : Ms Pk H
  | PkH (pk : Pk) : Ms Pk H
  | RawPkH (h : H) : Ms Pk H
  | After (n : Nat) : Ms Pk H
  | Older (n : Nat) : Ms Pk H
  | Sha256 (h : String) : Ms Pk H
  | Hash256 (h : String) : Ms Pk H
  | Ripemd160 (h : String) : Ms Pk H
  | Hash160 (h : String) : Ms Pk H
  | Alt (m : Ms Pk H) : Ms Pk H
  | Swap (m : Ms Pk H) : Ms Pk H
  | Check (m : Ms Pk H) : Ms Pk H
  | DupIf (m : Ms Pk H) : Ms Pk H
  | Verify (m : Ms Pk H) : Ms Pk H
  | NonZero (m : Ms Pk H) : Ms Pk H
  | ZeroNotEqual (m : Ms Pk H) : Ms Pk H
  | AndV (a b : Ms Pk H) : Ms Pk H
  | AndB (a b : Ms Pk H) : Ms Pk H
  | OrB (a b : Ms Pk H) : Ms Pk H
  | OrD (a b : Ms Pk H) : Ms Pk H
  | OrC (a b : Ms Pk H) : Ms Pk H
  | OrI (a b : Ms Pk H) : Ms Pk H
  | AndOr (a b c : Ms Pk H) : Ms Pk H
  | Thresh (k : Nat) (subs : List (Ms Pk H)) : Ms Pk H
  | Multi (k : Nat) (keys : List Pk) : Ms Pk H
  | MultiA (k : Nat) (keys : List (KeyExpr Pk)) : Ms Pk H

namespace Ms

variable {Pk H : Type}

/-- `branches` from `src/miniscript/iter.rs`: the direct children of a
node (`MultiA` falls into the source's final `_ => vec![]` arm). -/
def branches : Ms Pk H → List (Ms Pk H)
  | .PkK _ | .PkH _ | .RawPkH _ | .Multi _ _ => []
  | .Alt m | .Swap m | .Check m | .DupIf m | .Verify m | .NonZero m
  | .ZeroNotEqual m => [m]
  | .AndV a b | .AndB a b | .OrB a b | .OrD a b | .OrC a b | .OrI a b => [a, b]
  | .AndOr a b c => [a, b, c]
  | .Thresh _ subs => subs
  | _ => []

/-- `get_nth_child` from `src/miniscript/iter.rs`. -/
def getNthChild : Ms Pk H → Nat → Option (Ms Pk H)
  | .Alt m, 0 | .Swap m, 0 | .Check m, 0 | .DupIf m, 0 | .Verify m, 0
  | .NonZero m, 0 | .ZeroNotEqual m, 0 => some m
  | .AndV a _, 0 | .AndB a _, 0 | .OrB a _, 0 | .OrD a _, 0 | .OrC a _, 0
  | .OrI a _, 0 => some a
  | .AndV _ b, 1 | .AndB _ b, 1 | .OrB _ b, 1 | .OrD _ b, 1 | .OrC _ b, 1
  | .OrI _ b, 1 => some b
  | .AndOr a _ _, 0 => some a
  | .AndOr _ b _, 1 => some b
  | .AndOr _ _ c, 2 => some c
  | .Thresh _ subs, n => subs.get? n
  | _, _ => none

/-- `get_nth_pk` from `src/miniscript/iter.rs`: the n-th plain key
embedded at this single node (`PkH` at `n = 0`, `Multi` at `n < len`;
`PkK`/`MultiA` yield nothing through this accessor). -/
def getNthPk : Ms Pk H → Nat → Option Pk
  | .PkH key, 0 => some key
  | .Multi _ keys, n => if h : n < keys.length then some (keys.get ⟨n, h⟩) else none
  | _, _ => none

/-- `get_nth_pkh` from `src/miniscript/iter.rs`: the n-th key hash
embedded at this single node (`RawPkH`'s raw hash at `n = 0`, the
hash of `PkH`'s key at `n = 0`, the hash of `Multi`'s n-th key at
`n < len`; every other variant — including `PkK` and `MultiA` — gives
`none`). -/
def getNthPkh (toHash : Pk → H) : Ms Pk H → Nat → Option H
  | .RawPkH h, 0 => some h
  | .PkH key, 0 => some (toHash key)
  | .Multi _ keys, n =>
      if h : n < keys.length then some (toHash (keys.get ⟨n, h⟩)) else none
  | _, _ => none

/-- `get_nth_pk_pkh` from `src/miniscript/iter.rs` (it never hashes,
so it needs no `to_pubkeyhash`). -/
def getNthPkPkh : Ms Pk H → Nat → Option (PkPkh Pk H)
  | .RawPkH h, 0 => some (.HashedPubkey h)
  | .PkH key, 0 => some (.PlainPubkey key)
  | .Multi _ keys, n =>
      if h : n < keys.length then some (.PlainPubkey (keys.get ⟨n, h⟩)) else none
  | _, _ => none

/-- The variants at which `get_nth_pkh` can return a hash. -/
def isPkhBearing : Ms Pk H → Bool
  | .RawPkH _ | .PkH _ | .Multi _ _ => true
  | _ => false

/-! ## Claim C7: the `get_nth_pkh` contract -/

/-- **Claim C7, counterexample.**  The claim says `get_nth_pkh(n)`
returns `hash(keys[n])` for the variants `PkH`, `PkK`, `Multi` and
`MultiA`; in fact the source matches only `RawPkH`, `PkH` and `Multi`,
so on a `PkK` or `MultiA` node it returns `None` (those variants are
served by the `KeyExpr` iterator path of the key iterators instead).
Instantiated at `Pk = H = String` with an injective hash. -/
theorem C7_get_nth_pkh_counterexample :
    getNthPkh (fun k => ("#") ++ k)
        (.PkK (.SingleKey ("A")) : Ms String String) 0 = none
    ∧ getNthPkh (fun k => ("#") ++ k)
        (.MultiA 1 [.SingleKey ("A")] : Ms String String) 0 = none :=
  ⟨rfl, rfl⟩

/-- **Claim C7, amended.**  For every Miniscript node and every index
`n`, `get_nth_pkh(n)` returns the raw hash at `RawPkH` (`n = 0`), the
hash of the key at `PkH` (`n = 0`), and the hash of `keys[n]` at
`Multi` (for `n < |keys|`); for `PkK`, `MultiA`, all other variants,
and out-of-range `n` it returns none. -/
theorem C7_get_nth_pkh_spec (toHash : Pk → H) :
    (∀ h, getNthPkh toHash (.RawPkH h) 0 = some h)
    ∧ (∀ pk, getNthPkh toHash (.PkH pk) 0 = some (toHash pk))
    ∧ (∀ k keys n, getNthPkh toHash (.Multi k keys) n
        = (keys.get? n).map toHash)
    ∧ (∀ ke n, getNthPkh toHash (.PkK ke) n = none)
    ∧ (∀ k kes n, getNthPkh toHash (.MultiA k kes) n = none)
    ∧ (∀ h n, 0 < n → getNthPkh toHash (.RawPkH h) n = none)
    ∧ (∀ pk n, 0 < n → getNthPkh toHash (.PkH pk) n = none)
    ∧ (∀ (m : Ms Pk H) n, getNthPkh toHash m n ≠ none →
        isPkhBearing m = true) := by
  refine ⟨fun h => rfl, fun pk => rfl, ?_, fun ke n => rfl, fun k kes n => rfl,
    ?_, ?_, ?_⟩
  · intro k keys n
    by_cases h : n < keys.length
    · simp [getNthPkh, h, List.get?_eq_get h]
    · simp [getNthPkh, h, List.getElem?_eq_none (le_of_not_lt h)]
  · intro h n hn
    match n, hn with
    | n + 1, _ => rfl
  · intro pk n hn
    match n, hn with
    | n + 1, _ => rfl
  · intro m n hne
    cases m <;> first
      | rfl
      | (exfalso; exact hne rfl)

/-- Witness for C7 at a `Multi` node and an out-of-range index. -/
theorem C7_get_nth_pkh_spec_witness :
    getNthPkh (fun k => ("#") ++ k)
        (.Multi 1 [("A"), ("B")] : Ms String String) 1 = some (("#B"))
    ∧ getNthPkh (fun k => ("#") ++ k)
        (.RawPkH ("r") : Ms String String) 3 = none := by
  constructor
  · have h := (C7_get_nth_pkh_spec (H := String)
      (fun k => ("#") ++ k)).2.2.1 1 [("A"), ("B")] 1
    simpa using h
  · exact (C7_get_nth_pkh_spec
      (fun k => ("#") ++ k)).2.2.2.2.2.1 ("r") 3 (by norm_num)

/-! ## The node iterator `Iter` (src/miniscript/iter.rs lines 294-354)

The iterator state is the pair of the `next` field and the `path`
stack of `(node, next-child-index)` frames. -/

/-- `keyPayloadOf m` bounds the number of items the key iterators can
emit while sitting at the single node `m` (used only for termination
measures). -/
def keyPayloadOf : Ms Pk H → Nat
  | .PkK k => (KeyExpr.leaves k).length
  | .PkH _ => 1
  | .RawPkH _ => 1
  | .Multi _ keys => keys.length
  | .MultiA _ kes => 1 + kes.length + (KeyExpr.leavesList kes).length
  | _ => 0

mutual

/-- Weighted size of an AST: one per node plus its key payload
(termination measure only). -/
def msSize : Ms Pk H → Nat
  | .PkK k => 1 + (KeyExpr.leaves k).length
  | .PkH _ => 2
  | .RawPkH _ => 2
  | .Multi _ keys => 1 + keys.length
  | .MultiA _ kes => 2 + kes.length + (KeyExpr.leavesList kes).length
  | .Alt m | .Swap m | .Check m | .DupIf m | .Verify m | .NonZero m
  | .ZeroNotEqual m => 1 + msSize m
  | .AndV a b | .AndB a b | .OrB a b | .OrD a b | .OrC a b | .OrI a b =>
      1 + msSize a + msSize b
  | .AndOr a b c => 1 + msSize a + msSize b + msSize c
  | .Thresh _ subs => 1 + msSizeList subs
  | _ => 1

def msSizeList : List (Ms Pk H) → Nat
  | [] => 0
  | m :: ms => msSize m + msSizeList ms

end

lemma msSize_decomp (m : Ms Pk H) :
    msSize m = 1 + keyPayloadOf m + msSizeList (branches m) := by
  cases m <;> simp [msSize, keyPayloadOf, branches, msSizeList] <;> omega

lemma msSizeList_append (l r : List (Ms Pk H)) :
    msSizeList (l ++ r) = msSizeList l + msSizeList r := by
  induction l with
  | nil => simp [msSizeList]
  | cons m ms ih => simp [msSizeList, ih]; omega

lemma msSize_pos (m : Ms Pk H) : 1 ≤ msSize m := by
  rw [msSize_decomp]; omega

/-- The state of `Iter` from `src/miniscript/iter.rs`. -/
structure IterSt (Pk H : Type) where
  next : Option (Ms Pk H)
  path : List (Ms Pk H × Nat)

/-- `Iter::new`. -/
def iterNew (m : Ms Pk H) : IterSt Pk H := ⟨some m, []⟩

/-- The `while let Some((node, child)) = self.path.pop()` loop of
`Iter::next`: pop frames until one yields a child at its saved index,
re-pushing that frame with the index advanced. -/
def popFind : List (Ms Pk H × Nat) → Option (Ms Pk H × List (Ms Pk H × Nat))
  | [] => none
  | (node, child) :: rest =>
      match getNthChild node child with
      | some c => some (c, (node, child + 1) :: rest)
      | none => popFind rest

/-- `Iter::next` from `src/miniscript/iter.rs`: take `self.next` (or
pop-find a pending sibling), emit it, and push its frame with the
first child as the new `next`. -/
def iterNext (st : IterSt Pk H) : Option (Ms Pk H × IterSt Pk H) :=
  let curr : Option (Ms Pk H × List (Ms Pk H × Nat)) :=
    match st.next with
    | some n => some (n, st.path)
    | none => popFind st.path
  match curr with
  | none => none
  | some (node, path') =>
      some (node, ⟨getNthChild node 0, (node, 1) :: path'⟩)

lemma getNthChild_eq_get? (m : Ms Pk H) (i : Nat) :
    getNthChild m i = (branches m).get? i := by
  cases m <;> rcases i with _ | _ | _ | i <;>
    simp [getNthChild, branches, List.get?]

/-- Residual weight of a path frame: the sizes of the children not yet
visited. -/
def frameW : Ms Pk H × Nat → Nat
  | (node, i) => msSizeList ((branches node).drop i)

/-- Residual weight of a path. -/
def pathW : List (Ms Pk H × Nat) → Nat
  | [] => 0
  | f :: fs => frameW f + pathW fs

/-- Remaining weight of a node-iterator state. -/
def iterMeasure (st : IterSt Pk H) : Nat :=
  (match st.next with | some m => msSize m | none => 0) + pathW st.path

lemma drop_of_get? {α : Type _} {l : List α} {i : Nat} {c : α}
    (h : l.get? i = some c) : l.drop i = c :: l.drop (i + 1) := by
  have hlt : i < l.length := by
    by_contra hge
    rw [List.get?_eq_none.mpr (le_of_not_lt hge)] at h
    cases h
  rw [List.drop_eq_get_cons hlt]
  rw [List.get?_eq_get hlt] at h
  cases h
  rfl

lemma child0_measure (node : Ms Pk H) :
    (match getNthChild node 0 with | some m => msSize m | none => 0)
      + msSizeList ((branches node).drop 1)
    = msSizeList (branches node) := by
  rw [getNthChild_eq_get?]
  rcases hb : branches node with _ | ⟨c, rest⟩
  · simp [msSizeList]
  · simp [List.get?, msSizeList]

lemma popFind_measure {path : List (Ms Pk H × Nat)} {c : Ms Pk H}
    {path' : List (Ms Pk H × Nat)} (h : popFind path = some (c, path')) :
    msSize c + pathW path' ≤ pathW path := by
  induction path generalizing c path' with
  | nil => cases h
  | cons f fs ih =>
      obtain ⟨node, i⟩ := f
      by_cases hc : ∃ x, getNthChild node i = some x
      · obtain ⟨x, hx⟩ := hc
        rw [popFind, hx] at h
        cases h
        have hdrop := drop_of_get? (getNthChild_eq_get? node i ▸ hx)
        simp only [pathW, frameW, hdrop, msSizeList]
        omega
      · push_neg at hc
        have hnone : getNthChild node i = none := by
          cases hx : getNthChild node i with
          | none => rfl
          | some x => exact absurd hx (hc x)
        rw [popFind, hnone] at h
        have := ih h
        simp only [pathW]
        omega

lemma iterNext_measure {st : IterSt Pk H} {n : Ms Pk H} {st' : IterSt Pk H}
    (h : iterNext st = some (n, st')) :
    iterMeasure st' + 1 + keyPayloadOf n ≤ iterMeasure st := by
  rcases st with ⟨next, path⟩
  cases hnx : next with
  | some m =>
      rw [iterNext] at h
      simp only [hnx] at h
      cases h
      simp only [iterMeasure, pathW, frameW, List.drop_one]
      have hc0 := @child0_measure Pk H n
      have hdec := @msSize_decomp Pk H n
      have : (branches n).drop 1 = (branches n).tail := List.drop_one _
      rw [← this]
      omega
  | none =>
      rw [iterNext] at h
      simp only [hnx] at h
      cases hpf : popFind path with
      | none => rw [hpf] at h; cases h
      | some res =>
          obtain ⟨c, path2⟩ := res
          rw [hpf] at h
          cases h
          have hm := popFind_measure hpf
          simp only [iterMeasure, pathW, frameW, List.drop_one]
          have hc0 := @child0_measure Pk H n
          have hdec := @msSize_decomp Pk H n
          have : (branches n).drop 1 = (branches n).tail := List.drop_one _
          rw [← this]
          omega

lemma leavesList_drop_succ_le (keys : List (KeyExpr Pk)) (i : Nat) :
    (KeyExpr.leavesList (keys.drop (i + 1))).length
      ≤ (KeyExpr.leavesList (keys.drop i)).length := by
  induction keys generalizing i with
  | nil => simp
  | cons ke rest ih =>
      cases i with
      | zero => simp [KeyExpr.leavesList]
      | succ j => simpa using ih j

lemma leavesList_drop_get? {keys : List (KeyExpr Pk)} {i : Nat}
    {ke : KeyExpr Pk} (h : keys.get? i = some ke) :
    (KeyExpr.leavesList (keys.drop i)).length
      = (KeyExpr.leaves ke).length
        + (KeyExpr.leavesList (keys.drop (i + 1))).length := by
  rw [drop_of_get? h]
  simp [KeyExpr.leavesList]

/-! ## The key iterators' shared base (src/miniscript/iter.rs lines 260-293)

`BaseIter` is shared by `PkIter`, `PkhIter` and `PkPkhIter`; the only
difference between the three `next()` implementations is what they
emit from a musig leaf (`emit`) and which single-node accessor they
call on the other fragments (`acc`), so the step function below is
parametric in those two and instantiated three times.  A Rust `unwrap`
on `None` or an out-of-bounds `keys[i]` is modelled as an explicit
`panicked` outcome.  The `as u32` casts of `keys.len()` and
`key_index` are modelled as `% 2 ^ 32`. -/

/-- The `BaseIter` state.  `musigIter` models the `KeyExprIter` by the
list of leaves it has not yet yielded. -/
structure BIter (Pk H : Type) where
  nodeIter : IterSt Pk H
  currNode : Option (Ms Pk H)
  musigIter : Option (List Pk)
  multiALen : Option Nat
  keyIndex : Nat

/-- The common tail of `goto_next_node` and of the three constructors:
given the advanced node iterator and the freshly fetched `curr_node`,
fill in `musig_iter`, `multi_a_len` and reset `key_index`.  On a
`MultiA` with no keys the source indexes `keys[0]`, which panics:
modelled as `none`. -/
def mkBase (st : IterSt Pk H) (curr : Option (Ms Pk H)) :
    Option (BIter Pk H) :=
  match curr with
  | some (.PkK k) => some ⟨st, some (.PkK k), some (KeyExpr.leaves k), some 1, 0⟩
  | some (.MultiA km keys) =>
      match keys with
      | ke :: _ =>
          some ⟨st, some (.MultiA km keys), some (KeyExpr.leaves ke),
            some (keys.length % 2 ^ 32), 0⟩
      | [] => none
  | c => some ⟨st, c, none, none, 0⟩

/-- `BaseIter::goto_next_node`. -/
def gotoNextNode (b : BIter Pk H) : Option (BIter Pk H) :=
  match iterNext b.nodeIter with
  | some (n, st') => mkBase st' (some n)
  | none => mkBase b.nodeIter none

/-- The construction shared verbatim by `PkIter::new`, `PkhIter::new`
and `PkPkhIter::new`. -/
def baseIterNew (m : Ms Pk H) : Option (BIter Pk H) :=
  match iterNext (iterNew m) with
  | some (n, st') => mkBase st' (some n)
  | none => mkBase (iterNew m) none

/-- Outcome of one pass of the `loop` body in the iterators' `next`:
either it breaks with a value, breaks with `None` (iteration done),
hits a panic, or `continue`s with an updated state. -/
inductive MicroRes (Pk H α : Type) where
  | yield (a : α) (b : BIter Pk H)
  | done
  | panicked
  | again (b : BIter Pk H)

/-- Outcome of a whole call of `next`: a value, exhaustion, or a
panic. -/
inductive StepRes (Pk H α : Type) where
  | yield (a : α) (b : BIter Pk H)
  | done
  | panicked

/-- The default arm of the iterators' `loop` body: try the single-node
accessor at `key_index` (already applied by the caller, passed as
`o`); on success yield it and advance `key_index`, otherwise move to
the next node. -/
def defAccStep (b : BIter Pk H) (o : Option α) : MicroRes Pk H α :=
  match o with
  | some item => .yield item { b with keyIndex := b.keyIndex + 1 }
  | none =>
      match gotoNextNode b with
      | some b' => .again b'
      | none => .panicked

/-- One pass of the `loop` body of `PkIter::next` (lines 391-448 of
`src/miniscript/iter.rs`), parametric in the musig emitter `emit` and
the single-node accessor `acc` (`PkIter`: `id` and `get_nth_pk`;
`PkhIter`: `to_pubkeyhash` and `get_nth_pkh`; `PkPkhIter`:
`PlainPubkey` and `get_nth_pk_pkh`); the default (non-`PkK`,
non-`MultiA`) arm is split off as `defAccStep`.  In the `MultiA`
else-branch the source increments `key_index` before
`goto_next_node`, which immediately resets it to `0`, so the
increment is dropped here. -/
def microStep (acc : Ms Pk H → Nat → Option α) (emit : Pk → α)
    (b : BIter Pk H) : MicroRes Pk H α :=
  match b.currNode with
  | none => .done
  | some m =>
      match m with
      | .PkK _ =>
          match b.musigIter with
          | none => .panicked
          | some (pk :: rest) => .yield (emit pk) { b with musigIter := some rest }
          | some [] =>
              match gotoNextNode b with
              | some b' => .again b'
              | none => .panicked
      | .MultiA _ keys =>
          match b.musigIter with
          | none => .panicked
          | some (pk :: rest) => .yield (emit pk) { b with musigIter := some rest }
          | some [] =>
              match b.multiALen with
              | none => .panicked
              | some vecSize =>
                  if (b.keyIndex + 1) % 2 ^ 32 < vecSize then
                    match keys.get? (b.keyIndex + 1) with
                    | none => .panicked
                    | some ke =>
                        match KeyExpr.leaves ke with
                        | pk :: rest =>
                            .yield (emit pk)
                              { b with keyIndex := b.keyIndex + 1,
                                       musigIter := some rest }
                        | [] =>
                            .again { b with keyIndex := b.keyIndex + 2,
                                            musigIter := some [] }
                  else
                    match gotoNextNode b with
                    | some b' => .again b'
                    | none => .panicked
      | _ => defAccStep b (acc m b.keyIndex)

/-- Keys still to be emitted while sitting at the current node
(termination measure only). -/
def budget (b : BIter Pk H) : Nat :=
  match b.currNode with
  | none => 0
  | some m =>
      match m with
      | .PkK _ => (match b.musigIter with | some s => s.length | none => 0)
      | .MultiA _ keys =>
          (match b.musigIter with | some s => s.length | none => 0)
            + (KeyExpr.leavesList (keys.drop (b.keyIndex + 1))).length
            + (keys.length + 1 - b.keyIndex)
      | mm => keyPayloadOf mm - b.keyIndex

/-- Whether a node is currently loaded (termination measure only). -/
def hasCurr (b : BIter Pk H) : Nat :=
  match b.currNode with | some _ => 1 | none => 0

/-- Termination measure of the iterators' `loop`. -/
def stepMeasure (b : BIter Pk H) : Nat :=
  iterMeasure b.nodeIter + budget b + hasCurr b

lemma mkBase_some_le {st : IterSt Pk H} {n : Ms Pk H} {b' : BIter Pk H}
    (h : mkBase st (some n) = some b') :
    stepMeasure b' ≤ iterMeasure st + keyPayloadOf n + 1 := by
  cases n <;> simp only [mkBase] at h <;>
    first
    | (cases h
       simp only [stepMeasure, budget, hasCurr, keyPayloadOf]
       omega)
    | skip
  rename_i km keys
  cases keys with
  | nil => cases h
  | cons ke rest =>
      cases h
      simp only [stepMeasure, budget, hasCurr, keyPayloadOf,
        List.drop_succ_cons, List.drop_zero, KeyExpr.leavesList,
        List.length_append, List.length_cons]
      omega

lemma mkBase_none_le {st : IterSt Pk H} {b' : BIter Pk H}
    (h : mkBase st none = some b') :
    stepMeasure b' = iterMeasure st := by
  cases h
  simp [stepMeasure, budget, hasCurr]

lemma gotoNextNode_le {b b' : BIter Pk H}
    (h : gotoNextNode b = some b') :
    stepMeasure b' ≤ iterMeasure b.nodeIter := by
  rw [gotoNextNode] at h
  cases hnx : iterNext b.nodeIter with
  | some p =>
      obtain ⟨n, st'⟩ := p
      rw [hnx] at h
      have h1 := mkBase_some_le h
      have h2 := iterNext_measure hnx
      omega
  | none =>
      rw [hnx] at h
      exact le_of_eq (mkBase_none_le h)

lemma microStep_again_lt {acc : Ms Pk H → Nat → Option α} {emit : Pk → α}
    {b b' : BIter Pk H} (h : microStep acc emit b = .again b') :
    stepMeasure b' < stepMeasure b := by
  obtain ⟨ni, cn, mi, ml, ki⟩ := b
  cases cn with
  | none => simp [microStep] at h
  | some m =>
      cases m
      case PkK k =>
        cases mi with
        | none => simp [microStep] at h
        | some s =>
            cases s with
            | cons pk rest => simp [microStep] at h
            | nil =>
                simp only [microStep] at h
                split at h
                · cases h
                  have hle := gotoNextNode_le
                    (by assumption : gotoNextNode _ = some _)
                  simp only [stepMeasure, budget, hasCurr,
                    List.length_nil] at hle ⊢
                  omega
                · cases h
      case MultiA km keys =>
        cases mi with
        | none => simp [microStep] at h
        | some s =>
            cases s with
            | cons pk rest => simp [microStep] at h
            | nil =>
                cases ml with
                | none => simp [microStep] at h
                | some vecSize =>
                    simp only [microStep] at h
                    split at h
                    · split at h
                      · cases h
                      · split at h
                        · cases h
                        · cases h
                          rename_i xo ke hk xl hl
                          have hlt : ki + 1 < keys.length := by
                            by_contra hge
                            rw [List.get?_eq_none.mpr (le_of_not_lt hge)] at hk
                            cases hk
                          have h1 := leavesList_drop_get? hk
                          rw [hl] at h1
                          have h12 : ki + 1 + 1 = ki + 2 := rfl
                          rw [h12] at h1
                          simp only [List.length_nil, Nat.zero_add] at h1
                          have h2 := @leavesList_drop_succ_le Pk
                            keys (ki + 2)
                          simp only [stepMeasure, budget, hasCurr,
                            List.length_nil]
                          omega
                    · split at h
                      · cases h
                        have hle := gotoNextNode_le
                          (by assumption : gotoNextNode _ = some _)
                        simp only [stepMeasure, budget, hasCurr,
                          List.length_nil] at hle ⊢
                        omega
                      · cases h
      all_goals
        simp only [microStep, defAccStep] at h
      all_goals
        split at h
      all_goals
        first
        | cases h
        | (split at h
           · cases h
             have hle := gotoNextNode_le
               (by assumption : gotoNextNode _ = some _)
             simp only [stepMeasure, budget, hasCurr, keyPayloadOf] at hle ⊢
             omega
           · cases h)

/-- A whole call of the iterators' `next`: run `microStep` until it
stops `continue`-ing. -/
def stepKey (acc : Ms Pk H → Nat → Option α) (emit : Pk → α)
    (b : BIter Pk H) : StepRes Pk H α :=
  match hm : microStep acc emit b with
  | .yield a b' => .yield a b'
  | .done => .done
  | .panicked => .panicked
  | .again b' => stepKey acc emit b'
termination_by stepMeasure b
decreasing_by exact microStep_again_lt hm

/-- The single-node accessors yield only at indices below the node's
key payload (this is what makes each yielded key count against the
measure). -/
def AccBound (acc : Ms Pk H → Nat → Option α) : Prop :=
  ∀ m i a, acc m i = some a → i < keyPayloadOf m

lemma accBound_getNthPk : AccBound (@getNthPk Pk H) := by
  intro m i a h
  cases m <;> cases i <;>
    simp only [getNthPk, keyPayloadOf] at h ⊢ <;>
    first
    | omega
    | cases h
    | (split at h
       · omega
       · cases h)

lemma accBound_getNthPkh {toHash : Pk → H} :
    AccBound (getNthPkh toHash) := by
  intro m i a h
  cases m <;> cases i <;>
    simp only [getNthPkh, keyPayloadOf] at h ⊢ <;>
    first
    | omega
    | cases h
    | (split at h
       · omega
       · cases h)

lemma accBound_getNthPkPkh : AccBound (@getNthPkPkh Pk H) := by
  intro m i a h
  cases m <;> cases i <;>
    simp only [getNthPkPkh, keyPayloadOf] at h ⊢ <;>
    first
    | omega
    | cases h
    | (split at h
       · omega
       · cases h)

lemma microStep_yield_lt {acc : Ms Pk H → Nat → Option α} {emit : Pk → α}
    (hacc : AccBound acc) {b b' : BIter Pk H} {a : α}
    (h : microStep acc emit b = .yield a b') :
    stepMeasure b' < stepMeasure b := by
  obtain ⟨ni, cn, mi, ml, ki⟩ := b
  cases cn with
  | none => simp [microStep] at h
  | some m =>
      cases m
      case PkK k =>
        cases mi with
        | none => simp [microStep] at h
        | some s =>
            cases s with
            | nil =>
                simp only [microStep] at h
                split at h <;> cases h
            | cons pk rest =>
                simp only [microStep] at h
                cases h
                simp only [stepMeasure, budget, hasCurr, List.length_cons]
                omega
      case MultiA km keys =>
        cases mi with
        | none => simp [microStep] at h
        | some s =>
            cases s with
            | cons pk rest =>
                simp only [microStep] at h
                cases h
                simp only [stepMeasure, budget, hasCurr, List.length_cons]
                omega
            | nil =>
                cases ml with
                | none => simp [microStep] at h
                | some vecSize =>
                    simp only [microStep] at h
                    split at h
                    · split at h
                      · cases h
                      · split at h
                        · cases h
                          rename_i xo ke hk xl pk rest hl
                          have hlt : ki + 1 < keys.length := by
                            by_contra hge
                            rw [List.get?_eq_none.mpr (le_of_not_lt hge)] at hk
                            cases hk
                          have h1 := leavesList_drop_get? hk
                          rw [hl] at h1
                          simp only [List.length_cons] at h1
                          simp only [stepMeasure, budget, hasCurr,
                            List.length_nil, List.length_cons]
                          omega
                        · cases h
                    · split at h <;> cases h
      all_goals
        simp only [microStep, defAccStep] at h
      all_goals
        split at h
      all_goals
        first
        | (cases h
           have hb := hacc _ _ _ (by assumption)
           simp only [stepMeasure, budget, hasCurr] at hb ⊢
           omega)
        | cases h
        | (split at h <;> cases h)

lemma stepKey_yield_lt {acc : Ms Pk H → Nat → Option α} {emit : Pk → α}
    (hacc : AccBound acc) {b b' : BIter Pk H} {a : α}
    (h : stepKey acc emit b = .yield a b') :
    stepMeasure b' < stepMeasure b := by
  have main : ∀ n b, stepMeasure b ≤ n →
      ∀ (a : α) (b' : BIter Pk H), stepKey acc emit b = .yield a b' →
        stepMeasure b' < stepMeasure b := by
    intro n
    induction n with
    | zero =>
        intro b hb a b' h
        rw [stepKey] at h
        split at h
        · cases h
          exact microStep_yield_lt hacc (by assumption)
        · cases h
        · cases h
        · have := microStep_again_lt (by assumption :
            microStep acc emit b = .again _)
          omega
    | succ n ih =>
        intro b hb a b' h
        rw [stepKey] at h
        split at h
        · cases h
          exact microStep_yield_lt hacc (by assumption)
        · cases h
        · cases h
        · rename_i b2 hm
          have hlt := microStep_again_lt hm
          have := ih b2 (by omega) a b' h
          omega
  exact main (stepMeasure b) b (le_refl _) a b' h

/-- Collect a whole iterator run into a list; `none` models a panic
during iteration. -/
def runKey (acc : Ms Pk H → Nat → Option α) (emit : Pk → α)
    (hacc : AccBound acc) (b : BIter Pk H) : Option (List α) :=
  match hs : stepKey acc emit b with
  | .done => some []
  | .panicked => none
  | .yield a b' => (runKey acc emit hacc b').map (fun l => a :: l)
termination_by stepMeasure b
decreasing_by exact stepKey_yield_lt hacc hs

/-- `PkIter` as a whole: construct, then collect every yielded key
(`none` models a panic). -/
def pkIterList (m : Ms Pk H) : Option (List Pk) :=
  match baseIterNew m with
  | none => none
  | some b => runKey getNthPk (fun pk => pk) accBound_getNthPk b

/-- `PkhIter` as a whole. -/
def pkhIterList (toHash : Pk → H) (m : Ms Pk H) : Option (List H) :=
  match baseIterNew m with
  | none => none
  | some b => runKey (getNthPkh toHash) toHash accBound_getNthPkh b

/-- `PkPkhIter` as a whole. -/
def pkPkhIterList (m : Ms Pk H) : Option (List (PkPkh Pk H)) :=
  match baseIterNew m with
  | none => none
  | some b =>
      runKey getNthPkPkh (fun pk => PkPkh.PlainPubkey pk)
        accBound_getNthPkPkh b

/-- The collection loop of `PkPkhIter::pk_only` (lines 611-622): keep
every `PlainPubkey`, abort with `None` on the first `HashedPubkey`. -/
def pkOnlyCollect : List (PkPkh Pk H) → Option (List Pk)
  | [] => some []
  | .HashedPubkey _ :: _ => none
  | .PlainPubkey k :: rest => (pkOnlyCollect rest).map (fun l => k :: l)

/-- `PkPkhIter::pk_only` on a whole AST (outer `none` models a panic
while iterating; the inner option is the function's own result). -/
def pkOnly (m : Ms Pk H) : Option (Option (List Pk)) :=
  (pkPkhIterList m).map pkOnlyCollect

/-! ## Hereditary node predicates along the iterators -/

mutual

/-- Well-formedness used as modelling hypothesis for the safety claim:
every `MultiA` in the AST has at least one key expression (the
constructors index `keys[0]`) and few enough that the `as u32` casts
of `keys.len()` and `key_index` are lossless. -/
def wfMs : Ms Pk H → Bool
  | .MultiA _ keys => !keys.isEmpty && decide (keys.length + 1 < 2 ^ 32)
  | .Alt m | .Swap m | .Check m | .DupIf m | .Verify m | .NonZero m
  | .ZeroNotEqual m => wfMs m
  | .AndV a b | .AndB a b | .OrB a b | .OrD a b | .OrC a b | .OrI a b =>
      wfMs a && wfMs b
  | .AndOr a b c => wfMs a && wfMs b && wfMs c
  | .Thresh _ subs => wfMsList subs
  | _ => true

def wfMsList : List (Ms Pk H) → Bool
  | [] => true
  | m :: ms => wfMs m && wfMsList ms

end

mutual

/-- No `RawPkH` node anywhere in the AST. -/
def noRawMs : Ms Pk H → Bool
  | .RawPkH _ => false
  | .Alt m | .Swap m | .Check m | .DupIf m | .Verify m | .NonZero m
  | .ZeroNotEqual m => noRawMs m
  | .AndV a b | .AndB a b | .OrB a b | .OrD a b | .OrC a b | .OrI a b =>
      noRawMs a && noRawMs b
  | .AndOr a b c => noRawMs a && noRawMs b && noRawMs c
  | .Thresh _ subs => noRawMsList subs
  | _ => true

def noRawMsList : List (Ms Pk H) → Bool
  | [] => true
  | m :: ms => noRawMs m && noRawMsList ms

end

/-- A node predicate that holds of every child whenever it holds of
the parent. -/
def Hereditary (P : Ms Pk H → Bool) : Prop :=
  ∀ m, P m = true → ∀ c ∈ branches m, P c = true

lemma wfMsList_mem {l : List (Ms Pk H)} (h : wfMsList l = true) :
    ∀ c ∈ l, wfMs c = true := by
  induction l with
  | nil => intro c hc; cases hc
  | cons m ms ih =>
      rw [wfMsList, Bool.and_eq_true] at h
      intro c hc
      rcases List.mem_cons.mp hc with rfl | hc
      · exact h.1
      · exact ih h.2 c hc

lemma noRawMsList_mem {l : List (Ms Pk H)} (h : noRawMsList l = true) :
    ∀ c ∈ l, noRawMs c = true := by
  induction l with
  | nil => intro c hc; cases hc
  | cons m ms ih =>
      rw [noRawMsList, Bool.and_eq_true] at h
      intro c hc
      rcases List.mem_cons.mp hc with rfl | hc
      · exact h.1
      · exact ih h.2 c hc

lemma wfMs_hereditary : Hereditary (@wfMs Pk H) := by
  intro m h c hc
  cases m <;>
    simp only [branches, List.mem_cons, List.not_mem_nil, or_false] at hc <;>
    simp only [wfMs, Bool.and_eq_true] at h <;>
    first
    | exact hc.elim
    | exact wfMsList_mem h c hc
    | (rcases hc with rfl
       exact h)
    | (rcases hc with rfl | rfl
       · exact h.1
       · exact h.2)
    | (rcases hc with rfl | rfl | rfl
       · exact h.1.1
       · exact h.1.2
       · exact h.2)

lemma noRawMs_hereditary : Hereditary (@noRawMs Pk H) := by
  intro m h c hc
  cases m <;>
    simp only [branches, List.mem_cons, List.not_mem_nil, or_false] at hc <;>
    simp only [noRawMs, Bool.and_eq_true] at h <;>
    first
    | exact hc.elim
    | exact noRawMsList_mem h c hc
    | (rcases hc with rfl
       exact h)
    | (rcases hc with rfl | rfl
       · exact h.1
       · exact h.2)
    | (rcases hc with rfl | rfl | rfl
       · exact h.1.1
       · exact h.1.2
       · exact h.2)

/-- `P` holds of every node the node iterator can still emit. -/
def iterAll (P : Ms Pk H → Bool) (st : IterSt Pk H) : Prop :=
  (∀ m, st.next = some m → P m = true) ∧ ∀ p ∈ st.path, P p.1 = true

lemma getNthChild_mem {m c : Ms Pk H} {i : Nat}
    (h : getNthChild m i = some c) : c ∈ branches m := by
  rw [getNthChild_eq_get?] at h
  exact List.get?_mem h

lemma popFind_all {P : Ms Pk H → Bool} (HP : Hereditary P)
    {path : List (Ms Pk H × Nat)} {c : Ms Pk H}
    {path' : List (Ms Pk H × Nat)}
    (hp : ∀ p ∈ path, P p.1 = true) (h : popFind path = some (c, path')) :
    P c = true ∧ ∀ p ∈ path', P p.1 = true := by
  induction path generalizing c path' with
  | nil => cases h
  | cons f fs ih =>
      obtain ⟨node, i⟩ := f
      have hnode : P node = true := hp (node, i) (List.mem_cons_self _ _)
      have hfs : ∀ p ∈ fs, P p.1 = true :=
        fun p hpp => hp p (List.mem_cons_of_mem _ hpp)
      rw [popFind] at h
      cases hx : getNthChild node i with
      | some x =>
          rw [hx] at h
          cases h
          refine ⟨HP node hnode c (getNthChild_mem hx), ?_⟩
          intro p hpp
          rcases List.mem_cons.mp hpp with rfl | hpp
          · exact hnode
          · exact hfs p hpp
      | none =>
          rw [hx] at h
          exact ih hfs h

lemma iterNext_all {P : Ms Pk H → Bool} (HP : Hereditary P)
    {st : IterSt Pk H} {n : Ms Pk H} {st' : IterSt Pk H}
    (hst : iterAll P st) (h : iterNext st = some (n, st')) :
    P n = true ∧ iterAll P st' := by
  rcases st with ⟨next, path⟩
  obtain ⟨hnext, hpath⟩ := hst
  cases hnx : next with
  | some m =>
      rw [iterNext] at h
      simp only [hnx] at h
      cases h
      have hn : P n = true := hnext n (by rw [hnx])
      refine ⟨hn, fun c hc => HP n hn c (getNthChild_mem hc), ?_⟩
      intro p hpp
      rcases List.mem_cons.mp hpp with rfl | hpp
      · exact hn
      · exact hpath p hpp
  | none =>
      rw [iterNext] at h
      simp only [hnx] at h
      cases hpf : popFind path with
      | none => rw [hpf] at h; cases h
      | some res =>
          obtain ⟨c, path2⟩ := res
          rw [hpf] at h
          cases h
          obtain ⟨hc, hpath2⟩ := popFind_all HP hpath hpf
          refine ⟨hc, fun x hx => HP n hc x (getNthChild_mem hx), ?_⟩
          intro p hpp
          rcases List.mem_cons.mp hpp with rfl | hpp
          · exact hc
          · exact hpath2 p hpp

/-- `P` holds of the loaded node and of everything still to come. -/
def bAll (P : Ms Pk H → Bool) (b : BIter Pk H) : Prop :=
  iterAll P b.nodeIter ∧ ∀ m, b.currNode = some m → P m = true

lemma mkBase_all {P : Ms Pk H → Bool} {st : IterSt Pk H}
    {curr : Option (Ms Pk H)} {b' : BIter Pk H}
    (hst : iterAll P st) (hc : ∀ m, curr = some m → P m = true)
    (h : mkBase st curr = some b') : bAll P b' := by
  rcases curr with _ | m
  · cases h; exact ⟨hst, fun m hm => by cases hm⟩
  · cases m <;> simp only [mkBase] at h <;>
      first
      | (cases h
         exact ⟨hst, fun x hx => by cases hx; exact hc _ rfl⟩)
      | skip
    rename_i km keys
    cases keys with
    | nil => cases h
    | cons ke rest =>
        cases h
        exact ⟨hst, fun x hx => by cases hx; exact hc _ rfl⟩

lemma gotoNextNode_all {P : Ms Pk H → Bool} (HP : Hereditary P)
    {b b' : BIter Pk H} (hb : bAll P b) (h : gotoNextNode b = some b') :
    bAll P b' := by
  rw [gotoNextNode] at h
  cases hnx : iterNext b.nodeIter with
  | some p =>
      obtain ⟨n, st'⟩ := p
      rw [hnx] at h
      obtain ⟨hn, hst'⟩ := iterNext_all HP hb.1 hnx
      exact mkBase_all hst' (fun m hm => by cases hm; exact hn) h
  | none =>
      rw [hnx] at h
      exact mkBase_all hb.1 (fun m hm => by cases hm) h

lemma baseIterNew_all {P : Ms Pk H → Bool} (HP : Hereditary P)
    {m : Ms Pk H} {b : BIter Pk H}
    (hm : P m = true) (h : baseIterNew m = some b) : bAll P b := by
  have hst : iterAll P (iterNew m) :=
    ⟨fun x hx => by cases hx; exact hm, fun p hp => by cases hp⟩
  rw [baseIterNew] at h
  cases hnx : iterNext (iterNew m) with
  | some p =>
      obtain ⟨n, st'⟩ := p
      rw [hnx] at h
      obtain ⟨hn, hst'⟩ := iterNext_all HP hst hnx
      exact mkBase_all hst' (fun x hx => by cases hx; exact hn) h
  | none =>
      rw [hnx] at h
      exact mkBase_all hst (fun x hx => by cases hx) h

/-! ## The musig-iterator invariant (claim C10) -/

/-- The invariant of `BaseIter`: every pending node is well formed,
and whenever the current node is a `PkK` or a `MultiA` the
`musig_iter` field is loaded (for `MultiA` additionally `multi_a_len`
caches `keys.len() as u32` and `key_index` stays in range). -/
def InvB (b : BIter Pk H) : Prop :=
  bAll wfMs b ∧
  match b.currNode with
  | some (.PkK _) => b.musigIter.isSome = true
  | some (.MultiA _ keys) =>
      b.musigIter.isSome = true
        ∧ b.multiALen = some (keys.length % 2 ^ 32)
        ∧ b.keyIndex ≤ keys.length
  | _ => b.keyIndex = b.keyIndex

lemma mkBase_inv {st : IterSt Pk H} {curr : Option (Ms Pk H)}
    (hst : iterAll wfMs st) (hc : ∀ m, curr = some m → wfMs m = true) :
    ∃ b', mkBase st curr = some b' ∧ InvB b' := by
  rcases curr with _ | m
  · exact ⟨_, rfl, ⟨hst, fun m hm => by cases hm⟩, rfl⟩
  · cases m
    case PkK k =>
      refine ⟨_, rfl, ?_, rfl⟩
      exact ⟨hst, fun x hx => by cases hx; exact hc _ rfl⟩
    case MultiA km keys =>
      have hwf := hc _ rfl
      cases keys with
      | nil => simp [wfMs] at hwf
      | cons ke rest =>
          refine ⟨_, rfl, ?_, rfl, rfl, Nat.zero_le _⟩
          exact ⟨hst, fun x hx => by cases hx; exact hc _ rfl⟩
    all_goals
      exact ⟨_, rfl,
        ⟨hst, fun x hx => by cases hx; exact hc _ rfl⟩, rfl⟩

lemma gotoNextNode_inv {b : BIter Pk H} (hb : InvB b) :
    ∃ b', gotoNextNode b = some b' ∧ InvB b' := by
  rw [gotoNextNode]
  cases hnx : iterNext b.nodeIter with
  | some p =>
      obtain ⟨n, st'⟩ := p
      obtain ⟨hn, hst'⟩ := iterNext_all wfMs_hereditary hb.1.1 hnx
      exact mkBase_inv hst' (fun x hx => by cases hx; exact hn)
  | none =>
      exact mkBase_inv hb.1.1 (fun x hx => by cases hx)

lemma baseIterNew_inv {m : Ms Pk H} (hm : wfMs m = true) :
    ∃ b, baseIterNew m = some b ∧ InvB b := by
  have hst : iterAll wfMs (iterNew m) :=
    ⟨fun x hx => by cases hx; exact hm, fun p hp => by cases hp⟩
  rw [baseIterNew]
  cases hnx : iterNext (iterNew m) with
  | some p =>
      obtain ⟨n, st'⟩ := p
      obtain ⟨hn, hst'⟩ := iterNext_all wfMs_hereditary hst hnx
      exact mkBase_inv hst' (fun x hx => by cases hx; exact hn)
  | none =>
      exact mkBase_inv hst (fun x hx => by cases hx)

lemma microStep_inv {acc : Ms Pk H → Nat → Option α} {emit : Pk → α}
    {b : BIter Pk H} (hb : InvB b) :
    microStep acc emit b ≠ .panicked
    ∧ (∀ a b', microStep acc emit b = .yield a b' → InvB b')
    ∧ (∀ b', microStep acc emit b = .again b' → InvB b') := by
  obtain ⟨ni, cn, mi, ml, ki⟩ := b
  obtain ⟨hall, hinv⟩ := hb
  cases cn with
  | none =>
      refine ⟨by simp [microStep], ?_, ?_⟩ <;>
        (intro x h; try intro h2) <;> simp [microStep] at *
  | some m =>
      cases m
      case PkK k =>
        cases mi with
        | none => simp at hinv
        | some s =>
            cases s with
            | cons pk rest =>
                refine ⟨by simp [microStep], ?_, ?_⟩
                · intro a b' h
                  simp only [microStep] at h
                  cases h
                  exact ⟨hall, rfl⟩
                · intro b' h
                  simp only [microStep] at h
                  cases h
            | nil =>
                obtain ⟨b2, hg, hinv2⟩ :=
                  gotoNextNode_inv (b := ⟨ni, some (.PkK k), some [], ml, ki⟩)
                    ⟨hall, rfl⟩
                refine ⟨by simp [microStep, hg], ?_, ?_⟩
                · intro a b' h
                  simp only [microStep, hg] at h
                  cases h
                · intro b' h
                  simp only [microStep, hg] at h
                  cases h
                  exact hinv2
      case MultiA km keys =>
        obtain ⟨hsome, hml, hki⟩ := hinv
        cases mi with
        | none => simp at hsome
        | some s =>
            cases s with
            | cons pk rest =>
                refine ⟨by simp [microStep], ?_, ?_⟩
                · intro a b' h
                  simp only [microStep] at h
                  cases h
                  exact ⟨hall, rfl, hml, hki⟩
                · intro b' h
                  simp only [microStep] at h
                  cases h
            | nil =>
                cases ml with
                | none => cases hml
                | some v =>
                    injection hml with hv
                    subst hv
                    have hwf := hall.2 _ rfl
                    rw [wfMs, Bool.and_eq_true] at hwf
                    have hlen : keys.length + 1 < 2 ^ 32 :=
                      of_decide_eq_true hwf.2
                    have hki' : ki ≤ keys.length := hki
                    have hmod1 : (ki + 1) % 2 ^ 32 = ki + 1 :=
                      Nat.mod_eq_of_lt (by omega)
                    have hmod2 : keys.length % 2 ^ 32 = keys.length :=
                      Nat.mod_eq_of_lt (by omega)
                    by_cases hc2 : ki + 1 < keys.length
                    · cases hk : keys.get? (ki + 1) with
                      | none =>
                          rw [List.get?_eq_none] at hk
                          omega
                      | some ke =>
                          cases hl : KeyExpr.leaves ke with
                          | cons pk rest =>
                              have hms : microStep acc emit
                                  ⟨ni, some (.MultiA km keys), some [],
                                    some (keys.length % 2 ^ 32), ki⟩
                                  = .yield (emit pk)
                                    ⟨ni, some (.MultiA km keys), some rest,
                                      some (keys.length % 2 ^ 32), ki + 1⟩ := by
                                simp only [microStep]
                                rw [if_pos (show ((ki + 1) % 2 ^ 32 <
                                  keys.length % 2 ^ 32) by
                                    rw [hmod1, hmod2]; exact hc2)]
                                simp only [hk, hl]
                                try rfl
                              refine ⟨(by rw [hms]; intro h; cases h), ?_, ?_⟩
                              · intro a b' h
                                rw [hms] at h
                                cases h
                                exact ⟨hall, rfl, rfl, Nat.le_of_lt hc2⟩
                              · intro b' h
                                rw [hms] at h
                                cases h
                          | nil =>
                              have hms : microStep acc emit
                                  ⟨ni, some (.MultiA km keys), some [],
                                    some (keys.length % 2 ^ 32), ki⟩
                                  = .again
                                    ⟨ni, some (.MultiA km keys), some [],
                                      some (keys.length % 2 ^ 32), ki + 2⟩ := by
                                simp only [microStep]
                                rw [if_pos (show ((ki + 1) % 2 ^ 32 <
                                  keys.length % 2 ^ 32) by
                                    rw [hmod1, hmod2]; exact hc2)]
                                simp only [hk, hl]
                                try rfl
                              refine ⟨(by rw [hms]; intro h; cases h), ?_, ?_⟩
                              · intro a b' h
                                rw [hms] at h
                                cases h
                              · intro b' h
                                rw [hms] at h
                                cases h
                                exact ⟨hall, rfl, rfl, hc2⟩
                    · obtain ⟨b2, hg, hinv2⟩ := gotoNextNode_inv
                        (b := ⟨ni, some (.MultiA km keys), some [],
                          some (keys.length % 2 ^ 32), ki⟩)
                        ⟨hall, rfl, rfl, hki⟩
                      have hms : microStep acc emit
                          ⟨ni, some (.MultiA km keys), some [],
                            some (keys.length % 2 ^ 32), ki⟩
                          = .again b2 := by
                        simp only [microStep]
                        rw [if_neg (show ¬((ki + 1) % 2 ^ 32 <
                          keys.length % 2 ^ 32) by
                            rw [hmod1, hmod2]; exact hc2), hg]
                        try rfl
                      refine ⟨(by rw [hms]; intro h; cases h), ?_, ?_⟩
                      · intro a b' h
                        rw [hms] at h
                        cases h
                      · intro b' h
                        rw [hms] at h
                        cases h
                        exact hinv2
      all_goals
        obtain ⟨b2, hg, hinv2⟩ := gotoNextNode_inv ⟨hall, rfl⟩
      all_goals
        (refine ⟨?_, ?_, ?_⟩
         · intro h
           simp only [microStep, defAccStep, hg] at h
           split at h <;> cases h
         · intro a b' h
           simp only [microStep, defAccStep, hg] at h
           split at h
           · cases h
             exact ⟨hall, rfl⟩
           · cases h
         · intro b' h
           simp only [microStep, defAccStep, hg] at h
           split at h
           · cases h
           · cases h
             exact hinv2)

lemma stepKey_inv {acc : Ms Pk H → Nat → Option α} {emit : Pk → α}
    {b : BIter Pk H} (hb : InvB b) :
    stepKey acc emit b ≠ .panicked
    ∧ ∀ a b', stepKey acc emit b = .yield a b' → InvB b' := by
  have main : ∀ n (b : BIter Pk H), stepMeasure b ≤ n → InvB b →
      stepKey acc emit b ≠ .panicked
      ∧ ∀ a b', stepKey acc emit b = .yield a b' → InvB b' := by
    intro n
    induction n with
    | zero =>
        intro b hn hb
        rw [stepKey]
        split
        · rename_i a1 b1 hm
          exact ⟨(by intro h; cases h),
            fun a b' h => by cases h; exact (microStep_inv hb).2.1 a1 b1 hm⟩
        · exact ⟨(by intro h; cases h), fun a b' h => by cases h⟩
        · rename_i hm
          exact absurd hm (microStep_inv hb).1
        · rename_i b2 hm
          have := microStep_again_lt hm
          omega
    | succ n ih =>
        intro b hn hb
        rw [stepKey]
        split
        · rename_i a1 b1 hm
          exact ⟨(by intro h; cases h),
            fun a b' h => by cases h; exact (microStep_inv hb).2.1 a1 b1 hm⟩
        · exact ⟨(by intro h; cases h), fun a b' h => by cases h⟩
        · rename_i hm
          exact absurd hm (microStep_inv hb).1
        · rename_i b2 hm
          have hlt := microStep_again_lt hm
          exact ih b2 (by omega) ((microStep_inv hb).2.2 b2 hm)
  exact main (stepMeasure b) b (le_refl _) hb

lemma runKey_some {acc : Ms Pk H → Nat → Option α} {emit : Pk → α}
    {hacc : AccBound acc} {b : BIter Pk H} (hb : InvB b) :
    ∃ l, runKey acc emit hacc b = some l := by
  have main : ∀ n (b : BIter Pk H), stepMeasure b ≤ n → InvB b →
      ∃ l, runKey acc emit hacc b = some l := by
    intro n
    induction n with
    | zero =>
        intro b hn hb
        rw [runKey]
        split
        · exact ⟨[], rfl⟩
        · rename_i hs
          exact absurd hs (stepKey_inv hb).1
        · rename_i a b2 hs
          have := stepKey_yield_lt hacc hs
          omega
    | succ n ih =>
        intro b hn hb
        rw [runKey]
        split
        · exact ⟨[], rfl⟩
        · rename_i hs
          exact absurd hs (stepKey_inv hb).1
        · rename_i a b2 hs
          have hlt := stepKey_yield_lt hacc hs
          obtain ⟨l, hl⟩ := ih b2 (by omega) ((stepKey_inv hb).2 a b2 hs)
          exact ⟨a :: l, by rw [hl]; rfl⟩
  exact main (stepMeasure b) b (le_refl _) hb

/-- C10: in `PkIter`, `PkhIter` and `PkPkhIter` (all instances of the
parametric step function), whenever the current node is a `PkK` or a
`MultiA` the `musig_iter` field is `Some`; the invariant is
established by the shared constructor, preserved by `goto_next_node`,
by every yielding step and by the `MultiA` key-index advance, and
under it neither the `unwrap()` calls nor the key indexing can panic,
at the micro-step level as well as over a whole `next()` call. -/
theorem C10_musig_iter_invariant {Pk H α : Type}
    (acc : Ms Pk H → Nat → Option α) (emit : Pk → α) :
    (∀ m : Ms Pk H, wfMs m = true →
        ∃ b, baseIterNew m = some b ∧ InvB b)
    ∧ (∀ b : BIter Pk H, InvB b →
        ∃ b', gotoNextNode b = some b' ∧ InvB b')
    ∧ (∀ b : BIter Pk H, InvB b →
        ((∃ k, b.currNode = some (.PkK k))
          ∨ (∃ km keys, b.currNode = some (.MultiA km keys))) →
        b.musigIter.isSome = true)
    ∧ (∀ b : BIter Pk H, InvB b →
        microStep acc emit b ≠ .panicked
        ∧ (∀ a b', microStep acc emit b = .yield a b' → InvB b')
        ∧ (∀ b', microStep acc emit b = .again b' → InvB b'))
    ∧ (∀ b : BIter Pk H, InvB b → stepKey acc emit b ≠ .panicked) := by
  refine ⟨fun m hm => baseIterNew_inv hm,
    fun b hb => gotoNextNode_inv hb, ?_,
    fun b hb => microStep_inv hb,
    fun b hb => (stepKey_inv hb).1⟩
  intro b hb hcase
  obtain ⟨hall, hinv⟩ := hb
  rcases hcase with ⟨k, hk⟩ | ⟨km, keys, hk⟩ <;>
    (obtain ⟨ni, cn, mi, ml, ki⟩ := b
     cases hk
     first
     | exact hinv
     | exact hinv.1)

/-- Witness for C10 at a concrete `MultiA` miniscript. -/
theorem C10_musig_iter_invariant_witness :
    ∃ b, baseIterNew
        (@Ms.MultiA String String 1
          [KeyExpr.SingleKey ("A"), KeyExpr.SingleKey ("B")]) = some b
      ∧ InvB b
      ∧ stepKey getNthPk (fun pk => pk) b ≠ .panicked := by
  obtain ⟨b, hb, hinv⟩ :=
    (C10_musig_iter_invariant (H := String) getNthPk
      (fun (pk : String) => pk)).1
      (.MultiA 1 [KeyExpr.SingleKey ("A"), KeyExpr.SingleKey ("B")])
      (by rfl)
  exact ⟨b, hb, hinv,
    (C10_musig_iter_invariant getNthPk (fun pk => pk)).2.2.2.2 b hinv⟩

/-! ## PkIter vs PkPkhIter.pk_only (claim C8) -/

lemma dite_map_plain (keys : List Pk) (n : Nat) :
    (if h : n < keys.length
      then some (PkPkh.PlainPubkey (H := H) (keys.get ⟨n, h⟩)) else none)
      = (if h : n < keys.length then some (keys.get ⟨n, h⟩) else none).map
          (fun pk => PkPkh.PlainPubkey pk) := by
  by_cases h : n < keys.length
  · rw [dif_pos h, dif_pos h]; rfl
  · rw [dif_neg h, dif_neg h]; rfl

lemma getNthPkPkh_noRaw {m : Ms Pk H} (hm : noRawMs m = true) (i : Nat) :
    getNthPkPkh m i
      = (getNthPk m i).map (fun pk => PkPkh.PlainPubkey pk) := by
  cases m
  case Multi k keys =>
    first
    | exact dite_map_plain keys i
    | (cases i <;> exact dite_map_plain keys _)
  case RawPkH h0 => rw [noRawMs] at hm; cases hm
  all_goals (cases i <;> rfl)

lemma microStep_bAll {P : Ms Pk H → Bool} (HP : Hereditary P)
    {acc : Ms Pk H → Nat → Option α} {emit : Pk → α} {b : BIter Pk H}
    (hb : bAll P b) :
    (∀ a b', microStep acc emit b = .yield a b' → bAll P b')
    ∧ (∀ b', microStep acc emit b = .again b' → bAll P b') := by
  constructor
  · intro a b' h
    simp only [microStep, defAccStep] at h
    repeat' split at h
    all_goals cases h
    all_goals
      first
      | exact hb
      | exact gotoNextNode_all HP hb (by assumption)
  · intro b' h
    simp only [microStep, defAccStep] at h
    repeat' split at h
    all_goals cases h
    all_goals
      first
      | exact hb
      | exact gotoNextNode_all HP hb (by assumption)

lemma defAccStep_map {β : Type} (b : BIter Pk H) (o : Option β)
    (f : β → α) :
    defAccStep b (o.map f)
      = match defAccStep b o with
        | .yield a b' => .yield (f a) b'
        | .done => .done
        | .panicked => .panicked
        | .again b' => .again b' := by
  cases o with
  | some x => rfl
  | none =>
      cases hg : gotoNextNode b <;>
        simp only [defAccStep, Option.map, hg]

lemma micro_sim {b : BIter Pk H} (hb : bAll noRawMs b) :
    microStep getNthPkPkh (fun pk => PkPkh.PlainPubkey pk) b
      = match microStep getNthPk (fun pk => pk) b with
        | .yield pk b' => .yield (PkPkh.PlainPubkey pk) b'
        | .done => .done
        | .panicked => .panicked
        | .again b' => .again b' := by
  obtain ⟨ni, cn, mi, ml, ki⟩ := b
  cases cn with
  | none => rfl
  | some m =>
      have hnr := hb.2 _ rfl
      cases m
      case RawPkH h0 => rw [noRawMs] at hnr; cases hnr
      all_goals simp only [microStep]
      all_goals try rw [getNthPkPkh_noRaw hnr, defAccStep_map]
      all_goals try rfl
      all_goals repeat' split
      all_goals first
        | rfl
        | simp_all

lemma stepKey_bAll {P : Ms Pk H → Bool} (HP : Hereditary P)
    {acc : Ms Pk H → Nat → Option α} {emit : Pk → α} {b : BIter Pk H}
    (hb : bAll P b) :
    ∀ a b', stepKey acc emit b = .yield a b' → bAll P b' := by
  have main : ∀ n (b : BIter Pk H), stepMeasure b ≤ n → bAll P b →
      ∀ a b', stepKey acc emit b = .yield a b' → bAll P b' := by
    intro n
    induction n with
    | zero =>
        intro b hn hb a b' h
        rw [stepKey] at h
        split at h
        · cases h
          exact (microStep_bAll HP hb).1 _ _ (by assumption)
        · cases h
        · cases h
        · rename_i b2 hm
          have := microStep_again_lt hm
          omega
    | succ n ih =>
        intro b hn hb a b' h
        rw [stepKey] at h
        split at h
        · cases h
          exact (microStep_bAll HP hb).1 _ _ (by assumption)
        · cases h
        · cases h
        · rename_i b2 hm
          have hlt := microStep_again_lt hm
          exact ih b2 (by omega) ((microStep_bAll HP hb).2 b2 hm) a b' h
  exact main (stepMeasure b) b (le_refl _) hb

lemma stepKey_sim {b : BIter Pk H} (hb : bAll noRawMs b) :
    stepKey getNthPkPkh (fun pk => PkPkh.PlainPubkey pk) b
      = match stepKey getNthPk (fun pk => pk) b with
        | .yield pk b' => .yield (PkPkh.PlainPubkey pk) b'
        | .done => .done
        | .panicked => .panicked := by
  have main : ∀ n (b : BIter Pk H), stepMeasure b ≤ n → bAll noRawMs b →
      stepKey getNthPkPkh (fun pk => PkPkh.PlainPubkey pk) b
        = match stepKey getNthPk (fun pk => pk) b with
          | .yield pk b' => .yield (PkPkh.PlainPubkey pk) b'
          | .done => .done
          | .panicked => .panicked := by
    intro n
    induction n with
    | zero =>
        intro b hn hb
        have hsim := micro_sim hb
        cases hm : microStep getNthPk (fun pk => pk) b with
        | again b2 =>
            have := microStep_again_lt hm
            omega
        | yield pk b1 =>
            rw [hm] at hsim
            have h2 : microStep getNthPkPkh (fun pk => PkPkh.PlainPubkey pk) b
                = .yield (PkPkh.PlainPubkey pk) b1 := hsim
            have hpk : stepKey getNthPk (fun pk => pk) b = .yield pk b1 := by
              rw [stepKey]
              split
              all_goals rename_i heq
              all_goals rw [hm] at heq
              all_goals cases heq
              all_goals rfl
            have hpkh : stepKey getNthPkPkh (fun pk => PkPkh.PlainPubkey pk) b
                = .yield (PkPkh.PlainPubkey pk) b1 := by
              rw [stepKey]
              split
              all_goals rename_i heq
              all_goals rw [h2] at heq
              all_goals cases heq
              all_goals rfl
            rw [hpk, hpkh]
        | done =>
            rw [hm] at hsim
            have h2 : microStep getNthPkPkh (fun pk => PkPkh.PlainPubkey pk) b
                = .done := hsim
            have hpk : stepKey getNthPk (fun pk => pk) b = .done := by
              rw [stepKey]
              split
              all_goals rename_i heq
              all_goals rw [hm] at heq
              all_goals cases heq
              all_goals rfl
            have hpkh : stepKey getNthPkPkh (fun pk => PkPkh.PlainPubkey pk) b
                = .done := by
              rw [stepKey]
              split
              all_goals rename_i heq
              all_goals rw [h2] at heq
              all_goals cases heq
              all_goals rfl
            rw [hpk, hpkh]
        | panicked =>
            rw [hm] at hsim
            have h2 : microStep getNthPkPkh (fun pk => PkPkh.PlainPubkey pk) b
                = .panicked := hsim
            have hpk : stepKey getNthPk (fun pk => pk) b = .panicked := by
              rw [stepKey]
              split
              all_goals rename_i heq
              all_goals rw [hm] at heq
              all_goals cases heq
              all_goals rfl
            have hpkh : stepKey getNthPkPkh (fun pk => PkPkh.PlainPubkey pk) b
                = .panicked := by
              rw [stepKey]
              split
              all_goals rename_i heq
              all_goals rw [h2] at heq
              all_goals cases heq
              all_goals rfl
            rw [hpk, hpkh]
    | succ n ih =>
        intro b hn hb
        have hsim := micro_sim hb
        cases hm : microStep getNthPk (fun pk => pk) b with
        | again b2 =>
            rw [hm] at hsim
            have h2 : microStep getNthPkPkh (fun pk => PkPkh.PlainPubkey pk) b
                = .again b2 := hsim
            have hpk : stepKey getNthPk (fun pk => pk) b
                = stepKey getNthPk (fun pk => pk) b2 := by
              rw [stepKey]
              split
              all_goals rename_i heq
              all_goals rw [hm] at heq
              all_goals cases heq
              all_goals rfl
            have hpkh : stepKey getNthPkPkh (fun pk => PkPkh.PlainPubkey pk) b
                = stepKey getNthPkPkh (fun pk => PkPkh.PlainPubkey pk) b2 := by
              rw [stepKey]
              split
              all_goals rename_i heq
              all_goals rw [h2] at heq
              all_goals cases heq
              all_goals rfl
            rw [hpk, hpkh]
            have hlt := microStep_again_lt hm
            exact ih b2 (by omega)
              ((microStep_bAll noRawMs_hereditary hb).2 b2 hm)
        | yield pk b1 =>
            rw [hm] at hsim
            have h2 : microStep getNthPkPkh (fun pk => PkPkh.PlainPubkey pk) b
                = .yield (PkPkh.PlainPubkey pk) b1 := hsim
            have hpk : stepKey getNthPk (fun pk => pk) b = .yield pk b1 := by
              rw [stepKey]
              split
              all_goals rename_i heq
              all_goals rw [hm] at heq
              all_goals cases heq
              all_goals rfl
            have hpkh : stepKey getNthPkPkh (fun pk => PkPkh.PlainPubkey pk) b
                = .yield (PkPkh.PlainPubkey pk) b1 := by
              rw [stepKey]
              split
              all_goals rename_i heq
              all_goals rw [h2] at heq
              all_goals cases heq
              all_goals rfl
            rw [hpk, hpkh]
        | done =>
            rw [hm] at hsim
            have h2 : microStep getNthPkPkh (fun pk => PkPkh.PlainPubkey pk) b
                = .done := hsim
            have hpk : stepKey getNthPk (fun pk => pk) b = .done := by
              rw [stepKey]
              split
              all_goals rename_i heq
              all_goals rw [hm] at heq
              all_goals cases heq
              all_goals rfl
            have hpkh : stepKey getNthPkPkh (fun pk => PkPkh.PlainPubkey pk) b
                = .done := by
              rw [stepKey]
              split
              all_goals rename_i heq
              all_goals rw [h2] at heq
              all_goals cases heq
              all_goals rfl
            rw [hpk, hpkh]
        | panicked =>
            rw [hm] at hsim
            have h2 : microStep getNthPkPkh (fun pk => PkPkh.PlainPubkey pk) b
                = .panicked := hsim
            have hpk : stepKey getNthPk (fun pk => pk) b = .panicked := by
              rw [stepKey]
              split
              all_goals rename_i heq
              all_goals rw [hm] at heq
              all_goals cases heq
              all_goals rfl
            have hpkh : stepKey getNthPkPkh (fun pk => PkPkh.PlainPubkey pk) b
                = .panicked := by
              rw [stepKey]
              split
              all_goals rename_i heq
              all_goals rw [h2] at heq
              all_goals cases heq
              all_goals rfl
            rw [hpk, hpkh]
  exact main (stepMeasure b) b (le_refl _) hb

lemma runKey_sim {b : BIter Pk H} (hb : bAll noRawMs b) :
    runKey getNthPkPkh (fun pk => PkPkh.PlainPubkey pk)
        accBound_getNthPkPkh b
      = (runKey getNthPk (fun pk => pk) accBound_getNthPk b).map
          (List.map (fun pk => PkPkh.PlainPubkey pk)) := by
  have main : ∀ n (b : BIter Pk H), stepMeasure b ≤ n → bAll noRawMs b →
      runKey getNthPkPkh (fun pk => PkPkh.PlainPubkey pk)
          accBound_getNthPkPkh b
        = (runKey getNthPk (fun pk => pk) accBound_getNthPk b).map
            (List.map (fun pk => PkPkh.PlainPubkey pk)) := by
    intro n
    induction n with
    | zero =>
        intro b hn hb
        have hsim := stepKey_sim hb
        cases hs : stepKey getNthPk (fun pk => pk) b with
        | yield pk b1 =>
            have := stepKey_yield_lt accBound_getNthPk hs
            omega
        | done =>
            rw [hs] at hsim
            have h2 : stepKey getNthPkPkh (fun pk => PkPkh.PlainPubkey pk) b
                = .done := hsim
            have r1 : runKey getNthPk (fun pk => pk) accBound_getNthPk b
                = some [] := by
              rw [runKey]
              split
              all_goals rename_i heq
              all_goals rw [hs] at heq
              all_goals cases heq
              all_goals rfl
            have r2 : runKey getNthPkPkh (fun pk => PkPkh.PlainPubkey pk)
                accBound_getNthPkPkh b = some [] := by
              rw [runKey]
              split
              all_goals rename_i heq
              all_goals rw [h2] at heq
              all_goals cases heq
              all_goals rfl
            rw [r1, r2]
            rfl
        | panicked =>
            rw [hs] at hsim
            have h2 : stepKey getNthPkPkh (fun pk => PkPkh.PlainPubkey pk) b
                = .panicked := hsim
            have r1 : runKey getNthPk (fun pk => pk) accBound_getNthPk b
                = none := by
              rw [runKey]
              split
              all_goals rename_i heq
              all_goals rw [hs] at heq
              all_goals cases heq
              all_goals rfl
            have r2 : runKey getNthPkPkh (fun pk => PkPkh.PlainPubkey pk)
                accBound_getNthPkPkh b = none := by
              rw [runKey]
              split
              all_goals rename_i heq
              all_goals rw [h2] at heq
              all_goals cases heq
              all_goals rfl
            rw [r1, r2]
            rfl
    | succ n ih =>
        intro b hn hb
        have hsim := stepKey_sim hb
        cases hs : stepKey getNthPk (fun pk => pk) b with
        | done =>
            rw [hs] at hsim
            have h2 : stepKey getNthPkPkh (fun pk => PkPkh.PlainPubkey pk) b
                = .done := hsim
            have r1 : runKey getNthPk (fun pk => pk) accBound_getNthPk b
                = some [] := by
              rw [runKey]
              split
              all_goals rename_i heq
              all_goals rw [hs] at heq
              all_goals cases heq
              all_goals rfl
            have r2 : runKey getNthPkPkh (fun pk => PkPkh.PlainPubkey pk)
                accBound_getNthPkPkh b = some [] := by
              rw [runKey]
              split
              all_goals rename_i heq
              all_goals rw [h2] at heq
              all_goals cases heq
              all_goals rfl
            rw [r1, r2]
            rfl
        | panicked =>
            rw [hs] at hsim
            have h2 : stepKey getNthPkPkh (fun pk => PkPkh.PlainPubkey pk) b
                = .panicked := hsim
            have r1 : runKey getNthPk (fun pk => pk) accBound_getNthPk b
                = none := by
              rw [runKey]
              split
              all_goals rename_i heq
              all_goals rw [hs] at heq
              all_goals cases heq
              all_goals rfl
            have r2 : runKey getNthPkPkh (fun pk => PkPkh.PlainPubkey pk)
                accBound_getNthPkPkh b = none := by
              rw [runKey]
              split
              all_goals rename_i heq
              all_goals rw [h2] at heq
              all_goals cases heq
              all_goals rfl
            rw [r1, r2]
            rfl
        | yield pk b1 =>
            rw [hs] at hsim
            have h2 : stepKey getNthPkPkh (fun pk => PkPkh.PlainPubkey pk) b
                = .yield (PkPkh.PlainPubkey pk) b1 := hsim
            have r1 : runKey getNthPk (fun pk => pk) accBound_getNthPk b
                = (runKey getNthPk (fun pk => pk) accBound_getNthPk b1).map
                    (fun l => pk :: l) := by
              rw [runKey]
              split
              all_goals rename_i heq
              all_goals rw [hs] at heq
              all_goals cases heq
              all_goals rfl
            have r2 : runKey getNthPkPkh (fun pk => PkPkh.PlainPubkey pk)
                accBound_getNthPkPkh b
                = (runKey getNthPkPkh (fun pk => PkPkh.PlainPubkey pk)
                    accBound_getNthPkPkh b1).map
                    (fun l => PkPkh.PlainPubkey pk :: l) := by
              rw [runKey]
              split
              all_goals rename_i heq
              all_goals rw [h2] at heq
              all_goals cases heq
              all_goals rfl
            have hlt := stepKey_yield_lt accBound_getNthPk hs
            have hb1 := stepKey_bAll noRawMs_hereditary hb pk b1 hs
            rw [r1, r2, ih b1 (by omega) hb1]
            cases runKey getNthPk (fun pk => pk) accBound_getNthPk b1 with
            | none => rfl
            | some l => rfl
  exact main (stepMeasure b) b (le_refl _) hb

lemma pkOnlyCollect_map (l : List Pk) :
    pkOnlyCollect (l.map (fun pk => PkPkh.PlainPubkey (H := H) pk))
      = some l := by
  induction l with
  | nil => rfl
  | cons k rest ih => simp [pkOnlyCollect, ih]

lemma pkOnlyCollect_hashed {items : List (PkPkh Pk H)} {hsh : H}
    (hmem : PkPkh.HashedPubkey hsh ∈ items) : pkOnlyCollect items = none := by
  induction items with
  | nil => cases hmem
  | cons x rest ih =>
      cases x with
      | HashedPubkey h0 => rfl
      | PlainPubkey k =>
          rcases List.mem_cons.mp hmem with hx | hx
          · cases hx
          · rw [pkOnlyCollect, ih hx]
            rfl

/-- C8: on a `RawPkH`-free AST, `PkPkhIter` yields exactly the
`PkIter` sequence tagged `PlainPubkey`, so `pk_only()` returns
`Some` of exactly the `PkIter` key list; and whenever any
`HashedPubkey` is yielded, `pk_only`'s collection loop returns `None`
rather than a partial list. -/
theorem C8_pk_only_agrees {Pk H : Type} (m : Ms Pk H)
    (hnr : noRawMs m = true) :
    pkPkhIterList m
        = (pkIterList m).map (List.map (fun pk => PkPkh.PlainPubkey pk))
    ∧ pkOnly m = (pkIterList m).map (fun keys => some keys)
    ∧ ∀ (items : List (PkPkh Pk H)) (hsh : H),
        PkPkh.HashedPubkey hsh ∈ items → pkOnlyCollect items = none := by
  have h1 : pkPkhIterList m
      = (pkIterList m).map (List.map (fun pk => PkPkh.PlainPubkey pk)) := by
    rw [pkPkhIterList, pkIterList]
    cases hb0 : baseIterNew m with
    | none => rfl
    | some b =>
        exact runKey_sim (baseIterNew_all noRawMs_hereditary hnr hb0)
  refine ⟨h1, ?_, fun items hsh hmem => pkOnlyCollect_hashed hmem⟩
  rw [pkOnly, h1]
  cases pkIterList m with
  | none => rfl
  | some l => simp [pkOnlyCollect_map]

/-- Witness for C8 on `and_v(v:pk_h(A),pk(B))`, which contains a `PkH`
(but no `RawPkH`) and a musig `PkK`. -/
theorem C8_pk_only_agrees_witness :
    pkPkhIterList (@Ms.AndV String String
        (.PkH ("A")) (.PkK (KeyExpr.SingleKey ("B"))))
      = (pkIterList (@Ms.AndV String String
          (.PkH ("A")) (.PkK (KeyExpr.SingleKey ("B"))))).map
          (List.map (fun pk => PkPkh.PlainPubkey pk))
    ∧ pkOnly (@Ms.AndV String String
        (.PkH ("A")) (.PkK (KeyExpr.SingleKey ("B"))))
      = (pkIterList (@Ms.AndV String String
          (.PkH ("A")) (.PkK (KeyExpr.SingleKey ("B"))))).map
          (fun keys => some keys)
    ∧ ∀ (items : List (PkPkh String String)) (hsh : String),
        PkPkh.HashedPubkey hsh ∈ items → pkOnlyCollect items = none :=
  C8_pk_only_agrees
    (Ms.AndV (.PkH ("A")) (.PkK (KeyExpr.SingleKey ("B")))) (by rfl)

end Ms

namespace Policy

/-! ## Round-trip support (claim C4): printing to an expression tree -/

/-- The conditions on a key / hash atom under which its printed form
survives the parse: non-empty, free of the tree delimiters and of the
probability tag `'@'`, and within `from_str`'s printable byte range. -/
def atomOk (s : String) : Bool :=
  !s.data.isEmpty &&
    s.data.all (fun c =>
      !isTreeDelim c && !(c = '@')
        && decide (20 ≤ c.toNat) && decide (c.toNat ≤ 127))

mutual

/-- The amended round-trip guard: every atom satisfies `atomOk`, the
timelock values are in the parser-accepted range `1..=2^31`, `and` /
`or` have exactly two children (as `is_valid` also demands),
thresholds have `1 ≤ k ≤ n` with `n + 1` representable in `u32`, and
`or` weights fit in `u32`. -/
def roundOk : Policy String → Bool
  | .Unsatisfiable | .Trivial => true
  | .Key s => atomOk s
  | .After n | .Older n => decide (1 ≤ n) && decide (n ≤ 2 ^ 31)
  | .Sha256 s | .Hash256 s | .Ripemd160 s | .Hash160 s => atomOk s
  | .And subs => decide (subs.length = 2) && roundOkList subs
  | .Or subs => decide (subs.length = 2) && roundOkPairList subs
  | .Threshold k subs =>
      decide (1 ≤ k) && decide (k ≤ subs.length)
        && decide (subs.length + 1 < 2 ^ 32) && roundOkList subs

def roundOkList : List (Policy String) → Bool
  | [] => true
  | p :: ps => roundOk p && roundOkList ps

def roundOkPairList : List (Nat × Policy String) → Bool
  | [] => true
  | (w, p) :: ps => decide (w < 2 ^ 32) && roundOk p && roundOkPairList ps

end

mutual

/-- The expression tree whose rendering is exactly the `Display`
output of the policy: fragment keyword as the node name, `or` children
prefixed with their `{w}@` tag, `thresh`'s `k` as a leading numeral
leaf. -/
def toETree : Policy String → ETree
  | .Unsatisfiable => ⟨("UNSATISFIABLE"), []⟩
  | .Trivial => ⟨("TRIVIAL"), []⟩
  | .Key pk => ⟨("pk"), [⟨pk, []⟩]⟩
  | .After n => ⟨("after"), [⟨String.mk (natDec n), []⟩]⟩
  | .Older n => ⟨("older"), [⟨String.mk (natDec n), []⟩]⟩
  | .Sha256 h => ⟨("sha256"), [⟨h, []⟩]⟩
  | .Hash256 h => ⟨("hash256"), [⟨h, []⟩]⟩
  | .Ripemd160 h => ⟨("ripemd160"), [⟨h, []⟩]⟩
  | .Hash160 h => ⟨("hash160"), [⟨h, []⟩]⟩
  | .And subs => ⟨("and"), toETreeList subs⟩
  | .Or subs => ⟨("or"), toETreePairList subs⟩
  | .Threshold k subs =>
      ⟨("thresh"), ⟨String.mk (natDec k), []⟩ :: toETreeList subs⟩

def toETreeList : List (Policy String) → List ETree
  | [] => []
  | p :: ps => toETree p :: toETreeList ps

def toETreePairList : List (Nat × Policy String) → List ETree
  | [] => []
  | (w, p) :: ps =>
      ⟨String.mk (natDec w ++ '@' :: (toETree p).name.data),
        (toETree p).args⟩ :: toETreePairList ps

end

end Policy

mutual

/-- The concrete syntax of an expression tree: a bare name for a leaf,
`name(arg0,arg1,…)` otherwise (§4.1's grammar, no whitespace). -/
def renderE : ETree → List Char
  | ⟨nm, []⟩ => nm.data
  | ⟨nm, a :: as⟩ => nm.data ++ '(' :: (renderE a ++ renderTailE as) ++ [')']

def renderTailE : List ETree → List Char
  | [] => []
  | a :: as => ',' :: renderE a ++ renderTailE as

end

namespace Policy

lemma render_orArg {w : Nat} {p : Policy String}
    (hp : policyChars p = renderE (toETree p)) :
    renderE ⟨String.mk (natDec w ++ '@' :: (toETree p).name.data),
        (toETree p).args⟩
      = natDec w ++ '@' :: policyChars p := by
  rw [hp]
  rcases htp : toETree p with ⟨nmP, argsP⟩
  cases argsP with
  | nil => simp [renderE]
  | cons a as => simp [renderE]

lemma render_toETree_aux : ∀ fuel : Nat,
    (∀ p : Policy String, sizeOf p ≤ fuel → roundOk p = true →
      policyChars p = renderE (toETree p))
    ∧ (∀ ps : List (Policy String), sizeOf ps ≤ fuel → roundOkList ps = true →
      policyTailChars ps = renderTailE (toETreeList ps))
    ∧ (∀ wps : List (Nat × Policy String), sizeOf wps ≤ fuel →
      roundOkPairList wps = true →
      policyPairTailChars wps = renderTailE (toETreePairList wps)) := by
  intro fuel
  induction fuel with
  | zero =>
      refine ⟨fun p hp _ => ?_, fun ps hp _ => ?_, fun wps hp _ => ?_⟩
      · exfalso
        cases p <;> simp at hp
      · exfalso
        cases ps <;> simp at hp
      · exfalso
        cases wps <;> simp at hp
  | succ n ih =>
      obtain ⟨ihP, ihL, ihPL⟩ := ih
      refine ⟨?_, ?_, ?_⟩
      · intro p hp hok
        cases p with
        | Unsatisfiable | Trivial => rfl
        | Key s =>
            simp only [policyChars, toETree, renderE, renderTailE,
              List.append_nil]
            rfl
        | After m =>
            simp only [policyChars, toETree, renderE, renderTailE,
              List.append_nil]
            rfl
        | Older m =>
            simp only [policyChars, toETree, renderE, renderTailE,
              List.append_nil]
            rfl
        | Sha256 s | Hash256 s | Ripemd160 s | Hash160 s =>
            simp only [policyChars, toETree, renderE, renderTailE,
              List.append_nil]
            rfl
        | And subs =>
            rcases subs with _ | ⟨s1, srest⟩
            · simp [roundOk] at hok
            · simp only [roundOk, roundOkList, Bool.and_eq_true] at hok
              obtain ⟨hlen2, hok1, hokr⟩ := hok
              simp only [Policy.And.sizeOf_spec, List.cons.sizeOf_spec,
              List.nil.sizeOf_spec] at hp
              have e1 := ihP s1 (by omega) hok1
              have e2 := ihL srest (by omega) hokr
              simp only [policyChars, toETree, toETreeList, renderE,
                policyHeadChars, e1, e2]
              simp
        | Or subs =>
            rcases subs with _ | ⟨⟨w1, p1⟩, srest⟩
            · simp [roundOk] at hok
            · simp only [roundOk, roundOkPairList, Bool.and_eq_true] at hok
              obtain ⟨hlen2, ⟨hw1, hok1⟩, hokr⟩ := hok
              simp only [Policy.Or.sizeOf_spec, List.cons.sizeOf_spec,
                Prod.mk.sizeOf_spec] at hp
              have e1 := ihP p1 (by omega) hok1
              have e2 := ihPL srest (by omega) hokr
              simp only [policyChars, toETree, toETreePairList, renderE,
                policyPairHeadChars, e2, render_orArg e1]
              simp
        | Threshold k subs =>
            simp only [roundOk, Bool.and_eq_true] at hok
            simp only [Policy.Threshold.sizeOf_spec] at hp
            have e2 := ihL subs (by omega) hok.2
            simp only [policyChars, toETree, renderE, e2]
            simp
      · intro ps hp hok
        cases ps with
        | nil => rfl
        | cons p ps' =>
            simp only [roundOkList, Bool.and_eq_true] at hok
            simp only [List.cons.sizeOf_spec] at hp
            have e1 := ihP p (by omega) hok.1
            have e2 := ihL ps' (by omega) hok.2
            simp only [policyTailChars, toETreeList, renderTailE, e1, e2]
      · intro wps hp hok
        cases wps with
        | nil => rfl
        | cons q qs =>
            obtain ⟨w, p⟩ := q
            simp only [roundOkPairList, Bool.and_eq_true] at hok
            simp only [List.cons.sizeOf_spec, Prod.mk.sizeOf_spec] at hp
            have e1 := ihP p (by omega) hok.1.2
            have e2 := ihPL qs (by omega) hok.2
            simp only [policyPairTailChars, toETreePairList, renderTailE,
              e2, render_orArg e1]

end Policy

/-! ## Parsing back a rendered tree (claim C4) -/

mutual

/-- Well-formedness of an expression tree for unambiguous rendering:
every node name is non-empty and free of the tree delimiters. -/
def goodE : ETree → Bool
  | ⟨nm, args⟩ =>
      !nm.data.isEmpty && nm.data.all (fun c => !isTreeDelim c)
        && goodEList args

def goodEList : List ETree → Bool
  | [] => true
  | a :: as => goodE a && goodEList as

end

mutual

/-- Fuel sufficient for `parseTr` on a rendered tree. -/
def eFuel : ETree → Nat
  | ⟨_, args⟩ => 1 + eFuelList args

def eFuelList : List ETree → Nat
  | [] => 0
  | a :: as => 1 + eFuel a + eFuelList as

end

/-- The character span of an argument list (between `'('` and `')'`). -/
def argsRender : List ETree → List Char
  | [] => []
  | a :: as => renderE a ++ renderTailE as

/-- Whether a continuation cannot extend a name nor open an argument
list: empty, or starting with `')'` or `','`. -/
def delimAfter : List Char → Bool
  | [] => true
  | c :: _ => c = ')' || c = ','

lemma takeWhile_app (p : Char → Bool) (l r : List Char)
    (h : ∀ c ∈ l, p c = true) :
    (l ++ r).takeWhile p = l ++ r.takeWhile p := by
  induction l with
  | nil => rfl
  | cons c cs ih =>
      have hc := h c (List.mem_cons_self _ _)
      simp only [List.cons_append, List.takeWhile_cons, hc, if_true]
      rw [ih (fun x hx => h x (List.mem_cons_of_mem _ hx))]

lemma dropWhile_app (p : Char → Bool) (l r : List Char)
    (h : ∀ c ∈ l, p c = true) :
    (l ++ r).dropWhile p = r.dropWhile p := by
  induction l with
  | nil => rfl
  | cons c cs ih =>
      have hc := h c (List.mem_cons_self _ _)
      simp only [List.cons_append, List.dropWhile_cons, hc, if_true]
      exact ih (fun x hx => h x (List.mem_cons_of_mem _ hx))

lemma name_take_delim {nm rest : List Char}
    (hnm : ∀ c ∈ nm, isTreeDelim c = false)
    (hrest : ∀ c cs, rest = c :: cs → isTreeDelim c = true) :
    (nm ++ rest).takeWhile (fun c => !isTreeDelim c) = nm
    ∧ (nm ++ rest).dropWhile (fun c => !isTreeDelim c) = rest := by
  have hall : ∀ c ∈ nm, (fun c => !isTreeDelim c) c = true := by
    intro c hc
    simp [hnm c hc]
  constructor
  · rw [takeWhile_app _ _ _ hall]
    cases rest with
    | nil => simp
    | cons c cs => simp [List.takeWhile_cons, hrest c cs rfl]
  · rw [dropWhile_app _ _ _ hall]
    cases rest with
    | nil => simp
    | cons c cs => simp [List.dropWhile_cons, hrest c cs rfl]

lemma name_take {nm rest : List Char}
    (hnm : ∀ c ∈ nm, isTreeDelim c = false) (hrest : delimAfter rest = true) :
    (nm ++ rest).takeWhile (fun c => !isTreeDelim c) = nm
    ∧ (nm ++ rest).dropWhile (fun c => !isTreeDelim c) = rest := by
  refine name_take_delim hnm ?_
  intro c cs hcc
  subst hcc
  rw [delimAfter] at hrest
  rcases Bool.or_eq_true _ _ |>.mp hrest with h | h <;>
    simp only [decide_eq_true_eq] at h <;>
    simp [isTreeDelim, h]

lemma renderE_head {t : ETree} (ht : goodE t = true) :
    ∃ c cs, renderE t = c :: cs ∧ isTreeDelim c = false := by
  obtain ⟨nm, args⟩ := t
  simp only [goodE, Bool.and_eq_true] at ht
  obtain ⟨⟨hne, hnd⟩, _⟩ := ht
  cases hdat : nm.data with
  | nil => rw [hdat] at hne; simp at hne
  | cons c cs =>
      have hc : isTreeDelim c = false := by
        have := List.all_eq_true.mp hnd c (by rw [hdat]; exact List.mem_cons_self _ _)
        simpa using this
      cases args with
      | nil => exact ⟨c, cs, by rw [renderE, hdat], hc⟩
      | cons a as =>
          exact ⟨c, _, by rw [renderE, hdat]; rfl, hc⟩

lemma parseTr_render_aux : ∀ fuel : Nat,
    (∀ t : ETree, eFuel t ≤ fuel → goodE t = true →
      ∀ rest, delimAfter rest = true →
        parseTr fuel (renderE t ++ rest) = some (t, rest))
    ∧ (∀ ts : List ETree, ts ≠ [] → eFuelList ts ≤ fuel →
      goodEList ts = true → ∀ rest,
        parseArgs fuel (argsRender ts ++ ')' :: rest) = some (ts, rest)) := by
  intro fuel
  induction fuel with
  | zero =>
      constructor
      · intro t hf
        exfalso
        obtain ⟨nm, args⟩ := t
        rw [eFuel] at hf
        omega
      · intro ts hne hf
        exfalso
        cases ts with
        | nil => exact hne rfl
        | cons a as => rw [eFuelList] at hf; omega
  | succ n ih =>
      obtain ⟨ihT, ihA⟩ := ih
      constructor
      · intro t hf ht rest hrest
        obtain ⟨nm, args⟩ := t
        simp only [goodE, Bool.and_eq_true] at ht
        obtain ⟨⟨hne, hnd⟩, hargs⟩ := ht
        have hnd' : ∀ c ∈ nm.data, isTreeDelim c = false := by
          intro c hc
          have := List.all_eq_true.mp hnd c hc
          simpa using this
        cases args with
        | nil =>
            obtain ⟨htk, hdr⟩ := name_take hnd' hrest
            simp only [renderE] at htk hdr ⊢
            simp only [parseTr, htk, hdr]
            cases rest with
            | nil => rfl
            | cons c cs =>
                rw [delimAfter] at hrest
                rcases Bool.or_eq_true _ _ |>.mp hrest with h | h <;>
                  (simp only [decide_eq_true_eq] at h; subst h; rfl)
        | cons a as =>
            have hchars : renderE ⟨nm, a :: as⟩ ++ rest
                = nm.data ++ ('(' :: (argsRender (a :: as) ++ ')' :: rest)) := by
              rw [renderE, argsRender]
              simp [List.append_assoc]
            obtain ⟨htk, hdr⟩ := @name_take_delim nm.data ('(' ::
              (argsRender (a :: as) ++ ')' :: rest)) hnd'
              (by intro c cs hcc
                  cases hcc
                  rfl)
            rw [hchars]
            simp only [parseTr, htk, hdr]
            simp only [goodEList, Bool.and_eq_true] at hargs
            obtain ⟨hga, hgas⟩ := hargs
            obtain ⟨c0, cs0, hhead, hc0⟩ := renderE_head hga
            have hargs_form : argsRender (a :: as) ++ ')' :: rest
                = c0 :: (cs0 ++ renderTailE as ++ ')' :: rest) := by
              rw [argsRender, hhead]
              simp [List.append_assoc]
            rw [eFuel, eFuelList] at hf
            have hpa := ihA (a :: as) (by intro hh; cases hh)
              (by rw [eFuelList]; omega)
              (by rw [goodEList]; simp [hga, hgas]) rest
            split
            · rename_i r3 heqm
              rw [hargs_form] at heqm
              have : c0 = ')' := by
                have := List.cons.injEq .. ▸ heqm
                exact (List.cons.inj heqm).1
              subst this
              simp [isTreeDelim] at hc0
            · rw [hpa]
      · intro ts hne hf hg rest
        cases ts with
        | nil => exact absurd rfl hne
        | cons a as =>
            simp only [goodEList, Bool.and_eq_true] at hg
            obtain ⟨hga, hgas⟩ := hg
            rw [eFuelList] at hf
            have hrest1 : delimAfter (renderTailE as ++ ')' :: rest) = true := by
              cases as with
              | nil => rfl
              | cons b bs => rfl
            have hpt := ihT a (by omega) hga
              (renderTailE as ++ ')' :: rest) hrest1
            have hform : argsRender (a :: as) ++ ')' :: rest
                = renderE a ++ (renderTailE as ++ ')' :: rest) := by
              rw [argsRender]
              simp [List.append_assoc]
            rw [parseArgs, hform, hpt]
            cases as with
            | nil => rfl
            | cons b bs =>
                have hpb := ihA (b :: bs) (by intro hh; cases hh)
                  (by rw [eFuelList] at hf ⊢; omega) hgas rest
                have hform2 : renderTailE (b :: bs) ++ ')' :: rest
                    = ',' :: (argsRender (b :: bs) ++ ')' :: rest) := by
                  rw [renderTailE, argsRender]
                  simp [List.append_assoc]
                simp only [hform2, hpb]

lemma eFuel_le_aux : ∀ fuel : Nat,
    (∀ t : ETree, sizeOf t ≤ fuel →
      eFuel t ≤ 3 * (renderE t).length + 1)
    ∧ (∀ ts : List ETree, sizeOf ts ≤ fuel →
      eFuelList ts ≤ 3 * (renderTailE ts).length) := by
  intro fuel
  induction fuel with
  | zero =>
      constructor
      · intro t hsz
        exfalso
        obtain ⟨nm, args⟩ := t
        simp at hsz
      · intro ts hsz
        exfalso
        cases ts <;> simp at hsz
  | succ n ih =>
      obtain ⟨ihT, ihL⟩ := ih
      constructor
      · intro t hsz
        obtain ⟨nm, args⟩ := t
        simp only [ETree.mk.sizeOf_spec] at hsz
        cases args with
        | nil =>
            rw [eFuel, eFuelList, renderE]
            omega
        | cons a as =>
            have h1 := ihT a (by
              simp only [List.cons.sizeOf_spec] at hsz
              omega)
            have h2 := ihL as (by
              simp only [List.cons.sizeOf_spec] at hsz
              omega)
            rw [eFuel, eFuelList, renderE]
            simp only [List.length_append, List.length_cons]
            omega
      · intro ts hsz
        cases ts with
        | nil => rw [eFuelList, renderTailE]; omega
        | cons a as =>
            simp only [List.cons.sizeOf_spec] at hsz
            have h1 := ihT a (by omega)
            have h2 := ihL as (by omega)
            rw [eFuelList, renderTailE]
            simp only [List.length_cons, List.length_append]
            omega

lemma digit_not_delim {c : Char} (h : c.isDigit = true) :
    isTreeDelim c = false := by
  rw [isTreeDelim]
  by_contra hcon
  simp only [Bool.or_eq_true, decide_eq_true_eq, Bool.not_eq_false] at hcon
  rcases hcon with (h1 | h1) | h1 <;> subst h1 <;> exact absurd h (by decide)

lemma digit_toNat_bounds {c : Char} (h : c.isDigit = true) :
    48 ≤ c.toNat ∧ c.toNat ≤ 57 := by
  rw [Char.isDigit] at h
  simp only [Bool.and_eq_true, decide_eq_true_eq, ge_iff_le, UInt32.le_def,
    BitVec.le_def] at h
  obtain ⟨h1, h2⟩ := h
  exact ⟨h1, h2⟩

lemma natDec_not_delim (n : Nat) : ∀ c ∈ natDec n, isTreeDelim c = false :=
  fun c hc => digit_not_delim (Miniscript.natDecAux_digits _ _ c hc)

lemma natDec_printable (n : Nat) :
    ∀ c ∈ natDec n, 20 ≤ c.toNat ∧ c.toNat ≤ 127 := by
  intro c hc
  have := digit_toNat_bounds (Miniscript.natDecAux_digits _ _ c hc)
  omega

namespace Policy

lemma atomOk_parts {s : String} (h : atomOk s = true) :
    s.data ≠ [] ∧ ∀ c ∈ s.data,
      isTreeDelim c = false ∧ c ≠ '@' ∧ 20 ≤ c.toNat ∧ c.toNat ≤ 127 := by
  rw [atomOk, Bool.and_eq_true] at h
  obtain ⟨h1, h2⟩ := h
  constructor
  · intro hh
    rw [hh] at h1
    simp at h1
  · intro c hc
    have := List.all_eq_true.mp h2 c hc
    simp only [Bool.and_eq_true, Bool.not_eq_true', decide_eq_true_eq] at this
    refine ⟨this.1.1.1, ?_, this.1.2, this.2⟩
    exact of_decide_eq_false this.1.1.2

lemma goodE_node_of {nm : String} {args : List ETree}
    (h1 : nm.data ≠ []) (h2 : ∀ c ∈ nm.data, isTreeDelim c = false)
    (h3 : goodEList args = true) : goodE ⟨nm, args⟩ = true := by
  rw [goodE]
  simp only [Bool.and_eq_true]
  refine ⟨⟨?_, ?_⟩, h3⟩
  · cases hd : nm.data with
    | nil => exact absurd hd h1
    | cons c cs => simp [hd]
  · rw [List.all_eq_true]
    intro c hc
    simp [h2 c hc]

lemma goodE_leaf_of {s : String} (h1 : s.data ≠ [])
    (h2 : ∀ c ∈ s.data, isTreeDelim c = false) : goodE ⟨s, []⟩ = true :=
  goodE_node_of h1 h2 rfl

lemma goodE_name_args {nm : String} {args : List ETree}
    (h : goodE ⟨nm, args⟩ = true) :
    (∀ c ∈ nm.data, isTreeDelim c = false) ∧ goodEList args = true := by
  rw [goodE] at h
  simp only [Bool.and_eq_true] at h
  refine ⟨?_, h.2⟩
  intro c hc
  have := List.all_eq_true.mp h.1.2 c hc
  simpa using this

lemma goodE_toETree_aux : ∀ fuel : Nat,
    (∀ p : Policy String, sizeOf p ≤ fuel → roundOk p = true →
      goodE (toETree p) = true)
    ∧ (∀ ps : List (Policy String), sizeOf ps ≤ fuel → roundOkList ps = true →
      goodEList (toETreeList ps) = true)
    ∧ (∀ wps : List (Nat × Policy String), sizeOf wps ≤ fuel →
      roundOkPairList wps = true → goodEList (toETreePairList wps) = true) := by
  intro fuel
  induction fuel with
  | zero =>
      refine ⟨fun p hp _ => ?_, fun ps hp _ => ?_, fun wps hp _ => ?_⟩
      · exfalso
        cases p <;> simp at hp
      · exfalso
        cases ps <;> simp at hp
      · exfalso
        cases wps <;> simp at hp
  | succ n ih =>
      obtain ⟨ihP, ihL, ihPL⟩ := ih
      refine ⟨?_, ?_, ?_⟩
      · intro p hp hok
        cases p with
        | Unsatisfiable | Trivial => decide
        | Key s =>
            obtain ⟨h1, h2⟩ := atomOk_parts hok
            refine goodE_node_of (by decide) (by decide) ?_
            rw [goodEList, goodEList, Bool.and_eq_true]
            exact ⟨goodE_leaf_of h1 (fun c hc => (h2 c hc).1), rfl⟩
        | Sha256 s | Hash256 s | Ripemd160 s | Hash160 s =>
            obtain ⟨h1, h2⟩ := atomOk_parts hok
            refine goodE_node_of (by decide) (by decide) ?_
            rw [goodEList, goodEList, Bool.and_eq_true]
            exact ⟨goodE_leaf_of h1 (fun c hc => (h2 c hc).1), rfl⟩
        | After m | Older m =>
            refine goodE_node_of (by decide) (by decide) ?_
            rw [goodEList, goodEList, Bool.and_eq_true]
            refine ⟨goodE_leaf_of ?_ ?_, rfl⟩
            · exact Miniscript.natDec_ne_nil m
            · exact natDec_not_delim m
        | And subs =>
            simp only [roundOk, Bool.and_eq_true] at hok
            simp only [Policy.And.sizeOf_spec] at hp
            exact goodE_node_of (by decide) (by decide)
              (ihL subs (by omega) hok.2)
        | Or subs =>
            simp only [roundOk, Bool.and_eq_true] at hok
            simp only [Policy.Or.sizeOf_spec] at hp
            exact goodE_node_of (by decide) (by decide)
              (ihPL subs (by omega) hok.2)
        | Threshold k subs =>
            simp only [roundOk, Bool.and_eq_true] at hok
            simp only [Policy.Threshold.sizeOf_spec] at hp
            refine goodE_node_of (by decide) (by decide) ?_
            rw [goodEList, Bool.and_eq_true]
            refine ⟨goodE_leaf_of (Miniscript.natDec_ne_nil k)
              (natDec_not_delim k), ihL subs (by omega) hok.2⟩
      · intro ps hp hok
        cases ps with
        | nil => rfl
        | cons p ps' =>
            simp only [roundOkList, Bool.and_eq_true] at hok
            simp only [List.cons.sizeOf_spec] at hp
            rw [toETreeList, goodEList, Bool.and_eq_true]
            exact ⟨ihP p (by omega) hok.1, ihL ps' (by omega) hok.2⟩
      · intro wps hp hok
        cases wps with
        | nil => rfl
        | cons q qs =>
            obtain ⟨w, p⟩ := q
            simp only [roundOkPairList, Bool.and_eq_true] at hok
            simp only [List.cons.sizeOf_spec, Prod.mk.sizeOf_spec] at hp
            rw [toETreePairList, goodEList, Bool.and_eq_true]
            refine ⟨?_, ihPL qs (by omega) hok.2⟩
            have hgp := ihP p (by omega) hok.1.2
            rcases htp : toETree p with ⟨nmP, argsP⟩
            rw [htp] at hgp
            obtain ⟨hnm, hargs⟩ := goodE_name_args hgp
            refine goodE_node_of ?_ ?_ hargs
            · have := Miniscript.natDec_ne_nil w
              cases hnd : natDec w with
              | nil => exact absurd hnd this
              | cons c cs => simp
            · intro c hc
              simp only [List.mem_append, List.mem_cons] at hc
              rcases hc with hc | hc | hc
              · exact natDec_not_delim w c hc
              · subst hc
                decide
              · exact hnm c hc

lemma printable_aux : ∀ fuel : Nat,
    (∀ p : Policy String, sizeOf p ≤ fuel → roundOk p = true →
      ∀ c ∈ policyChars p, 20 ≤ c.toNat ∧ c.toNat ≤ 127)
    ∧ (∀ ps : List (Policy String), sizeOf ps ≤ fuel → roundOkList ps = true →
      ∀ c ∈ policyTailChars ps, 20 ≤ c.toNat ∧ c.toNat ≤ 127)
    ∧ (∀ wps : List (Nat × Policy String), sizeOf wps ≤ fuel →
      roundOkPairList wps = true →
      ∀ c ∈ policyPairTailChars wps, 20 ≤ c.toNat ∧ c.toNat ≤ 127) := by
  intro fuel
  induction fuel with
  | zero =>
      refine ⟨fun p hp _ => ?_, fun ps hp _ => ?_, fun wps hp _ => ?_⟩
      · exfalso
        cases p <;> simp at hp
      · exfalso
        cases ps <;> simp at hp
      · exfalso
        cases wps <;> simp at hp
  | succ n ih =>
      obtain ⟨ihP, ihL, ihPL⟩ := ih
      refine ⟨?_, ?_, ?_⟩
      · intro p hp hok
        cases p with
        | Unsatisfiable | Trivial => decide
        | Key s | Sha256 s | Hash256 s | Ripemd160 s | Hash160 s =>
            obtain ⟨h1, h2⟩ := atomOk_parts hok
            rw [policyChars]
            simp only [List.forall_mem_append, List.forall_mem_cons,
              List.forall_mem_singleton]
            repeat' apply And.intro
            all_goals first
              | decide
              | exact fun c hc => (h2 c hc).2.2
        | After m | Older m =>
            rw [policyChars]
            simp only [List.forall_mem_append, List.forall_mem_cons,
              List.forall_mem_singleton]
            repeat' apply And.intro
            all_goals first
              | decide
              | exact fun c hc => natDec_printable m c hc
        | And subs =>
            simp only [roundOk, Bool.and_eq_true] at hok
            simp only [Policy.And.sizeOf_spec] at hp
            rcases subs with _ | ⟨s1, srest⟩
            · exact absurd hok.1 (by decide)
            · simp only [roundOkList, Bool.and_eq_true] at hok
              simp only [List.cons.sizeOf_spec] at hp
              rw [policyChars, policyHeadChars]
              simp only [List.forall_mem_append, List.forall_mem_cons,
                List.forall_mem_singleton]
              repeat' apply And.intro
              all_goals first
                | decide
                | exact fun c hc => ihP s1 (by omega) hok.2.1 c hc
                | exact fun c hc => ihL srest (by omega) hok.2.2 c hc
        | Or subs =>
            simp only [roundOk, Bool.and_eq_true] at hok
            simp only [Policy.Or.sizeOf_spec] at hp
            rcases subs with _ | ⟨⟨w1, p1⟩, srest⟩
            · exact absurd hok.1 (by decide)
            · simp only [roundOkPairList, Bool.and_eq_true] at hok
              simp only [List.cons.sizeOf_spec, Prod.mk.sizeOf_spec] at hp
              rw [policyChars, policyPairHeadChars]
              simp only [List.forall_mem_append, List.forall_mem_cons,
                List.forall_mem_singleton]
              repeat' apply And.intro
              all_goals first
                | decide
                | exact fun c hc => natDec_printable w1 c hc
                | exact fun c hc => ihP p1 (by omega) hok.2.1.2 c hc
                | exact fun c hc => ihPL srest (by omega) hok.2.2 c hc
        | Threshold k subs =>
            simp only [roundOk, Bool.and_eq_true] at hok
            simp only [Policy.Threshold.sizeOf_spec] at hp
            rw [policyChars]
            simp only [List.forall_mem_append, List.forall_mem_cons,
              List.forall_mem_singleton]
            repeat' apply And.intro
            all_goals first
              | decide
              | exact fun c hc => natDec_printable k c hc
              | exact fun c hc => ihL subs (by omega) hok.2 c hc
      · intro ps hp hok
        cases ps with
        | nil => intro c hc; cases hc
        | cons p ps' =>
            simp only [roundOkList, Bool.and_eq_true] at hok
            simp only [List.cons.sizeOf_spec] at hp
            rw [policyTailChars]
            simp only [List.forall_mem_append, List.forall_mem_cons,
              List.forall_mem_singleton]
            repeat' apply And.intro
            all_goals first
              | decide
              | exact fun c hc => ihP p (by omega) hok.1 c hc
              | exact fun c hc => ihL ps' (by omega) hok.2 c hc
      · intro wps hp hok
        cases wps with
        | nil => intro c hc; cases hc
        | cons q qs =>
            obtain ⟨w, p⟩ := q
            simp only [roundOkPairList, Bool.and_eq_true] at hok
            simp only [List.cons.sizeOf_spec, Prod.mk.sizeOf_spec] at hp
            rw [policyPairTailChars]
            simp only [List.forall_mem_append, List.forall_mem_cons,
              List.forall_mem_singleton]
            repeat' apply And.intro
            all_goals first
              | decide
              | exact fun c hc => natDec_printable w c hc
              | exact fun c hc => ihP p (by omega) hok.1.2 c hc
              | exact fun c hc => ihPL qs (by omega) hok.2 c hc

lemma exceptMap_ok {ε α β : Type} {f : α → β} {m : Except ε α} {b : β}
    (h : m.map f = .ok b) : ∃ a, m = .ok a ∧ f a = b := by
  cases m with
  | error e => simp [Except.map] at h
  | ok a =>
      simp only [Except.map, Except.ok.injEq] at h
      exact ⟨a, rfl, h⟩

lemma toETreeList_length (ps : List (Policy String)) :
    (toETreeList ps).length = ps.length := by
  induction ps with
  | nil => rfl
  | cons p ps ih => simp [toETreeList, ih]

lemma toETree_name_no_at (p : Policy String) :
    ∀ c ∈ (toETree p).name.data, c ≠ '@' := by
  cases p <;>
    first
    | exact (by decide : ∀ c ∈ ("UNSATISFIABLE").data, c ≠ '@')
    | exact (by decide : ∀ c ∈ ("TRIVIAL").data, c ≠ '@')
    | exact (by decide : ∀ c ∈ ("pk").data, c ≠ '@')
    | exact (by decide : ∀ c ∈ ("after").data, c ≠ '@')
    | exact (by decide : ∀ c ∈ ("older").data, c ≠ '@')
    | exact (by decide : ∀ c ∈ ("sha256").data, c ≠ '@')
    | exact (by decide : ∀ c ∈ ("hash256").data, c ≠ '@')
    | exact (by decide : ∀ c ∈ ("ripemd160").data, c ≠ '@')
    | exact (by decide : ∀ c ∈ ("hash160").data, c ≠ '@')
    | exact (by decide : ∀ c ∈ ("and").data, c ≠ '@')
    | exact (by decide : ∀ c ∈ ("or").data, c ≠ '@')
    | exact (by decide : ∀ c ∈ ("thresh").data, c ≠ '@')

lemma fromTreeProb_orTag {t : ETree} {w : Nat}
    {p : Policy String} (hat : ∀ c ∈ t.name.data, c ≠ '@') (hw : w < 2 ^ 32)
    (hIH : fromTreeProb t false = .ok (1, p)) :
    fromTreeProb ⟨String.mk (natDec w ++ '@' :: t.name.data), t.args⟩ true
      = .ok (w, p) := by
  obtain ⟨nmP, argsP⟩ := t
  replace hat : ∀ c ∈ nmP.data, c ≠ '@' := hat
  show fromTreeProb ⟨String.mk (natDec w ++ '@' :: nmP.data), argsP⟩ true
      = .ok (w, p)
  rw [fromTreeProb] at hIH
  rw [charSplit_no_sep hat] at hIH
  simp only [List.map] at hIH
  obtain ⟨q, hq, hfq⟩ := exceptMap_ok hIH
  simp only [Prod.mk.injEq, true_and] at hfq
  rw [fromTreeProb]
  rw [show (String.mk (natDec w ++ '@' :: nmP.data)).data
      = natDec w ++ '@' :: nmP.data from rfl]
  rw [charSplit_append_sep (natDec_no_at w), charSplit_no_sep hat]
  simp only [List.map]
  rw [Miniscript.parseNum_natDec hw]
  rw [if_neg (show ¬¬True from fun h => h trivial)]
  simp only [Except.map]
  rw [show ({ data := nmP.data } : String) = nmP from rfl] at hq ⊢
  rw [hfq] at hq
  split at hq
  all_goals try exact (congrArg (Except.map fun res => (w, res)) hq).trans rfl
  all_goals simp at hq

lemma fromTree_toETree_aux : ∀ fuel : Nat,
    (∀ p : Policy String, sizeOf p ≤ fuel → roundOk p = true →
      fromTreeProb (toETree p) false = .ok (1, p))
    ∧ (∀ ps : List (Policy String), sizeOf ps ≤ fuel → roundOkList ps = true →
      fromTreeList (toETreeList ps) = .ok ps)
    ∧ (∀ wps : List (Nat × Policy String), sizeOf wps ≤ fuel →
      roundOkPairList wps = true →
      fromTreeProbList (toETreePairList wps) = .ok wps) := by
  intro fuel
  induction fuel with
  | zero =>
      refine ⟨fun p hp _ => ?_, fun ps hp _ => ?_, fun wps hp _ => ?_⟩
      · exfalso
        cases p <;> simp at hp
      · exfalso
        cases ps <;> simp at hp
      · exfalso
        cases wps <;> simp at hp
  | succ n ih =>
      obtain ⟨ihP, ihL, ihPL⟩ := ih
      refine ⟨?_, ?_, ?_⟩
      · intro p hp hok
        cases p with
        | Unsatisfiable | Trivial => rfl
        | Key s | Sha256 s | Hash256 s | Ripemd160 s | Hash160 s => rfl
        | After m =>
            simp only [roundOk, Bool.and_eq_true, decide_eq_true_eq] at hok
            have hrfl : fromTreeProb (toETree (.After m)) false
                = (do
                    let num ← Miniscript.parseNum (String.mk (natDec m))
                    if num > 2 ^ 31 then
                      throw (MsError.PolicyError .TimeTooFar)
                    else if num = 0 then
                      throw (MsError.PolicyError .ZeroTime)
                    else pure (Policy.After num)).map
                    (fun res => ((1 : Nat), res)) := rfl
            rw [hrfl, Miniscript.parseNum_natDec (by omega)]
            simp only [Except.bind, bind, Except.map]
            rw [if_neg (by omega), if_neg (by omega)]
            rfl
        | Older m =>
            simp only [roundOk, Bool.and_eq_true, decide_eq_true_eq] at hok
            have hrfl : fromTreeProb (toETree (.Older m)) false
                = (do
                    let num ← Miniscript.parseNum (String.mk (natDec m))
                    if num > 2 ^ 31 then
                      throw (MsError.PolicyError .TimeTooFar)
                    else if num = 0 then
                      throw (MsError.PolicyError .ZeroTime)
                    else pure (Policy.Older num)).map
                    (fun res => ((1 : Nat), res)) := rfl
            rw [hrfl, Miniscript.parseNum_natDec (by omega)]
            simp only [Except.bind, bind, Except.map]
            rw [if_neg (by omega), if_neg (by omega)]
            rfl
        | And subs =>
            simp only [roundOk, Bool.and_eq_true, decide_eq_true_eq] at hok
            obtain ⟨hlen, hsubs⟩ := hok
            rcases subs with _ | ⟨s1, _ | ⟨s2, _ | ⟨s3, srest⟩⟩⟩ <;>
              try simp at hlen
            simp only [Policy.And.sizeOf_spec, List.cons.sizeOf_spec,
              List.nil.sizeOf_spec] at hp
            have hfl : fromTreeList (toETreeList [s1, s2]) = .ok [s1, s2] :=
              ihL [s1, s2] (by simp only [List.cons.sizeOf_spec,
                List.nil.sizeOf_spec]; omega) hsubs
            have hrfl : fromTreeProb (toETree (.And [s1, s2])) false
                = (Except.map Policy.And
                    (fromTreeList (toETreeList [s1, s2]))).map
                    (fun res => ((1 : Nat), res)) := rfl
            rw [hrfl, hfl]
            rfl
        | Or subs =>
            simp only [roundOk, Bool.and_eq_true, decide_eq_true_eq] at hok
            obtain ⟨hlen, hsubs⟩ := hok
            rcases subs with _ | ⟨q1, _ | ⟨q2, _ | ⟨q3, srest⟩⟩⟩ <;>
              try simp at hlen
            simp only [Policy.Or.sizeOf_spec, List.cons.sizeOf_spec,
              List.nil.sizeOf_spec] at hp
            have hfl : fromTreeProbList (toETreePairList [q1, q2])
                = .ok [q1, q2] :=
              ihPL [q1, q2] (by simp only [List.cons.sizeOf_spec,
                List.nil.sizeOf_spec]; omega) hsubs
            have hrfl : fromTreeProb (toETree (.Or [q1, q2])) false
                = (Except.map Policy.Or
                    (fromTreeProbList (toETreePairList [q1, q2]))).map
                    (fun res => ((1 : Nat), res)) := rfl
            rw [hrfl, hfl]
            rfl
        | Threshold k subs =>
            simp only [roundOk, Bool.and_eq_true, decide_eq_true_eq] at hok
            obtain ⟨⟨⟨hk1, hk2⟩, hlen⟩, hsubs⟩ := hok
            simp only [Policy.Threshold.sizeOf_spec] at hp
            have hfl : fromTreeList (toETreeList subs) = .ok subs :=
              ihL subs (by omega) hsubs
            have hrfl : fromTreeProb (toETree (.Threshold k subs)) false
                = (bind (Miniscript.parseNum (String.mk (natDec k)))
                    (fun thresh =>
                      if thresh ≥ ((⟨String.mk (natDec k), []⟩ : ETree) ::
                          toETreeList subs).length % 2 ^ 32 ∨ thresh = 0 then
                        throw (MsError.PolicyError .IncorrectThresh)
                      else Except.map (Policy.Threshold thresh)
                        (fromTreeList (toETreeList subs)))).map
                    (fun res => ((1 : Nat), res)) := rfl
            rw [hrfl, Miniscript.parseNum_natDec (by omega)]
            simp only [Except.bind, bind, Except.map, List.length_cons,
              toETreeList_length]
            rw [Nat.mod_eq_of_lt (by omega)]
            rw [if_neg (by omega)]
            rw [hfl]
      · intro ps hp hok
        cases ps with
        | nil => rfl
        | cons p ps' =>
            simp only [roundOkList, Bool.and_eq_true] at hok
            simp only [List.cons.sizeOf_spec] at hp
            rw [toETreeList, fromTreeList,
              ihP p (by omega) hok.1, ihL ps' (by omega) hok.2]
            rfl
      · intro wps hp hok
        cases wps with
        | nil => rfl
        | cons q qs =>
            obtain ⟨w, p⟩ := q
            simp only [roundOkPairList, Bool.and_eq_true,
              decide_eq_true_eq] at hok
            simp only [List.cons.sizeOf_spec, Prod.mk.sizeOf_spec] at hp
            rw [toETreePairList, fromTreeProbList,
              fromTreeProb_orTag (toETree_name_no_at p) hok.1.1
                (ihP p (by omega) hok.1.2),
              ihPL qs (by omega) hok.2]
            rfl

lemma isValid_timelocks (p : Policy String) (h : isValid p = .ok ()) :
    checkTimelocks p = .ok () := by
  cases hc : (checkTimelocksHelper p).containsCombination with
  | false =>
      rw [checkTimelocks, if_neg]
      rw [hc]
      exact Bool.false_ne_true
  | true =>
      exfalso
      cases p <;>
        simp [isValid, checkTimelocks, hc, bind, Except.bind] at h

lemma fromStr_policyToString (p : Policy String) (hok : roundOk p = true)
    (ht : checkTimelocks p = .ok ()) :
    fromStr (policyToString p) = .ok p := by
  have hprint := (printable_aux (sizeOf p)).1 p le_rfl hok
  have hrender := (render_toETree_aux (sizeOf p)).1 p le_rfl hok
  have hgood := (goodE_toETree_aux (sizeOf p)).1 p le_rfl hok
  have hfrom := (fromTree_toETree_aux (sizeOf p)).1 p le_rfl hok
  have hfind : (policyChars p).find?
      (fun c => decide (c.toNat < 20) || decide (c.toNat > 127)) = none := by
    rw [List.find?_eq_none]
    intro c hc
    have hcc := hprint c hc
    simp only [Bool.or_eq_true, decide_eq_true_eq, not_or]
    omega
  have hparse : parseTr (3 * (policyChars p).length + 3) (policyChars p)
      = some (toETree p, []) := by
    have hfle := (eFuel_le_aux (sizeOf (toETree p))).1 (toETree p) le_rfl
    have hf : eFuel (toETree p) ≤ 3 * (policyChars p).length + 3 := by
      rw [hrender]
      omega
    have hpr := (parseTr_render_aux (3 * (policyChars p).length + 3)).1
      (toETree p) hf hgood [] rfl
    rw [List.append_nil, ← hrender] at hpr
    exact hpr
  have hft : fromTree (toETree p) = .ok p := by
    rw [fromTree, hfrom]
    rfl
  rw [fromStr]
  rw [show (policyToString p).data = policyChars p from rfl]
  rw [hfind, hparse]
  show (match fromTree (toETree p) with
    | .ok q =>
        (match checkTimelocks q with
         | .ok _ => Except.ok q
         | .error e => Except.error (MsError.PolicyError e))
    | .error e => Except.error e) = Except.ok p
  rw [hft]
  show (match checkTimelocks p with
    | .ok _ => Except.ok p
    | .error e => Except.error (MsError.PolicyError e)) = Except.ok p
  rw [ht]

/-- Counterexample to the claim as stated: `is_valid` accepts the key
policy whose key atom is the unprintable byte `0x01` (it only checks
timelocks, duplicate keys and the structural constraints), yet
`from_str` rejects the `Display` output `pk(\x01)` with
`Unprintable(1)`, so `parse(format(P)) == P` fails for it. -/
theorem C4_round_trip_counterexample :
    isValid (Policy.Key (String.mk [Char.ofNat 1])) = .ok ()
    ∧ fromStr (policyToString (Policy.Key (String.mk [Char.ofNat 1])))
      = .error (.Unprintable 1) := ⟨rfl, rfl⟩

/-- C4 (corrected): `is_valid` alone does not guarantee the round-trip
(see the counterexample: atoms may hold unprintable or delimiter
characters, and `u32` casts may overflow).  Under the additional
`roundOk` guard — every atom nonempty, free of `(`/`)`/`,`/`@` and
printable, timelocks already forced by `is_valid` into `1..=2^31`,
binary `and`/`or`, thresholds with `n + 1` representable in `u32` and
`or` weights below `2^32` — parsing the `Display` output returns the
policy unchanged: `from_str(format(P)) = Ok(P)`. -/
theorem C4_round_trip (p : Policy String) (hv : isValid p = .ok ())
    (hok : roundOk p = true) :
    fromStr (policyToString p) = .ok p :=
  fromStr_policyToString p hok (isValid_timelocks p hv)

/-- Witness: the round-trip theorem applied to
`and(pk(A),after(5))`, its hypotheses discharged by evaluation. -/
theorem C4_round_trip_witness :
    isValid (Policy.And [Policy.Key ("A"), Policy.After 5]) = .ok ()
    ∧ roundOk (Policy.And [Policy.Key ("A"), Policy.After 5]) = true
    ∧ fromStr (policyToString (Policy.And [Policy.Key ("A"), Policy.After 5]))
      = .ok (Policy.And [Policy.Key ("A"), Policy.After 5]) :=
  ⟨rfl, rfl, C4_round_trip _ rfl rfl⟩

end Policy

/-! ## The Huffman TapTree builder (`with_huffman_tree`,
src/policy/concrete.rs lines 1066-1094) -/

/-- `TapTree` as used by `with_huffman_tree`: a leaf holds a compiled
miniscript (abstracted as `α`), an inner node holds exactly two
subtrees (`TapTree::Leaf(Arc<Miniscript>)` / `TapTree::Tree(Arc, Arc)`). -/
inductive TapTree (α : Type) where
  | Leaf (a : α)
  | Tree (l r : TapTree α)
deriving Repr

namespace Huffman

/-- Mapping the leaf payloads of a `TapTree`. -/
def mapTree {α β : Type} (f : α → β) : TapTree α → TapTree β
  | .Leaf a => .Leaf (f a)
  | .Tree l r => .Tree (mapTree f l) (mapTree f r)

/-- All leaves of a `TapTree` with their depths, left to right. -/
def leafDepths {α : Type} : TapTree α → List (α × Nat)
  | .Leaf a => [(a, 0)]
  | .Tree l r =>
      (leafDepths l ++ leafDepths r).map (fun ad => (ad.1, ad.2 + 1))

/-- Sum of the leaf probabilities of an instrumented tree (each leaf
carries the probability it was inserted with). -/
def wsum {σ : Type} : TapTree (ℚ × σ) → ℚ
  | .Leaf pa => pa.1
  | .Tree l r => wsum l + wsum r

/-- All subtrees of a tree (itself included). -/
def subtrees {α : Type} : TapTree α → List (TapTree α)
  | .Leaf a => [.Leaf a]
  | .Tree l r => .Tree l r :: (subtrees l ++ subtrees r)

/-- Whether a tree is an inner node. -/
def isNode {α : Type} : TapTree α → Bool
  | .Leaf _ => false
  | .Tree _ _ => true

/-- `BinaryHeap::pop` on the min-heap of `(Reverse(prob), tree)`
pairs, modelled on a list kept in insertion order: the first element
of minimal probability is removed (which pop of several
equal-probability elements the `BinaryHeap` returns is unspecified
by the heap's documented interface; the model fixes the first one). -/
def popMin {β : Type} : List (ℚ × β) → Option ((ℚ × β) × List (ℚ × β))
  | [] => none
  | x :: xs =>
      match popMin xs with
      | none => some (x, [])
      | some (m, rest) =>
          if x.1 ≤ m.1 then some (x, xs) else some (m, x :: rest)

/-- The `while node_weights.len() > 1` loop of `with_huffman_tree`:
pop the two lowest-probability nodes `(p1, s1)`, `(p2, s2)` (in that
order), push `(p1 + p2, Tree(s1, s2))`.  `fuel` bounds the number of
iterations (any `fuel + 1 ≥ length` suffices, see `huffLoop_total`). -/
def huffLoop {β : Type} : Nat → List (ℚ × TapTree β) →
    Option (ℚ × TapTree β)
  | _, [] => none
  | _, [x] => some x
  | 0, _ => none
  | fuel + 1, l =>
      match popMin l with
      | none => none
      | some ((p1, s1), l') =>
          match popMin l' with
          | none => none
          | some ((p2, s2), l'') =>
              huffLoop fuel (l'' ++ [(p1 + p2, .Tree s1 s2)])

/-- `with_huffman_tree` from `src/policy/concrete.rs`: build the heap
of `(prob, Leaf(script))` pairs, fail on an empty input with
`errstr("Empty Miniscript compilation")`, otherwise run the merge
loop and return the remaining tree. -/
def withHuffmanTree {β : Type} (ms : List (ℚ × β)) :
    Except MsError (TapTree β) :=
  match ms with
  | [] => .error (.Unexpected ("Empty Miniscript compilation"))
  | _ :: _ =>
      match huffLoop ms.length (ms.map (fun pa => (pa.1, .Leaf pa.2))) with
      | some wt => .ok wt.2
      | none => .error (.Unexpected ("Empty Miniscript compilation"))

lemma popMin_none {β : Type} (l : List (ℚ × β)) :
    popMin l = none ↔ l = [] := by
  cases l with
  | nil => simp [popMin]
  | cons x xs =>
      simp only [popMin]
      constructor
      · intro h
        exfalso
        cases hx : popMin xs with
        | none => simp only [hx] at h; cases h
        | some m =>
            obtain ⟨mm, rr⟩ := m
            simp only [hx] at h
            by_cases hc : x.1 ≤ mm.1
            · rw [if_pos hc] at h
              cases h
            · rw [if_neg hc] at h
              cases h
      · intro h
        cases h

lemma popMin_spec {β : Type} {l rest : List (ℚ × β)} {m : ℚ × β}
    (h : popMin l = some (m, rest)) :
    ∃ l1 l2, l = l1 ++ m :: l2 ∧ rest = l1 ++ l2
      ∧ (∀ z ∈ l1, m.1 < z.1) ∧ (∀ z ∈ l2, m.1 ≤ z.1) := by
  induction l generalizing m rest with
  | nil => cases h
  | cons x xs ih =>
      rw [popMin] at h
      cases hx : popMin xs with
      | none =>
          simp only [hx] at h
          cases h
          have hxs : xs = [] := (popMin_none xs).mp hx
          subst hxs
          exact ⟨[], [], rfl, rfl, by simp, by simp⟩
      | some mr =>
          obtain ⟨m', rest'⟩ := mr
          simp only [hx] at h
          obtain ⟨l1, l2, he, hr, hlt, hle⟩ := ih hx
          by_cases hc : x.1 ≤ m'.1
          · rw [if_pos hc] at h
            cases h
            refine ⟨[], xs, rfl, rfl, by simp, ?_⟩
            intro z hz
            rw [he] at hz
            rcases List.mem_append.mp hz with hz1 | hz2
            · exact le_trans hc (le_of_lt (hlt z hz1))
            · rcases List.mem_cons.mp hz2 with hz3 | hz4
              · rw [hz3]; exact hc
              · exact le_trans hc (hle z hz4)
          · rw [if_neg hc] at h
            cases h
            refine ⟨x :: l1, l2, by rw [he]; rfl, by rw [hr]; rfl, ?_, hle⟩
            intro z hz
            rcases List.mem_cons.mp hz with hz1 | hz2
            · rw [hz1]; exact lt_of_not_le hc
            · exact hlt z hz2

lemma popMin_le {β : Type} {l rest : List (ℚ × β)} {m : ℚ × β}
    (h : popMin l = some (m, rest)) : ∀ z ∈ l, m.1 ≤ z.1 := by
  obtain ⟨l1, l2, he, _, hlt, hle⟩ := popMin_spec h
  intro z hz
  rw [he] at hz
  rcases List.mem_append.mp hz with hz1 | hz2
  · exact le_of_lt (hlt z hz1)
  · rcases List.mem_cons.mp hz2 with hz3 | hz4
    · rw [hz3]
    · exact hle z hz4

lemma popMin_mem {β : Type} {l rest : List (ℚ × β)} {m : ℚ × β}
    (h : popMin l = some (m, rest)) : m ∈ l := by
  obtain ⟨l1, l2, he, _, _, _⟩ := popMin_spec h
  rw [he]
  exact List.mem_append_right l1 (List.mem_cons_self m l2)

lemma popMin_sub {β : Type} {l rest : List (ℚ × β)} {m : ℚ × β}
    (h : popMin l = some (m, rest)) : ∀ z ∈ rest, z ∈ l := by
  obtain ⟨l1, l2, he, hr, _, _⟩ := popMin_spec h
  intro z hz
  rw [hr] at hz
  rw [he]
  rcases List.mem_append.mp hz with hz1 | hz2
  · exact List.mem_append_left _ hz1
  · exact List.mem_append_right _ (List.mem_cons_of_mem m hz2)

lemma popMin_length {β : Type} {l rest : List (ℚ × β)} {m : ℚ × β}
    (h : popMin l = some (m, rest)) : rest.length + 1 = l.length := by
  obtain ⟨l1, l2, he, hr, _, _⟩ := popMin_spec h
  rw [he, hr]
  simp [Nat.add_assoc]

lemma popMin_sublist {β : Type} {l rest : List (ℚ × β)} {m : ℚ × β}
    (h : popMin l = some (m, rest)) : rest.Sublist l := by
  obtain ⟨l1, l2, he, hr, _, _⟩ := popMin_spec h
  rw [he, hr]
  exact List.Sublist.append_left (List.sublist_cons_self m l2) l1

lemma subtrees_self {α : Type} (t : TapTree α) : t ∈ subtrees t := by
  cases t <;> simp [subtrees]

lemma leafDepths_ne_nil {α : Type} (t : TapTree α) : leafDepths t ≠ [] := by
  cases t with
  | Leaf a => simp [leafDepths]
  | Tree l r =>
      simp only [leafDepths, ne_eq, List.map_eq_nil, List.append_eq_nil,
        not_and]
      intro h
      exact absurd h (leafDepths_ne_nil l)

lemma mem_leafDepths_tree_l {α : Type} {l r : TapTree α} {b : α} {d : Nat}
    (h : (b, d) ∈ leafDepths l) : (b, d + 1) ∈ leafDepths (.Tree l r) :=
  List.mem_map_of_mem _ (List.mem_append_left _ h)

lemma mem_leafDepths_tree_r {α : Type} {l r : TapTree α} {b : α} {d : Nat}
    (h : (b, d) ∈ leafDepths r) : (b, d + 1) ∈ leafDepths (.Tree l r) :=
  List.mem_map_of_mem _ (List.mem_append_right _ h)

lemma mem_leafDepths_tree_elim {α : Type} {l r : TapTree α} {ad : α × Nat}
    (h : ad ∈ leafDepths (.Tree l r)) :
    ∃ b d, ad = (b, d + 1)
      ∧ ((b, d) ∈ leafDepths l ∨ (b, d) ∈ leafDepths r) := by
  simp only [leafDepths, List.mem_map, List.mem_append] at h
  obtain ⟨x, hx, hxe⟩ := h
  exact ⟨x.1, x.2, hxe.symm, hx⟩

lemma node_of_depth_pos {α : Type} {t : TapTree α} {ad : α × Nat}
    (h : ad ∈ leafDepths t) (hd : 1 ≤ ad.2) : ∃ l r, t = .Tree l r := by
  cases t with
  | Leaf a =>
      simp only [leafDepths, List.mem_singleton] at h
      rw [h] at hd
      exact absurd hd (by simp)
  | Tree l r => exact ⟨l, r, rfl⟩

lemma wsum_nonneg {σ : Type} {t : TapTree (ℚ × σ)}
    (h : ∀ ad ∈ leafDepths t, 0 ≤ ad.1.1) : 0 ≤ wsum t := by
  induction t with
  | Leaf pa => exact h (pa, 0) (by simp [leafDepths])
  | Tree l r ihl ihr =>
      have hl : 0 ≤ wsum l := ihl (fun ad ha =>
        h (ad.1, ad.2 + 1) (mem_leafDepths_tree_l ha))
      have hr : 0 ≤ wsum r := ihr (fun ad ha =>
        h (ad.1, ad.2 + 1) (mem_leafDepths_tree_r ha))
      rw [wsum]
      exact add_nonneg hl hr

lemma pairwise_of_total {γ : Type} (R : γ → γ → Prop)
    (h : ∀ a b, R a b) : ∀ l : List γ, List.Pairwise R l := by
  intro l
  induction l with
  | nil => exact List.Pairwise.nil
  | cons x xs ih => exact List.Pairwise.cons (fun b _ => h x b) ih

section Invariant

variable {σ : Type}

/-- All leaf probabilities in the forest are nonnegative. -/
def InvW (S : List (ℚ × TapTree (ℚ × σ))) : Prop :=
  ∀ a ∈ S, ∀ ad ∈ leafDepths a.2, 0 ≤ ad.1.1

/-- Each stored heap weight is the sum of its tree's leaf probabilities. -/
def InvSW (S : List (ℚ × TapTree (ℚ × σ))) : Prop :=
  ∀ a ∈ S, a.1 = wsum a.2

/-- Every inner node of the forest weighs no more than the next two
pops together (inner nodes are sums of earlier, smaller pops). -/
def InvN (S : List (ℚ × TapTree (ℚ × σ))) : Prop :=
  ∀ a ∈ S, ∀ u ∈ subtrees a.2, isNode u = true →
    ∀ m1 S1 m2 S2, popMin S = some (m1, S1) → popMin S1 = some (m2, S2) →
      wsum u ≤ m1.1 + m2.1

/-- Depth/weight comparison for every pair of leaves: a strictly
smaller probability sits at least as deep, and at equal depth its
tree is no heavier. -/
def InvG (S : List (ℚ × TapTree (ℚ × σ))) : Prop :=
  ∀ a ∈ S, ∀ b ∈ S, ∀ xd ∈ leafDepths a.2, ∀ yd ∈ leafDepths b.2,
    xd.1.1 < yd.1.1 → yd.2 ≤ xd.2 ∧ (xd.2 = yd.2 → a.1 ≤ b.1)

/-- Positional tie-break order: if a strictly smaller leaf
probability sits in the later of two trees at the same depth as a
larger one in the earlier tree, the later tree is strictly lighter
(so the first-minimum pop can never prefer the larger leaf's tree). -/
def RP (a b : ℚ × TapTree (ℚ × σ)) : Prop :=
  ∀ xd ∈ leafDepths b.2, ∀ yd ∈ leafDepths a.2,
    xd.1.1 < yd.1.1 → xd.2 = yd.2 → b.1 < a.1

/-- The full loop invariant of the Huffman forest. -/
def Inv (S : List (ℚ × TapTree (ℚ × σ))) : Prop :=
  InvW S ∧ InvSW S ∧ InvN S ∧ InvG S ∧ List.Pairwise RP S

lemma Inv_init (ms : List (ℚ × σ)) (h : ∀ x ∈ ms, 0 ≤ x.1) :
    Inv (ms.map (fun pa => (pa.1, .Leaf (pa.1, pa.2)))) := by
  refine ⟨?_, ?_, ?_, ?_, ?_⟩
  · intro a ha ad had
    obtain ⟨pa, hpa, hae⟩ := List.mem_map.mp ha
    rw [← hae] at had
    simp only [leafDepths, List.mem_singleton] at had
    rw [had]
    exact h pa hpa
  · intro a ha
    obtain ⟨pa, hpa, hae⟩ := List.mem_map.mp ha
    rw [← hae]
    rfl
  · intro a ha u hu hnode m1 S1 m2 S2 hp1 hp2
    exfalso
    obtain ⟨pa, hpa, hae⟩ := List.mem_map.mp ha
    rw [← hae] at hu
    simp only [subtrees, List.mem_singleton] at hu
    rw [hu] at hnode
    cases hnode
  · intro a ha b hb xd hxd yd hyd hlt
    obtain ⟨pa, hpa, hae⟩ := List.mem_map.mp ha
    obtain ⟨pb, hpb, hbe⟩ := List.mem_map.mp hb
    rw [← hae] at hxd
    rw [← hbe] at hyd
    simp only [leafDepths, List.mem_singleton] at hxd hyd
    rw [hxd, hyd]
    rw [hxd, hyd] at hlt
    refine ⟨le_refl 0, fun _ => ?_⟩
    rw [← hae, ← hbe]
    exact le_of_lt hlt
  · rw [List.pairwise_map]
    exact pairwise_of_total _
      (fun a b xd hxd yd hyd hlt hde => by
        simp only [leafDepths, List.mem_singleton] at hxd hyd
        rw [hxd, hyd] at hlt
        exact hlt) ms

lemma pop_tie_contra {S S' : List (ℚ × TapTree (ℚ × σ))} {w : ℚ}
    {t : TapTree (ℚ × σ)}
    (hpw : List.Pairwise RP S)
    (hpop : popMin S = some ((w, t), S'))
    {a : ℚ × TapTree (ℚ × σ)} (ha : a ∈ S')
    {xd yd : (ℚ × σ) × Nat}
    (hxd : xd ∈ leafDepths a.2) (hyd : yd ∈ leafDepths t)
    (hlt : xd.1.1 < yd.1.1) (hde : xd.2 = yd.2) (heq : a.1 = w) :
    False := by
  obtain ⟨l1, l2, hS, hS', hstrict, hle⟩ := popMin_spec hpop
  rw [hS'] at ha
  rcases List.mem_append.mp ha with h1 | h2
  · have hs := hstrict a h1
    rw [heq] at hs
    exact lt_irrefl _ hs
  · rw [hS] at hpw
    have hp2 := (List.pairwise_append.mp hpw).2.1
    have hRP := (List.pairwise_cons.mp hp2).1 a h2
    have hc := hRP xd hxd yd hyd hlt hde
    rw [heq] at hc
    exact lt_irrefl _ hc

lemma Inv_step {S S' S'' : List (ℚ × TapTree (ℚ × σ))} {w1 w2 : ℚ}
    {t1 t2 : TapTree (ℚ × σ)}
    (hS : Inv S)
    (h1 : popMin S = some ((w1, t1), S'))
    (h2 : popMin S' = some ((w2, t2), S'')) :
    Inv (S'' ++ [(w1 + w2, .Tree t1 t2)]) := by
  obtain ⟨hW, hSW, hN, hG, hPW⟩ := hS
  have hsub1 := popMin_sub h1
  have hsub2 := popMin_sub h2
  have hm1 : (w1, t1) ∈ S := popMin_mem h1
  have hm2s : (w2, t2) ∈ S' := popMin_mem h2
  have hm2 : (w2, t2) ∈ S := hsub1 _ hm2s
  have hle1 := popMin_le h1
  have hle2 := popMin_le h2
  have h12 : w1 ≤ w2 := hle1 _ hm2
  have hw1pos : 0 ≤ w1 := by
    have he : w1 = wsum t1 := hSW _ hm1
    rw [he]
    exact wsum_nonneg (fun ad had => hW _ hm1 ad had)
  have hPW' : List.Pairwise RP S' :=
    List.Pairwise.sublist (popMin_sublist h1) hPW
  have hallNge : ∀ z ∈ S'' ++ [(w1 + w2, TapTree.Tree t1 t2)],
      w2 ≤ z.1 := by
    intro z hz
    rcases List.mem_append.mp hz with h | h
    · exact hle2 z (hsub2 z h)
    · rw [List.mem_singleton.mp h]
      exact le_add_of_nonneg_left hw1pos
  have hw12 : w1 + w2 = wsum t1 + wsum t2 := by
    have e1 : w1 = wsum t1 := hSW _ hm1
    have e2 : w2 = wsum t2 := hSW _ hm2
    rw [e1, e2]
  refine ⟨?_, ?_, ?_, ?_, ?_⟩
  · -- InvW
    intro a ha ad had
    rcases List.mem_append.mp ha with h | h
    · exact hW _ (hsub1 _ (hsub2 _ h)) ad had
    · rw [List.mem_singleton.mp h] at had
      obtain ⟨b, d, hade, hbd⟩ := mem_leafDepths_tree_elim had
      rw [hade]
      rcases hbd with hb | hb
      · exact hW _ hm1 (b, d) hb
      · exact hW _ hm2 (b, d) hb
  · -- InvSW
    intro a ha
    rcases List.mem_append.mp ha with h | h
    · exact hSW _ (hsub1 _ (hsub2 _ h))
    · rw [List.mem_singleton.mp h]
      exact hw12
  · -- InvN
    intro a ha u hu hnode m1 S1 m2 S2 hp1 hp2
    have hv1 : w2 ≤ m1.1 := hallNge _ (popMin_mem hp1)
    have hv2 : w2 ≤ m2.1 := hallNge _ (popMin_sub hp1 _ (popMin_mem hp2))
    have hu12 : wsum u ≤ w1 + w2 := by
      rcases List.mem_append.mp ha with h | h
      · exact hN _ (hsub1 _ (hsub2 _ h)) u hu hnode _ _ _ _ h1 h2
      · rw [List.mem_singleton.mp h] at hu
        simp only [subtrees, List.mem_cons, List.mem_append] at hu
        rcases hu with he | hu' | hu'
        · rw [he]
          exact le_of_eq hw12.symm
        · exact hN _ hm1 u hu' hnode _ _ _ _ h1 h2
        · exact hN _ hm2 u hu' hnode _ _ _ _ h1 h2
    have : w1 + w2 ≤ m1.1 + m2.1 := by linarith
    linarith
  · -- InvG
    intro a ha b hb xd hxd yd hyd hlt
    rcases List.mem_append.mp ha with haO | haNw
    · have haS : a ∈ S := hsub1 _ (hsub2 _ haO)
      rcases List.mem_append.mp hb with hbO | hbN
      · exact hG _ haS _ (hsub1 _ (hsub2 _ hbO)) xd hxd yd hyd hlt
      · -- a old, y in the merged tree
        have hbe := List.mem_singleton.mp hbN
        rw [hbe] at hyd
        obtain ⟨y0, dy0, hyde, hy0⟩ := mem_leafDepths_tree_elim hyd
        have hlt' : xd.1.1 < (y0, dy0).1.1 := by
          rw [hyde] at hlt
          exact hlt
        rcases hy0 with hy1 | hy1
        · obtain ⟨hdle, hdew⟩ := hG _ haS _ hm1 xd hxd (y0, dy0) hy1 hlt'
          constructor
          · rw [hyde]
            show dy0 + 1 ≤ xd.2
            rcases Nat.lt_or_ge dy0 xd.2 with hcase | hcase
            · omega
            · exfalso
              have hde : xd.2 = dy0 := le_antisymm hcase hdle
              have haw : a.1 = w1 :=
                le_antisymm (hdew hde) (hle1 _ haS)
              exact pop_tie_contra hPW h1 (hsub2 _ haO) hxd hy1 hlt'
                hde haw
          · intro hdeq
            have hdeq' : xd.2 = dy0 + 1 := by
              rw [hyde] at hdeq
              exact hdeq
            obtain ⟨l, r, hlr⟩ := node_of_depth_pos hxd (by omega)
            have hnd : isNode a.2 = true := by
              rw [hlr]
              rfl
            have hwa : wsum a.2 ≤ w1 + w2 :=
              hN _ haS a.2 (subtrees_self a.2) hnd _ _ _ _ h1 h2
            rw [hbe]
            show a.1 ≤ w1 + w2
            rw [hSW _ haS]
            exact hwa
        · obtain ⟨hdle, hdew⟩ := hG _ haS _ hm2 xd hxd (y0, dy0) hy1 hlt'
          constructor
          · rw [hyde]
            show dy0 + 1 ≤ xd.2
            rcases Nat.lt_or_ge dy0 xd.2 with hcase | hcase
            · omega
            · exfalso
              have hde : xd.2 = dy0 := le_antisymm hcase hdle
              have haw : a.1 = w2 :=
                le_antisymm (hdew hde) (hle2 _ (hsub2 _ haO))
              exact pop_tie_contra hPW' h2 haO hxd hy1 hlt' hde haw
          · intro hdeq
            have hdeq' : xd.2 = dy0 + 1 := by
              rw [hyde] at hdeq
              exact hdeq
            obtain ⟨l, r, hlr⟩ := node_of_depth_pos hxd (by omega)
            have hnd : isNode a.2 = true := by
              rw [hlr]
              rfl
            have hwa : wsum a.2 ≤ w1 + w2 :=
              hN _ haS a.2 (subtrees_self a.2) hnd _ _ _ _ h1 h2
            rw [hbe]
            show a.1 ≤ w1 + w2
            rw [hSW _ haS]
            exact hwa
    · -- x in the merged tree
      have hae := List.mem_singleton.mp haNw
      rw [hae] at hxd
      obtain ⟨x0, dx0, hxde, hx0⟩ := mem_leafDepths_tree_elim hxd
      rcases List.mem_append.mp hb with hbO | hbN
      · -- b old
        have hbS : b ∈ S := hsub1 _ (hsub2 _ hbO)
        have hlt' : (x0, dx0).1.1 < yd.1.1 := by
          rw [hxde] at hlt
          exact hlt
        have hdle : yd.2 ≤ dx0 := by
          rcases hx0 with hx' | hx'
          · exact (hG _ hm1 _ hbS (x0, dx0) hx' yd hyd hlt').1
          · exact (hG _ hm2 _ hbS (x0, dx0) hx' yd hyd hlt').1
        constructor
        · rw [hxde]
          show yd.2 ≤ dx0 + 1
          omega
        · intro hdeq
          exfalso
          have hdeq' : dx0 + 1 = yd.2 := by
            rw [hxde] at hdeq
            exact hdeq
          omega
      · -- both in the merged tree
        have hbe := List.mem_singleton.mp hbN
        rw [hbe] at hyd
        obtain ⟨y0, dy0, hyde, hy0⟩ := mem_leafDepths_tree_elim hyd
        have hlt' : (x0, dx0).1.1 < (y0, dy0).1.1 := by
          rw [hxde, hyde] at hlt
          exact hlt
        have hdle : dy0 ≤ dx0 := by
          rcases hx0 with hx' | hx' <;> rcases hy0 with hy' | hy'
          · exact (hG _ hm1 _ hm1 (x0, dx0) hx' (y0, dy0) hy' hlt').1
          · exact (hG _ hm1 _ hm2 (x0, dx0) hx' (y0, dy0) hy' hlt').1
          · exact (hG _ hm2 _ hm1 (x0, dx0) hx' (y0, dy0) hy' hlt').1
          · exact (hG _ hm2 _ hm2 (x0, dx0) hx' (y0, dy0) hy' hlt').1
        constructor
        · rw [hxde, hyde]
          show dy0 + 1 ≤ dx0 + 1
          omega
        · intro _
          rw [hae, hbe]
  · -- Pairwise RP
    apply List.pairwise_append.mpr
    refine ⟨List.Pairwise.sublist (popMin_sublist h2) hPW',
      List.pairwise_singleton _ _, ?_⟩
    intro a haO b hbN
    rw [List.mem_singleton.mp hbN]
    intro xd hxd yd hyd hlt hde
    exfalso
    obtain ⟨x0, dx0, hxde, hx0⟩ := mem_leafDepths_tree_elim hxd
    have haS : a ∈ S := hsub1 _ (hsub2 _ haO)
    have hlt' : (x0, dx0).1.1 < yd.1.1 := by
      rw [hxde] at hlt
      exact hlt
    have hdle : yd.2 ≤ dx0 := by
      rcases hx0 with hx' | hx'
      · exact (hG _ hm1 _ haS (x0, dx0) hx' yd hyd hlt').1
      · exact (hG _ hm2 _ haS (x0, dx0) hx' yd hyd hlt').1
    have hde' : dx0 + 1 = yd.2 := by
      rw [hxde] at hde
      exact hde
    omega

lemma huffLoop_inv : ∀ (fuel : Nat) (S : List (ℚ × TapTree (ℚ × σ)))
    (w : ℚ) (t : TapTree (ℚ × σ)), Inv S →
    huffLoop fuel S = some (w, t) → Inv [(w, t)] := by
  intro fuel
  induction fuel with
  | zero =>
      intro S w t hInv h
      cases S with
      | nil => simp [huffLoop] at h
      | cons a as =>
          cases as with
          | nil =>
              rw [huffLoop] at h
              injection h with h'
              rw [← h']
              exact hInv
          | cons b bs => simp [huffLoop] at h
  | succ n ih =>
      intro S w t hInv h
      cases S with
      | nil => simp [huffLoop] at h
      | cons a as =>
          cases as with
          | nil =>
              rw [huffLoop] at h
              injection h with h'
              rw [← h']
              exact hInv
          | cons b bs =>
              simp only [huffLoop] at h
              cases hp1 : popMin (a :: b :: bs) with
              | none =>
                  rw [popMin_none] at hp1
                  cases hp1
              | some m1r =>
                  obtain ⟨⟨p1, s1⟩, l'⟩ := m1r
                  simp only [hp1] at h
                  cases hp2 : popMin l' with
                  | none =>
                      rw [popMin_none] at hp2
                      have hl := popMin_length hp1
                      rw [hp2] at hl
                      simp at hl
                  | some m2r =>
                      obtain ⟨⟨p2, s2⟩, l''⟩ := m2r
                      simp only [hp2] at h
                      exact ih _ w t (Inv_step hInv hp1 hp2) h

end Invariant

/-- Total number of leaves of the forest. -/
def SC {α : Type} (S : List (ℚ × TapTree α)) : Nat :=
  (S.map (fun a => (leafDepths a.2).length)).sum

lemma SC_append {α : Type} (X Y : List (ℚ × TapTree α)) :
    SC (X ++ Y) = SC X + SC Y := by
  simp [SC]

lemma SC_popMin {α : Type} {l rest : List (ℚ × TapTree α)}
    {m : ℚ × TapTree α} (h : popMin l = some (m, rest)) :
    SC l = (leafDepths m.2).length + SC rest := by
  obtain ⟨l1, l2, he, hr, _, _⟩ := popMin_spec h
  rw [he, hr]
  simp [SC]
  omega

lemma huffLoop_total {α : Type} : ∀ (fuel : Nat)
    (S : List (ℚ × TapTree α)), S ≠ [] → S.length ≤ fuel + 1 →
    ∃ w t, huffLoop fuel S = some (w, t)
      ∧ (leafDepths t).length = SC S := by
  intro fuel
  induction fuel with
  | zero =>
      intro S hne hlen
      cases S with
      | nil => exact absurd rfl hne
      | cons a as =>
          cases as with
          | nil => exact ⟨a.1, a.2, rfl, by simp [SC]⟩
          | cons b bs =>
              exfalso
              simp only [List.length_cons] at hlen
              omega
  | succ n ih =>
      intro S hne hlen
      cases S with
      | nil => exact absurd rfl hne
      | cons a as =>
          cases as with
          | nil => exact ⟨a.1, a.2, rfl, by simp [SC]⟩
          | cons b bs =>
              obtain ⟨⟨p1, s1⟩, l', hp1⟩ :
                  ∃ m1 l', popMin (a :: b :: bs) = some (m1, l') := by
                cases hx : popMin (a :: b :: bs) with
                | none =>
                    rw [popMin_none] at hx
                    cases hx
                | some z => exact ⟨z.1, z.2, rfl⟩
              have hlen1 := popMin_length hp1
              have hne' : l' ≠ [] := by
                intro habs
                rw [habs] at hlen1
                simp only [List.length_nil, List.length_cons] at hlen1
                omega
              obtain ⟨⟨p2, s2⟩, l'', hp2⟩ :
                  ∃ m2 l'', popMin l' = some (m2, l'') := by
                cases hx : popMin l' with
                | none =>
                    rw [popMin_none] at hx
                    exact absurd hx hne'
                | some z => exact ⟨z.1, z.2, rfl⟩
              have hlen2 := popMin_length hp2
              have hnextne : l'' ++ [(p1 + p2, TapTree.Tree s1 s2)] ≠ [] := by
                simp
              have hnextlen :
                  (l'' ++ [(p1 + p2, TapTree.Tree s1 s2)]).length ≤ n + 1 := by
                simp only [List.length_append, List.length_singleton]
                simp only [List.length_cons] at hlen1 hlen2 hlen
                omega
              obtain ⟨w, t, hrun, hcnt⟩ := ih _ hnextne hnextlen
              refine ⟨w, t, ?_, ?_⟩
              · simp only [huffLoop, hp1, hp2]
                exact hrun
              · rw [hcnt]
                have e1 : SC (a :: b :: bs)
                    = (leafDepths s1).length + SC l' := SC_popMin hp1
                have e2 : SC l' = (leafDepths s2).length + SC l'' :=
                  SC_popMin hp2
                have e3 : SC [(p1 + p2, TapTree.Tree s1 s2)]
                    = (leafDepths s1).length + (leafDepths s2).length := by
                  simp [SC, leafDepths]
                rw [SC_append, e1, e2, e3]
                omega

lemma popMin_map {β γ : Type} (g : β → γ) :
    ∀ l : List (ℚ × β),
    popMin (l.map (fun wb => (wb.1, g wb.2)))
      = (popMin l).map
          (fun mr => ((mr.1.1, g mr.1.2),
            mr.2.map (fun wb => (wb.1, g wb.2)))) := by
  intro l
  induction l with
  | nil => rfl
  | cons x xs ih =>
      simp only [List.map, popMin, ih]
      cases hx : popMin xs with
      | none => rfl
      | some mr =>
          obtain ⟨m, rest⟩ := mr
          simp only [Option.map]
          by_cases hc : x.1 ≤ m.1
          · rw [if_pos hc, if_pos hc]
          · rw [if_neg hc, if_neg hc]
            simp [List.map]

lemma huffLoop_map {β γ : Type} (g : β → γ) :
    ∀ (fuel : Nat) (l : List (ℚ × TapTree β)),
    huffLoop fuel (l.map (fun wb => (wb.1, mapTree g wb.2)))
      = (huffLoop fuel l).map (fun wt => (wt.1, mapTree g wt.2)) := by
  intro fuel
  induction fuel with
  | zero =>
      intro l
      cases l with
      | nil => rfl
      | cons a as =>
          cases as with
          | nil => rfl
          | cons b bs => rfl
  | succ n ih =>
      intro l
      cases l with
      | nil => rfl
      | cons a as =>
          cases as with
          | nil => rfl
          | cons b bs =>
              have hml : ((a :: b :: bs).map
                    (fun wb => (wb.1, mapTree g wb.2)))
                  = (a.1, mapTree g a.2) :: (b.1, mapTree g b.2)
                    :: bs.map (fun wb => (wb.1, mapTree g wb.2)) := rfl
              rw [hml]
              simp only [huffLoop]
              rw [← hml, popMin_map]
              cases hp1 : popMin (a :: b :: bs) with
              | none => simp [Option.map]
              | some m1r =>
                  obtain ⟨⟨p1, s1⟩, l'⟩ := m1r
                  simp only [Option.map, popMin_map]
                  cases hp2 : popMin l' with
                  | none => simp [Option.map]
                  | some m2r =>
                      obtain ⟨⟨p2, s2⟩, l''⟩ := m2r
                      simp only [Option.map]
                      have hl : (l''.map (fun wb => (wb.1, mapTree g wb.2))
                            ++ [(p1 + p2, TapTree.Tree (mapTree g s1)
                                (mapTree g s2))])
                          = (l'' ++ [(p1 + p2, TapTree.Tree s1 s2)]).map
                              (fun wb => (wb.1, mapTree g wb.2)) := by
                        simp [List.map_append, mapTree]
                      rw [hl, ih]
                      cases huffLoop n (l'' ++ [(p1 + p2, TapTree.Tree s1 s2)])
                        <;> rfl

lemma withHuffmanTree_map {β γ : Type} (g : β → γ) (ms : List (ℚ × β)) :
    withHuffmanTree (ms.map (fun pa => (pa.1, g pa.2)))
      = (withHuffmanTree ms).map (mapTree g) := by
  cases ms with
  | nil => rfl
  | cons a as =>
      have h1 : withHuffmanTree ((a :: as).map (fun pa => (pa.1, g pa.2)))
          = match huffLoop ((a :: as).map (fun pa => (pa.1, g pa.2))).length
              (((a :: as).map (fun pa => (pa.1, g pa.2))).map
                (fun pa => (pa.1, TapTree.Leaf pa.2))) with
            | some wt => .ok wt.2
            | none => .error (.Unexpected ("Empty Miniscript compilation")) :=
        rfl
      have h2 : withHuffmanTree (a :: as)
          = match huffLoop (a :: as).length
              ((a :: as).map (fun pa => (pa.1, TapTree.Leaf pa.2))) with
            | some wt => .ok wt.2
            | none => .error (.Unexpected ("Empty Miniscript compilation")) :=
        rfl
      rw [h1, h2]
      have hlen : ((a :: as).map (fun pa => (pa.1, g pa.2))).length
          = (a :: as).length := List.length_map _ _
      have hinit : ((a :: as).map (fun pa => (pa.1, g pa.2))).map
            (fun pa => (pa.1, TapTree.Leaf pa.2))
          = ((a :: as).map (fun pa => (pa.1, TapTree.Leaf pa.2))).map
            (fun wb => (wb.1, mapTree g wb.2)) := by
        rw [List.map_map, List.map_map]
        rfl
      rw [hlen, hinit, huffLoop_map]
      cases huffLoop (a :: as).length
          ((a :: as).map (fun pa => (pa.1, TapTree.Leaf pa.2))) with
      | none => rfl
      | some wt => rfl

lemma SC_init {σ : Type} (l : List (ℚ × σ)) :
    SC (l.map (fun pa => (pa.1, TapTree.Leaf (pa.1, pa.2)))) = l.length := by
  induction l with
  | nil => rfl
  | cons x xs ih =>
      simp only [List.map_cons, SC, List.sum_cons, leafDepths,
        List.length_singleton, List.length_cons, List.length_nil]
      simp only [SC] at ih
      omega

lemma withHuffmanTree_instrumented {σ : Type} (ms : List (ℚ × σ))
    (hne : ms ≠ []) (hnn : ∀ x ∈ ms, 0 ≤ x.1) :
    ∃ t : TapTree (ℚ × σ),
      withHuffmanTree (ms.map (fun pa => (pa.1, (pa.1, pa.2)))) = .ok t
      ∧ (leafDepths t).length = ms.length
      ∧ ∀ xd ∈ leafDepths t, ∀ yd ∈ leafDepths t,
          xd.1.1 < yd.1.1 → yd.2 ≤ xd.2 := by
  cases ms with
  | nil => exact absurd rfl hne
  | cons m0 ms' =>
      have hS0 : ((m0 :: ms').map (fun pa => (pa.1, (pa.1, pa.2)))).map
            (fun pa => (pa.1, TapTree.Leaf pa.2))
          = (m0 :: ms').map (fun pa => (pa.1, TapTree.Leaf (pa.1, pa.2))) := by
        rw [List.map_map]
        rfl
      have hInv : Inv ((m0 :: ms').map
            (fun pa => (pa.1, TapTree.Leaf (pa.1, pa.2)))) :=
        Inv_init _ hnn
      have hlen : ((m0 :: ms').map
            (fun pa => (pa.1, TapTree.Leaf (pa.1, pa.2)))).length
          ≤ ((m0 :: ms').map (fun pa => (pa.1, (pa.1, pa.2)))).length + 1 := by
        simp
      obtain ⟨w, t, hrun, hcnt⟩ := huffLoop_total
        ((m0 :: ms').map (fun pa => (pa.1, (pa.1, pa.2)))).length
        ((m0 :: ms').map (fun pa => (pa.1, TapTree.Leaf (pa.1, pa.2))))
        (by simp) hlen
      have hfin : Inv [(w, t)] := huffLoop_inv _ _ w t hInv hrun
      refine ⟨t, ?_, ?_, ?_⟩
      · have hcons : (m0 :: ms').map (fun pa => (pa.1, (pa.1, pa.2)))
            = (m0.1, (m0.1, m0.2))
              :: ms'.map (fun pa => (pa.1, (pa.1, pa.2))) := rfl
        rw [hcons, withHuffmanTree, ← hcons, hS0, hrun]
      · rw [hcnt, SC_init]
      · intro xd hxd yd hyd hlt
        have hG := hfin.2.2.2.1
        exact (hG (w, t) (List.mem_singleton_self _) (w, t)
          (List.mem_singleton_self _) xd hxd yd hyd hlt).1

/-- C6: on a non-empty list of `n` (probability, miniscript) pairs
with nonnegative probabilities, `with_huffman_tree` succeeds and
returns a `TapTree` — by construction a full binary tree, every inner
`Tree` node having exactly two children — with exactly `n` leaves; the
loop builds it by repeatedly popping a lowest-probability node twice
and pushing the combined `Tree(s1, s2)` with summed probability (the
`popMin` conjunct states the pop really is a minimum); in the result,
a leaf with strictly smaller probability is at least as deep as any
leaf with larger probability (witnessed on the instrumented run whose
leaves carry their input probabilities, which erases to the actual
output by `mapTree Prod.snd`); the empty list fails with
`errstr("Empty Miniscript compilation")`. -/
theorem C6_huffman_tree {σ : Type} (ms : List (ℚ × σ)) :
    (ms = [] → withHuffmanTree ms
        = .error (.Unexpected ("Empty Miniscript compilation")))
    ∧ (∀ (l : List (ℚ × TapTree σ)) m rest, popMin l = some (m, rest) →
        m ∈ l ∧ (∀ z ∈ l, m.1 ≤ z.1) ∧ rest.length + 1 = l.length)
    ∧ (ms ≠ [] → (∀ x ∈ ms, 0 ≤ x.1) →
        ∃ t : TapTree (ℚ × σ),
          withHuffmanTree ms = .ok (mapTree Prod.snd t)
          ∧ (leafDepths t).length = ms.length
          ∧ ∀ xd ∈ leafDepths t, ∀ yd ∈ leafDepths t,
              xd.1.1 < yd.1.1 → yd.2 ≤ xd.2) := by
  refine ⟨fun he => by rw [he]; rfl, ?_, ?_⟩
  · intro l m rest h
    exact ⟨popMin_mem h, popMin_le h, popMin_length h⟩
  · intro hne hnn
    obtain ⟨t, hok, hcnt, hmono⟩ := withHuffmanTree_instrumented ms hne hnn
    refine ⟨t, ?_, hcnt, hmono⟩
    have hnat := withHuffmanTree_map (Prod.snd : ℚ × σ → σ)
      (ms.map (fun pa => (pa.1, (pa.1, pa.2))))
    have hcomp : (ms.map (fun pa => (pa.1, (pa.1, pa.2)))).map
          (fun pa => (pa.1, Prod.snd pa.2)) = ms := by
      rw [List.map_map]
      exact List.map_id ms
    rw [hcomp] at hnat
    rw [hnat, hok]
    rfl

/-- Witness: the Huffman theorem applied to the two-element input
`[(1, 10), (2, 20)]`, hypotheses discharged by evaluation. -/
theorem C6_huffman_tree_witness :
    (([((1 : ℚ), (10 : Nat)), (2, 20)] : List (ℚ × Nat)) ≠ [])
    ∧ (∀ x ∈ ([((1 : ℚ), (10 : Nat)), (2, 20)] : List (ℚ × Nat)), 0 ≤ x.1)
    ∧ ∃ t : TapTree (ℚ × Nat),
        withHuffmanTree ([((1 : ℚ), (10 : Nat)), (2, 20)] : List (ℚ × Nat))
          = .ok (mapTree Prod.snd t)
        ∧ (leafDepths t).length = 2
        ∧ ∀ xd ∈ leafDepths t, ∀ yd ∈ leafDepths t,
            xd.1.1 < yd.1.1 → yd.2 ≤ xd.2 :=
  ⟨by decide, by decide,
    (C6_huffman_tree [((1 : ℚ), (10 : Nat)), (2, 20)]).2.2
      (by decide) (by decide)⟩

end Huffman

end Miniscript
